import Mathlib

set_option linter.unusedTactic false
set_option linter.unreachableTactic false
set_option linter.unusedVariables false

/-!
The containers `static_vector` and `blist`: a shallow embedding.

`static_vector< T, Capacity >` (src/static_vector.hpp) is embedded at the level of
its raw slots.  An iterator `T *` into the inline buffer is the offset of the slot
it designates, so `begin()` is `0` and `end()` is `_size`.  Every slot carries the
value stored in it together with the bookkeeping counters of the element type
`TractingInt` of src/test_static_vector.cpp (`constructed`, `moved_to`,
`moved_from`, `copied_to`, `destructed`), so that the placement constructions,
assignments and destructions performed by the container can be observed.
-/

/-- Behaviour of the element type under `std::move`: the value that is left
behind in a moved-from object.  For `int` and for `TractingInt` the source keeps
its value; for `std::unique_ptr` it becomes null. -/
class Movable (T : Type) where
  moved_from : T → T

instance : Movable Int := ⟨fun x => x⟩

/-- The exceptions thrown by `static_vector`: `static_vector_full`
(a `std::logic_error`) and `std::out_of_range`. -/
inductive Exception where
  | static_vector_full
  | out_of_range
  deriving DecidableEq, Repr

/-- One slot of the buffer `_data`: the stored value and the counters which
`TractingInt` keeps in the slot's own memory (they survive the end of the
lifetime of the object, which is why the test allocates with `calloc`). -/
structure Slot (T : Type) where
  v : T
  constructed : Nat
  moved_to : Nat
  moved_from : Nat
  copied_to : Nat
  destructed : Nat

/-- A slot holds a live object: constructed once more than destroyed
(`constructed == destructed + 1` in the test's `eq`). -/
def Slot.live {T : Type} (c : Slot T) : Prop := c.constructed = c.destructed + 1

/-- A slot holds no object: `constructed == destructed`, the condition that
`TractingInt::construct` asserts before it counts the construction. -/
def Slot.dead {T : Type} (c : Slot T) : Prop := c.constructed = c.destructed

instance {T : Type} (c : Slot T) : Decidable c.live := by
  unfold Slot.live; exact inferInstance

instance {T : Type} (c : Slot T) : Decidable c.dead := by
  unfold Slot.dead; exact inferInstance

/-- Number of values of `size_t` (64 bit). -/
def size_t_mod : Nat := 18446744073709551616

/-- Largest value of `ptrdiff_t`, the type of `std::distance`; also the largest
size of an object, hence a bound on `Capacity`. -/
def ptrdiff_max : Nat := 9223372036854775807

/-- Number of values of `internal_size`: `uint32_t` when
`Capacity <= numeric_limits< uint32_t >::max()`, `size_t` otherwise. -/
def internal_size (Capacity : Nat) : Nat :=
  if Capacity ≤ 4294967295 then 4294967296 else size_t_mod

/-- The object `static_vector< T, Capacity >`: the buffer `_data` (slot by slot),
the counter `_size`, and a ghost counter `faults` of lifetime violations: a
construction in a slot that is live or outside the buffer, an assignment to or a
move from or a destruction of a slot that is not live. -/
structure static_vector (T : Type) (Capacity : Nat) where
  _data : Nat → Slot T
  _size : Nat
  faults : Nat

namespace static_vector

variable {T : Type} {Capacity : Nat}

/-- Iterator `begin()`. -/
def begin_ (_s : static_vector T Capacity) : Nat := 0

/-- Iterator `end()`: `begin() + _size`. -/
def end_ (s : static_vector T Capacity) : Nat := s.begin_ + s._size

/-- Member `size()`. -/
def size (s : static_vector T Capacity) : Nat := s._size

/-- Member `empty()`: `_size == 0`. -/
def empty (s : static_vector T Capacity) : Bool := s._size == 0

/-- Member `full()`: `_size == Capacity`. -/
def full (s : static_vector T Capacity) : Bool := s._size == Capacity

/-- The sequence `[begin(), end())` of stored values. -/
def contents (s : static_vector T Capacity) : List T :=
  (List.range s._size).map (fun i => (s._data i).v)

/-- Placement construction `new ( p ) T( x )` from a value that does not live in
the buffer. -/
def construct_at (s : static_vector T Capacity) (p : Nat) (x : T) :
    static_vector T Capacity :=
  let c := s._data p
  { s with
    _data := Function.update s._data p { c with v := x, constructed := c.constructed + 1 }
    faults := if p < Capacity ∧ c.dead then s.faults else s.faults + 1 }

/-- Move construction `new ( dst ) T( std::move( *src ) )` between two slots. -/
def move_construct [Movable T] (s : static_vector T Capacity) (dst src : Nat) :
    static_vector T Capacity :=
  let a := s._data src
  let d1 := Function.update s._data src { a with v := Movable.moved_from a.v }
  let b := d1 dst
  { s with
    _data := Function.update d1 dst { b with v := a.v, constructed := b.constructed + 1 }
    faults := if dst < Capacity ∧ a.live ∧ (s._data dst).dead then s.faults
              else s.faults + 1 }

/-- Move assignment `*dst = std::move( *src )` between two slots
(`++moved_to; ++o.moved_from` in `TractingInt`).  When `dst` and `src` are the same
slot the value is kept and both counters move, as for `int`, `TractingInt` and
`std::unique_ptr`. -/
def move_assign [Movable T] (s : static_vector T Capacity) (dst src : Nat) :
    static_vector T Capacity :=
  let a := s._data src
  let d1 := Function.update s._data src
    { a with v := Movable.moved_from a.v, moved_from := a.moved_from + 1 }
  let b := d1 dst
  { s with
    _data := Function.update d1 dst { b with v := a.v, moved_to := b.moved_to + 1 }
    faults := if a.live ∧ (s._data dst).live then s.faults else s.faults + 1 }

/-- Copy assignment `*dst = x` from a value that does not live in the buffer
(`++copied_to` in `TractingInt`). -/
def copy_assign (s : static_vector T Capacity) (dst : Nat) (x : T) :
    static_vector T Capacity :=
  let c := s._data dst
  { s with
    _data := Function.update s._data dst { c with v := x, copied_to := c.copied_to + 1 }
    faults := if c.live then s.faults else s.faults + 1 }

/-- Destruction `std::destroy_at( p )`. -/
def destroy_at (s : static_vector T Capacity) (p : Nat) : static_vector T Capacity :=
  let c := s._data p
  { s with
    _data := Function.update s._data p { c with destructed := c.destructed + 1 }
    faults := if c.live then s.faults else s.faults + 1 }

/-- Algorithm `std::uninitialized_move_n( first, n, d_first )`. -/
def uninitialized_move_n [Movable T] (s : static_vector T Capacity) (first : Nat) :
    Nat → Nat → static_vector T Capacity
  | 0, _ => s
  | n + 1, d_first =>
    uninitialized_move_n (s.move_construct d_first first) (first + 1) n (d_first + 1)

/-- Loop of `std::move_backward`, `n` elements left:
`*( --d_last ) = std::move( *( --last ) )`. -/
def move_backward_n [Movable T] (s : static_vector T Capacity) :
    Nat → Nat → Nat → static_vector T Capacity
  | 0, _, _ => s
  | n + 1, last, d_last =>
    move_backward_n (s.move_assign (d_last - 1) (last - 1)) n (last - 1) (d_last - 1)

/-- Algorithm `std::move_backward( first, last, d_last )`. -/
def move_backward [Movable T] (s : static_vector T Capacity) (first last d_last : Nat) :
    static_vector T Capacity :=
  s.move_backward_n (last - first) last d_last

/-- Loop of `std::move`, `n` elements left:
`*d_first++ = std::move( *first++ )`. -/
def move_n [Movable T] (s : static_vector T Capacity) :
    Nat → Nat → Nat → static_vector T Capacity
  | 0, _, _ => s
  | n + 1, first, d_first =>
    move_n (s.move_assign d_first first) n (first + 1) (d_first + 1)

/-- Algorithm `std::move( first, last, d_first )`; the returned iterator is
`d_first + ( last - first )`. -/
def move [Movable T] (s : static_vector T Capacity) (first last d_first : Nat) :
    Nat × static_vector T Capacity :=
  (d_first + (last - first), s.move_n (last - first) first d_first)

/-- Algorithm `std::copy( first, last, d_first )` from an input range that lies
outside the buffer. -/
def copy (s : static_vector T Capacity) : List T → Nat → static_vector T Capacity
  | [], _ => s
  | x :: xs, d_first => copy (s.copy_assign d_first x) xs (d_first + 1)

/-- Loop of `std::destroy`, `n` elements left. -/
def destroy_n (s : static_vector T Capacity) : Nat → Nat → static_vector T Capacity
  | 0, _ => s
  | n + 1, first => destroy_n (s.destroy_at first) n (first + 1)

/-- Algorithm `std::destroy( first, last )`. -/
def destroy (s : static_vector T Capacity) (first last : Nat) : static_vector T Capacity :=
  s.destroy_n (last - first) first

/-- An argument of `try_emplace`, `emplace`, `insert`, `emplace_back` and
`push_back`, from which the new element is constructed.  These members take it by
reference (`Args &&...`, `const T &`, `T &&`), and the element is constructed from
it only after the tail has been shifted: `val x` is an object outside the buffer
that holds `x`, `lref j` is an lvalue reference to the element in slot `j` of the
buffer (as in `v.insert( pos, v[ j ] )`), and `rref j` is an rvalue reference to it
(`std::move( v[ j ] )`). -/
inductive Arg (T : Type) where
  | val (x : T) : Arg T
  | lref (j : Nat) : Arg T
  | rref (j : Nat) : Arg T

/-- A value that does not live in the buffer is the argument `val`. -/
instance : Coe T (Arg T) := ⟨Arg.val⟩

/-- The argument named as an lvalue inside a member that took it as `const T &`
(what the member forwards is copied from). -/
def Arg.as_lvalue : Arg T → Arg T
  | .rref j => .lref j
  | a => a

/-- The argument under `std::move`, inside a member that took it as `T &&` (what
the member forwards is moved from). -/
def Arg.as_rvalue : Arg T → Arg T
  | .lref j => .rref j
  | a => a

/-- The value that the argument designates when the call is made. -/
def Arg.read (s : static_vector T Capacity) : Arg T → T
  | .val x => x
  | .lref j => (s._data j).v
  | .rref j => (s._data j).v

/-- The argument is an object outside the buffer, or an lvalue reference to an
element before the slot `pos`. -/
def Arg.before (pos : Nat) : Arg T → Prop
  | .val _ => True
  | .lref j => j < pos
  | .rref _ => False

/-- Copy construction `new ( dst ) T( *src )` between two slots: the source is
read when the construction runs. -/
def copy_construct (s : static_vector T Capacity) (dst src : Nat) :
    static_vector T Capacity :=
  let a := s._data src
  let b := s._data dst
  { s with
    _data := Function.update s._data dst { b with v := a.v, constructed := b.constructed + 1 }
    faults := if dst < Capacity ∧ a.live ∧ b.dead then s.faults else s.faults + 1 }

/-- Placement construction `new ( pos ) T( std::forward< Args >( args )... )`: from
an outside object, by copy from the slot an lvalue reference designates, or by move
from the slot an rvalue reference designates, each read at this point. -/
def construct_from [Movable T] (s : static_vector T Capacity) (pos : Nat) :
    Arg T → static_vector T Capacity
  | .val x => s.construct_at pos x
  | .lref j => s.copy_construct pos j
  | .rref j => s.move_construct pos j

/-- Member `try_emplace( pos, args... )` for `pos` in `[begin(), end()]`: the tail
is shifted and `*pos` destroyed first, the new element is constructed from the
argument last. -/
def try_emplace [Movable T] (s : static_vector T Capacity) (pos : Nat) (x : Arg T) :
    Option Nat × static_vector T Capacity :=
  if s._size = Capacity then (none, s)
  else
    let s1 :=
      if pos ≠ s.end_ ∧ s._size ≠ 0 then
        let a := s.uninitialized_move_n (s.end_ - 1) 1 s.end_
        let b := if s.end_ - 1 > pos then a.move_backward pos (s.end_ - 1) s.end_ else a
        b.destroy_at pos
      else s
    let s2 := { s1 with _size := (s1._size + 1) % internal_size Capacity }
    (some pos, s2.construct_from pos x)

/-- Member `emplace( pos, args... )`. -/
def emplace [Movable T] (s : static_vector T Capacity) (pos : Nat) (x : Arg T) :
    Except Exception Nat × static_vector T Capacity :=
  match s.try_emplace pos x with
  | (some r, s1) => (.ok r, s1)
  | (none, s1) => (.error .static_vector_full, s1)

/-- Member `insert( pos, const T &value )`: `emplace( pos, value )`. -/
def insert [Movable T] (s : static_vector T Capacity) (pos : Nat) (value : Arg T) :
    Except Exception Nat × static_vector T Capacity :=
  s.emplace pos value.as_lvalue

/-- Member `insert( pos, T &&value )`: `emplace( pos, std::move( value ) )`. -/
def insert_rvalue [Movable T] (s : static_vector T Capacity) (pos : Nat) (value : Arg T) :
    Except Exception Nat × static_vector T Capacity :=
  s.emplace pos value.as_rvalue

/-- Member `emplace_back( args... )`: `emplace( end(), args... )`, result dropped. -/
def emplace_back [Movable T] (s : static_vector T Capacity) (x : Arg T) :
    Except Exception Unit × static_vector T Capacity :=
  match s.emplace s.end_ x with
  | (.ok _, s1) => (.ok (), s1)
  | (.error e, s1) => (.error e, s1)

/-- Member `push_back( const T &val )`: `emplace_back( val )`. -/
def push_back [Movable T] (s : static_vector T Capacity) (val : Arg T) :
    Except Exception Unit × static_vector T Capacity :=
  s.emplace_back val.as_lvalue

/-- The loop of the second branch of the range `insert`:
`for ( size_t i = 0; first != last; ++i, ++first, ++dst )`. -/
def insert_loop (to_end : Nat) (s : static_vector T Capacity) :
    Nat → List T → Nat → static_vector T Capacity
  | _, [], _ => s
  | i, x :: xs, dst =>
    insert_loop to_end (if i < to_end then s.copy_assign dst x else s.construct_at dst x)
      (i + 1) xs (dst + 1)

/-- Member `insert( pos, first, last )` for the input range `r`, which lies
outside the buffer; `dist = std::distance( first, last )` is the length of `r`, and
`pos` lies in `[begin(), end()]`.  The sum `_size + size_t( dist )` is computed in
`size_t`, the new size is stored in `internal_size`. -/
def insert_range [Movable T] (s : static_vector T Capacity) (pos : Nat) (r : List T) :
    Except Exception Nat × static_vector T Capacity :=
  let dist := r.length
  if dist ≤ 0 then (.ok pos, s)
  else if (s._size + dist % size_t_mod) % size_t_mod > Capacity then
    (.error .static_vector_full, s)
  else
    let to_end := s.end_ - pos
    let s1 :=
      if to_end ≥ dist % size_t_mod then
        let a := s.uninitialized_move_n (s.end_ - dist) dist s.end_
        let b := a.move_backward pos (s.end_ - dist) s.end_
        b.copy r pos
      else
        let a := s.uninitialized_move_n (s.end_ - to_end) to_end (s.end_ + dist - to_end)
        insert_loop to_end a 0 r pos
    (.ok pos, { s1 with _size := (s1._size + dist) % internal_size Capacity })

/-- Member `erase( first, last )` for `begin() <= first <= last <= end()`.  The
difference `last - first` is a `ptrdiff_t`; the new size is stored in
`internal_size`. -/
def erase_range [Movable T] (s : static_vector T Capacity) (first last : Nat) :
    Nat × static_vector T Capacity :=
  let (it, s1) := s.move last s.end_ first
  let s2 := s1.destroy it s1.end_
  (first, { s2 with _size :=
    (((s2._size : Int) - ((last : Int) - (first : Int))) % (internal_size Capacity : Int)).toNat })

/-- Member `erase( pos )`: `erase( pos, pos + 1 )`. -/
def erase [Movable T] (s : static_vector T Capacity) (pos : Nat) :
    Nat × static_vector T Capacity :=
  s.erase_range pos (pos + 1)

/-- Dereferencing an iterator: the value in the slot it designates. -/
def deref (s : static_vector T Capacity) (it : Nat) : T := (s._data it).v

/-- The invariant of §3.1 on the slots: the size is at most the capacity, the
slots `[0, _size)` are live and the slots `[_size, Capacity)` hold no object. -/
structure wf (s : static_vector T Capacity) : Prop where
  size_le : s._size ≤ Capacity
  live : ∀ i, i < s._size → (s._data i).constructed = (s._data i).destructed + 1
  dead : ∀ i, s._size ≤ i → i < Capacity → (s._data i).constructed = (s._data i).destructed

/-- A buffer in which the values `l` are live in the first slots, as the test's
`mk` builds it in zeroed memory: every live slot was constructed once, every
other slot never. -/
def of_list (l : List Int) (Capacity : Nat) : static_vector Int Capacity :=
  { _data := fun i => ⟨l.getD i 0, if i < l.length then 1 else 0, 0, 0, 0, 0⟩
    _size := l.length
    faults := 0 }

/-- Member `operator[]( pos )`: `begin()[ pos ]`. -/
def index (s : static_vector T Capacity) (pos : Nat) : T := (s._data (s.begin_ + pos)).v

/-- Member `data()`: `begin()`. -/
def data (s : static_vector T Capacity) : Nat := s.begin_

/-- Algorithm `std::uninitialized_copy( first, last, d_first )` from an input range
that lies outside this buffer: `::new ( d_first ) T( *first )` for each element. -/
def uninitialized_copy (s : static_vector T Capacity) : List T → Nat → static_vector T Capacity
  | [], _ => s
  | x :: xs, d_first => uninitialized_copy (s.construct_at d_first x) xs (d_first + 1)

/-- Loop of `std::uninitialized_fill`, `n` slots left: `::new ( first ) T( value )`. -/
def uninitialized_fill_n (s : static_vector T Capacity) (value : T) :
    Nat → Nat → static_vector T Capacity
  | 0, _ => s
  | n + 1, first => uninitialized_fill_n (s.construct_at first value) value n (first + 1)

/-- Algorithm `std::uninitialized_fill( first, last, value )`. -/
def uninitialized_fill (s : static_vector T Capacity) (first last : Nat) (value : T) :
    static_vector T Capacity :=
  s.uninitialized_fill_n value (last - first) first

/-- Loop of `std::fill`, `n` slots left: `*first = value`. -/
def fill_n (s : static_vector T Capacity) (value : T) : Nat → Nat → static_vector T Capacity
  | 0, _ => s
  | n + 1, first => fill_n (s.copy_assign first value) value n (first + 1)

/-- Algorithm `std::fill( first, last, value )`. -/
def fill (s : static_vector T Capacity) (first last : Nat) (value : T) :
    static_vector T Capacity :=
  s.fill_n value (last - first) first

/-- The loops `for ( auto &loc : *this ) new ( &loc ) T();` of the count constructor
and `for ( auto e = end(); it < e; ++it ) new ( it ) T();` of `resize`, `n` slots
left; `T()` is `default`. -/
def value_construct_n [Inhabited T] (s : static_vector T Capacity) :
    Nat → Nat → static_vector T Capacity
  | 0, _ => s
  | n + 1, it => value_construct_n (s.construct_at it default) n (it + 1)

/-- Move construction `new ( dst ) T( std::move( *src ) )` of a slot of this buffer
from a slot of the buffer of `o`; the results are this vector and `o`. -/
def move_construct_from [Movable T] (s o : static_vector T Capacity) (dst src : Nat) :
    static_vector T Capacity × static_vector T Capacity :=
  let a := o._data src
  (s.construct_at dst a.v,
   { o with
     _data := Function.update o._data src { a with v := Movable.moved_from a.v }
     faults := if a.live then o.faults else o.faults + 1 })

/-- Move assignment `*dst = std::move( *src )` to a slot of this buffer from a slot
of the buffer of `o`; the results are this vector and `o`. -/
def move_assign_from [Movable T] (s o : static_vector T Capacity) (dst src : Nat) :
    static_vector T Capacity × static_vector T Capacity :=
  let a := o._data src
  let b := s._data dst
  ({ s with
     _data := Function.update s._data dst { b with v := a.v, moved_to := b.moved_to + 1 }
     faults := if b.live then s.faults else s.faults + 1 },
   { o with
     _data := Function.update o._data src
       { a with v := Movable.moved_from a.v, moved_from := a.moved_from + 1 }
     faults := if a.live then o.faults else o.faults + 1 })

/-- Loop of `std::uninitialized_move( first, last, d_first )` from the buffer of `o`
into this buffer, `n` elements left. -/
def uninitialized_move_from [Movable T] :
    Nat → static_vector T Capacity → static_vector T Capacity → Nat → Nat →
    static_vector T Capacity × static_vector T Capacity
  | 0, s, o, _, _ => (s, o)
  | n + 1, s, o, first, d_first =>
    uninitialized_move_from n (s.move_construct_from o d_first first).1
      (s.move_construct_from o d_first first).2 (first + 1) (d_first + 1)

/-- Loop of `std::move( first, last, d_first )` from the buffer of `o` into this
buffer, `n` elements left. -/
def move_from [Movable T] :
    Nat → static_vector T Capacity → static_vector T Capacity → Nat → Nat →
    static_vector T Capacity × static_vector T Capacity
  | 0, s, o, _, _ => (s, o)
  | n + 1, s, o, first, d_first =>
    move_from n (s.move_assign_from o d_first first).1
      (s.move_assign_from o d_first first).2 (first + 1) (d_first + 1)

/-- Member `_destroy_elems()`: `std::destroy( begin(), end() )`. -/
def _destroy_elems (s : static_vector T Capacity) : static_vector T Capacity :=
  s.destroy s.begin_ s.end_

/-- Member `clear()`. -/
def clear (s : static_vector T Capacity) : static_vector T Capacity :=
  { s._destroy_elems with _size := 0 }

/-- Member `_set_size( size )`: destroys the tail when the size shrinks; the new
size is stored in `internal_size`. -/
def _set_size (s : static_vector T Capacity) (size : Nat) : static_vector T Capacity :=
  let s1 := if size < s._size then s.destroy (s.begin_ + size) s.end_ else s
  { s1 with _size := size % internal_size Capacity }

/-- Member `_check_count_ctor( count )`. -/
def _check_count_ctor (Capacity : Nat) (count : Nat) : Except Exception Unit :=
  if count > Capacity then .error .static_vector_full else .ok ()

/-- Member `_resize( count )`: the result is the old `end()`. -/
def _resize (s : static_vector T Capacity) (count : Nat) :
    Except Exception Nat × static_vector T Capacity :=
  if count > Capacity then (.error .static_vector_full, s)
  else (.ok s.end_, s._set_size count)

/-- Member `resize( count )`. -/
def resize [Inhabited T] (s : static_vector T Capacity) (count : Nat) :
    Except Exception Unit × static_vector T Capacity :=
  match s._resize count with
  | (.error e, s1) => (.error e, s1)
  | (.ok it, s1) => (.ok (), s1.value_construct_n (s1.end_ - it) it)

/-- Member `resize( count, value )`. -/
def resize_value (s : static_vector T Capacity) (count : Nat) (value : T) :
    Except Exception Unit × static_vector T Capacity :=
  match s._resize count with
  | (.error e, s1) => (.error e, s1)
  | (.ok it, s1) => (.ok (), if it < s1.end_ then s1.fill it s1.end_ value else s1)

/-- Member `pop_back()`: `std::destroy_at( &back() ); --_size;` for a vector that is
not empty. -/
def pop_back (s : static_vector T Capacity) : static_vector T Capacity :=
  { s.destroy_at (s.end_ - 1) with
    _size := (s._size + internal_size Capacity - 1) % internal_size Capacity }

/-- The default constructor `static_vector()` in the storage `mem`: `_size = 0`, no
slot is touched. -/
def ctor_default (Capacity : Nat) (mem : Nat → Slot T) : static_vector T Capacity :=
  { _data := mem, _size := 0, faults := 0 }

/-- The constructor `static_vector( count )` in the storage `mem`: `_size( count )`
stores the count in `internal_size`, then the check, then the constructions. -/
def ctor_count [Inhabited T] (Capacity : Nat) (mem : Nat → Slot T) (count : Nat) :
    Except Exception Unit × static_vector T Capacity :=
  let s : static_vector T Capacity :=
    { _data := mem, _size := count % internal_size Capacity, faults := 0 }
  match _check_count_ctor Capacity count with
  | .error e => (.error e, s)
  | .ok _ => (.ok (), s.value_construct_n (s.end_ - s.begin_) s.begin_)

/-- The constructor `static_vector( count, value )` in the storage `mem`. -/
def ctor_fill (Capacity : Nat) (mem : Nat → Slot T) (count : Nat) (value : T) :
    Except Exception Unit × static_vector T Capacity :=
  let s : static_vector T Capacity :=
    { _data := mem, _size := count % internal_size Capacity, faults := 0 }
  match _check_count_ctor Capacity count with
  | .error e => (.error e, s)
  | .ok _ => (.ok (), s.uninitialized_fill s.begin_ s.end_ value)

/-- The copy constructor `static_vector( const static_vector &other )` in the
storage `mem`; `other` is read only. -/
def ctor_copy (mem : Nat → Slot T) (other : static_vector T Capacity) :
    static_vector T Capacity :=
  let s : static_vector T Capacity := { _data := mem, _size := other._size, faults := 0 }
  s.uninitialized_copy other.contents s.begin_

/-- The move constructor `static_vector( static_vector &&other )` in the storage
`mem`; the results are the new vector and `other` after `other.clear()`. -/
def ctor_move [Movable T] (mem : Nat → Slot T) (other : static_vector T Capacity) :
    static_vector T Capacity × static_vector T Capacity :=
  let s : static_vector T Capacity := { _data := mem, _size := other._size, faults := 0 }
  let r := uninitialized_move_from (other.end_ - other.begin_) s other other.begin_ s.begin_
  (r.1, r.2.clear)

/-- The loop `for ( ; first != last; ++first ) push_back( *first );` of the range
constructor; an exception of `push_back` ends it. -/
def push_back_all [Movable T] (s : static_vector T Capacity) :
    List T → Except Exception Unit × static_vector T Capacity
  | [] => (.ok (), s)
  | x :: xs =>
    match s.push_back x with
    | (.ok _, s1) => push_back_all s1 xs
    | (.error e, s1) => (.error e, s1)

/-- The constructor `static_vector( first, last )` in the storage `mem`, for the
input range `r`. -/
def ctor_range [Movable T] (Capacity : Nat) (mem : Nat → Slot T) (r : List T) :
    Except Exception Unit × static_vector T Capacity :=
  (ctor_default Capacity mem).push_back_all r

/-- The constructor `static_vector( std::initializer_list< T > init )`, which
delegates to the range constructor. -/
def ctor_ilist [Movable T] (Capacity : Nat) (mem : Nat → Slot T) (init : List T) :
    Except Exception Unit × static_vector T Capacity :=
  ctor_range Capacity mem init

/-- The destructor `~static_vector()`: `_destroy_elems()`. -/
def dtor (s : static_vector T Capacity) : static_vector T Capacity :=
  s._destroy_elems

/-- Member `operator=( const static_vector &o )`; `o_is_this` says whether
`&o == this`.  `o` is read only. -/
def assign_copy (s o : static_vector T Capacity) (o_is_this : Bool) :
    static_vector T Capacity :=
  if o_is_this then s
  else
    let s1 := s._set_size o._size
    s1.copy o.contents s1.begin_

/-- Member `operator=( static_vector &&o )`; `o_is_this` says whether `&o == this`.
The results are this vector and `o`. -/
def assign_move [Movable T] (s o : static_vector T Capacity) (o_is_this : Bool) :
    static_vector T Capacity × static_vector T Capacity :=
  if o_is_this then (s, o)
  else
    let s1 := s._set_size o._size
    let r := move_from (o.end_ - o.begin_) s1 o o.begin_ s1.begin_
    (r.1, r.2.clear)

/-- Member `operator=( std::initializer_list< T > init )`. -/
def assign_ilist (s : static_vector T Capacity) (init : List T) :
    Except Exception Unit × static_vector T Capacity :=
  if init.length > Capacity then (.error .static_vector_full, s)
  else
    let s1 := s._set_size init.length
    (.ok (), s1.copy init s1.begin_)

/-- Algorithm `std::equal( first1, last1, first2, last2 )` on the two sequences. -/
def std_equal [DecidableEq T] : List T → List T → Bool
  | [], [] => true
  | x :: xs, y :: ys => if x = y then std_equal xs ys else false
  | _, _ => false

/-- Member `operator==( o )`. -/
def operator_eq [DecidableEq T] (s o : static_vector T Capacity) : Bool :=
  std_equal s.contents o.contents

/-- The state in which `try_emplace( pos, args... )` leaves a vector when
`T( args... )` throws: the exception leaves the placement `new` at the end of
`try_emplace` and nothing in `try_emplace` or `emplace` catches it.  A full vector
returns `nullopt` before any construction. -/
def try_emplace_throws [Movable T] (s : static_vector T Capacity) (pos : Nat) :
    static_vector T Capacity :=
  if s._size = Capacity then s
  else
    let s1 :=
      if pos ≠ s.end_ ∧ s._size ≠ 0 then
        let a := s.uninitialized_move_n (s.end_ - 1) 1 s.end_
        let b := if s.end_ - 1 > pos then a.move_backward pos (s.end_ - 1) s.end_ else a
        b.destroy_at pos
      else s
    { s1 with _size := (s1._size + 1) % internal_size Capacity }

/-- Sum of `f i` over the slots `i < n`. -/
def slot_sum (f : Nat → Nat) : Nat → Nat
  | 0 => 0
  | n + 1 => slot_sum f n + f n

/-- Number of constructions counted in the slots of the buffer (`ctor_cnt` of the
test's `InstanceCounter`). -/
def ctor_cnt (s : static_vector T Capacity) : Nat :=
  slot_sum (fun i => (s._data i).constructed) Capacity

/-- Number of destructions counted in the slots of the buffer (`dtor_cnt` of the
test's `InstanceCounter`). -/
def dtor_cnt (s : static_vector T Capacity) : Nat :=
  slot_sum (fun i => (s._data i).destructed) Capacity

/-- Storage in which no object was ever constructed: zeroed counters, as the
memory of the test's `calloc`, holding the values `g`. -/
def fresh (g : Nat → T) : Nat → Slot T := fun i => ⟨g i, 0, 0, 0, 0, 0⟩

/-- The constructions of a vector: default, count, fill, range (to which the
initializer-list constructor delegates), copy and move. -/
inductive Ctor (T : Type) (Capacity : Nat) where
  | default_ : Ctor T Capacity
  | count (count : Nat) : Ctor T Capacity
  | fill (count : Nat) (value : T) : Ctor T Capacity
  | range (r : List T) : Ctor T Capacity
  | copy (other : static_vector T Capacity) : Ctor T Capacity
  | move (other : static_vector T Capacity) : Ctor T Capacity

/-- The source of a copy or move construction is a vector in a valid state. -/
def Ctor.valid : Ctor T Capacity → Prop
  | .copy other => other.wf
  | .move other => other.wf
  | _ => True

/-- Running a constructor on the raw storage `mem`: whether it returned or
threw, and the vector it leaves. -/
def Ctor.run [Inhabited T] [Movable T] (mem : Nat → Slot T) :
    Ctor T Capacity → Except Exception Unit × static_vector T Capacity
  | .default_ => (.ok (), ctor_default Capacity mem)
  | .count n => ctor_count Capacity mem n
  | .fill n value => ctor_fill Capacity mem n value
  | .range r => ctor_range Capacity mem r
  | .copy other => (.ok (), ctor_copy mem other)
  | .move other => (.ok (), (ctor_move mem other).1)

/-- The member calls of a vector's lifecycle: `try_emplace`, `emplace`, the two
single-element `insert` overloads, the range `insert`, `push_back`,
`emplace_back`, `pop_back`, the two `erase` overloads, `resize( count )` and
`clear`.  The element arguments are objects outside the vector. -/
inductive Call (T : Type) where
  | try_emplace (pos : Nat) (x : T) : Call T
  | emplace (pos : Nat) (x : T) : Call T
  | insert (pos : Nat) (value : T) : Call T
  | insert_rvalue (pos : Nat) (value : T) : Call T
  | insert_range (pos : Nat) (r : List T) : Call T
  | push_back (val : T) : Call T
  | emplace_back (x : T) : Call T
  | pop_back : Call T
  | erase (pos : Nat) : Call T
  | erase_range (first last : Nat) : Call T
  | resize (count : Nat) : Call T
  | clear : Call T

/-- The precondition of a call on its iterator arguments: an insertion position
lies in `[begin(), end()]`, the length of an inserted range is a `ptrdiff_t`, an
erased position lies in `[begin(), end())`, an erased range is
`first <= last <= end()`, and `pop_back` needs a last element. -/
def Call.pre (s : static_vector T Capacity) : Call T → Bool
  | .try_emplace pos _ => decide (pos ≤ s.end_)
  | .emplace pos _ => decide (pos ≤ s.end_)
  | .insert pos _ => decide (pos ≤ s.end_)
  | .insert_rvalue pos _ => decide (pos ≤ s.end_)
  | .insert_range pos r => decide (pos ≤ s.end_ ∧ r.length ≤ ptrdiff_max)
  | .pop_back => decide (0 < s._size)
  | .erase pos => decide (pos < s.end_)
  | .erase_range first last => decide (first ≤ last ∧ last ≤ s.end_)
  | _ => true

/-- Running a call: whether it succeeded (returned an iterator rather than
`nullopt`, or returned rather than threw), and the vector it leaves. -/
def Call.run [Inhabited T] [Movable T] (s : static_vector T Capacity) :
    Call T → Bool × static_vector T Capacity
  | .try_emplace pos x => ((s.try_emplace pos x).1.isSome, (s.try_emplace pos x).2)
  | .emplace pos x => ((s.emplace pos x).1.toBool, (s.emplace pos x).2)
  | .insert pos value => ((s.insert pos value).1.toBool, (s.insert pos value).2)
  | .insert_rvalue pos value =>
    ((s.insert_rvalue pos value).1.toBool, (s.insert_rvalue pos value).2)
  | .insert_range pos r => ((s.insert_range pos r).1.toBool, (s.insert_range pos r).2)
  | .push_back val => ((s.push_back val).1.toBool, (s.push_back val).2)
  | .emplace_back x => ((s.emplace_back x).1.toBool, (s.emplace_back x).2)
  | .pop_back => (true, s.pop_back)
  | .erase pos => (true, (s.erase pos).2)
  | .erase_range first last => (true, (s.erase_range first last).2)
  | .resize count => ((s.resize count).1.toBool, (s.resize count).2)
  | .clear => (true, s.clear)

/-- Every call of the sequence meets its precondition and succeeds, each run
on the vector that the calls before it leave. -/
def calls_ok [Inhabited T] [Movable T] (s : static_vector T Capacity) : List (Call T) → Bool
  | [] => true
  | c :: cs => c.pre s && (c.run s).1 && calls_ok (c.run s).2 cs

/-- The vector after each call of a sequence of calls. -/
def states [Inhabited T] [Movable T] (s : static_vector T Capacity) :
    List (Call T) → List (static_vector T Capacity)
  | [] => []
  | c :: cs => (c.run s).2 :: states (c.run s).2 cs

/-- The vector after the last call of a sequence of calls. -/
def final [Inhabited T] [Movable T] (s : static_vector T Capacity) :
    List (Call T) → static_vector T Capacity
  | [] => s
  | c :: cs => final (c.run s).2 cs

/-- Helper `_at( self, pos )`: throws `std::out_of_range` when `pos >= self._size`,
otherwise yields the reference `self.begin()[ pos ]`, that is the slot at offset
`pos`.  It writes nothing: the vector is passed on as it was. -/
def _at (s : static_vector T Capacity) (pos : Nat) :
    Except Exception Nat × static_vector T Capacity :=
  if pos ≥ s._size then (.error .out_of_range, s) else (.ok (s.begin_ + pos), s)

/-- Member `at( pos )`: `_at( *this, pos )`, read through the reference it
returns. -/
def at_ (s : static_vector T Capacity) (pos : Nat) :
    Except Exception T × static_vector T Capacity :=
  match s._at pos with
  | (.error e, s1) => (.error e, s1)
  | (.ok p, s1) => (.ok (s1.deref p), s1)

/-- Member `front()`: `*begin()`. -/
def front (s : static_vector T Capacity) : T := s.deref s.begin_

/-- Member `back()`: `*( end() - 1 )`. -/
def back (s : static_vector T Capacity) : T := s.deref (s.end_ - 1)

/-- Member `max_size()`: `Capacity`. -/
def max_size (_s : static_vector T Capacity) : Nat := Capacity

/-- Member `capacity()`: `Capacity`. -/
def capacity (_s : static_vector T Capacity) : Nat := Capacity

/-- Algorithm `std::lexicographical_compare( first1, last1, first2, last2 )`:
the loop runs while both ranges have elements, returns `true` at the first
position with `*first1 < *first2` and `false` at the first with
`*first2 < *first1`; after the loop the result is
`first1 == last1 && first2 != last2`. -/
def lexicographical_compare [LT T] [∀ a b : T, Decidable (a < b)] : List T → List T → Bool
  | [], [] => false
  | [], _ :: _ => true
  | _ :: _, [] => false
  | x :: xs, y :: ys =>
    if x < y then true else if y < x then false else lexicographical_compare xs ys

/-- Member `operator!=`: `!( *this == o )`. -/
def operator_ne [DecidableEq T] (s o : static_vector T Capacity) : Bool := !(s.operator_eq o)

/-- Member `operator<`:
`std::lexicographical_compare( begin(), end(), o.begin(), o.end() )`. -/
def operator_lt [LT T] [∀ a b : T, Decidable (a < b)] (s o : static_vector T Capacity) : Bool :=
  lexicographical_compare s.contents o.contents

/-- Member `operator>`: `o < *this`. -/
def operator_gt [LT T] [∀ a b : T, Decidable (a < b)] (s o : static_vector T Capacity) : Bool :=
  o.operator_lt s

/-- Member `operator<=`: `!( *this > o )`. -/
def operator_le [LT T] [∀ a b : T, Decidable (a < b)] (s o : static_vector T Capacity) : Bool :=
  !(s.operator_gt o)

/-- Member `operator>=`: `!( *this < o )`. -/
def operator_ge [LT T] [∀ a b : T, Decidable (a < b)] (s o : static_vector T Capacity) : Bool :=
  !(s.operator_lt o)

/-- The two calls of the test `push/pop`: `push_back( val )` and `pop_back()`. -/
inductive StackOp (T : Type) where
  | push_back (val : T) : StackOp T
  | pop_back : StackOp T

/-- A `push_back` is made while the vector is not full, a `pop_back` while it is
not empty. -/
def StackOp.pre (s : static_vector T Capacity) : StackOp T → Bool
  | .push_back _ => !s.full
  | .pop_back => !s.empty

/-- Running one of the two calls on the vector. -/
def StackOp.run [Movable T] (s : static_vector T Capacity) :
    StackOp T → static_vector T Capacity
  | .push_back val => (s.push_back val).2
  | .pop_back => s.pop_back

/-- The reference list under the same call: `push_back` appends, `pop_back`
drops the last element (the `std::vector` of the test). -/
def StackOp.ref (l : List T) : StackOp T → List T
  | .push_back val => l ++ [val]
  | .pop_back => l.dropLast

/-- Every call of the sequence is made while its precondition holds, each on
the vector that the calls before it leave. -/
def stack_ok [Movable T] (s : static_vector T Capacity) : List (StackOp T) → Bool
  | [] => true
  | c :: cs => c.pre s && stack_ok (c.run s) cs

/-- The vector after a sequence of `push_back` and `pop_back` calls. -/
def stack_run [Movable T] (s : static_vector T Capacity) :
    List (StackOp T) → static_vector T Capacity
  | [] => s
  | c :: cs => stack_run (c.run s) cs

/-- The reference list after the same sequence of calls. -/
def stack_ref (l : List T) : List (StackOp T) → List T
  | [] => l
  | c :: cs => stack_ref (c.ref l) cs

/-- The public mutators: the calls of `Call`, `resize( count, value )`, and the
copy, move and initializer-list assignments (`o_is_this` tells a
self-assignment). -/
inductive Mutator (T : Type) (Capacity : Nat) where
  | call (c : Call T) : Mutator T Capacity
  | resize_value (count : Nat) (value : T) : Mutator T Capacity
  | assign_copy (o : static_vector T Capacity) (o_is_this : Bool) : Mutator T Capacity
  | assign_move (o : static_vector T Capacity) (o_is_this : Bool) : Mutator T Capacity
  | assign_ilist (init : List T) : Mutator T Capacity

/-- The precondition of a mutator: that of the call, and the source of an
assignment is a vector within its capacity. -/
def Mutator.pre (s : static_vector T Capacity) : Mutator T Capacity → Prop
  | .call c => c.pre s = true
  | .assign_copy o _ => o.size ≤ Capacity
  | .assign_move o _ => o.size ≤ Capacity
  | _ => True

/-- Running a mutator: whether it succeeded, and the vector it leaves, be it
after a success or after a `static_vector_full`. -/
def Mutator.run [Inhabited T] [Movable T] (s : static_vector T Capacity) :
    Mutator T Capacity → Bool × static_vector T Capacity
  | .call c => c.run s
  | .resize_value count value =>
    ((s.resize_value count value).1.toBool, (s.resize_value count value).2)
  | .assign_copy o o_is_this => (true, s.assign_copy o o_is_this)
  | .assign_move o o_is_this => (true, (s.assign_move o o_is_this).1)
  | .assign_ilist init => ((s.assign_ilist init).1.toBool, (s.assign_ilist init).2)

/-- The successive single-element insertions `insert( begin() + p, r0 )`,
`insert( begin() + p + 1, r1 )`, ... of the elements of `r`, stopping at the first
that throws. -/
def insert_each [Movable T] (s : static_vector T Capacity) :
    Nat → List T → Except Exception Unit × static_vector T Capacity
  | _, [] => (.ok (), s)
  | p, x :: xs =>
    match s.insert p x with
    | (.ok _, s1) => insert_each s1 (p + 1) xs
    | (.error e, s1) => (.error e, s1)

end static_vector

/-!
The container `blist`.

src/blist.hpp declares the interface of `blist< T, NodeSize >` only: the bodies of
its members are not part of the sources.  The tree and its operations are therefore
modelled from the specification (§3.2, §4.2).  A node is identified by a number (its
address); a parent link is the identifier of the parent.  The element buffer of a
leaf and the child buffer of an internal node are `static_vector`s, represented here
by their contents.
-/

/-- Modelled from the spec: the nodes of the tree of `blist` (§3.2), whose
definition is missing from the sources.  A leaf owns its elements; an internal node
owns its children, each with the cached element count of its subtree.  Every node
has a parent link and its index in the parent's child array. -/
inductive Node (T : Type) where
  | leaf (id : Nat) (parent : Option Nat) (parent_index : Nat) (elems : List T)
  | internal (id : Nat) (parent : Option Nat) (parent_index : Nat)
      (children : List (Nat × Node T))

/-- Modelled from the spec: the class `blist` (§3.2 "Tree"), whose data members are
missing from the sources: the root, the cached total element count and depth, and
the next unused node identifier. -/
structure blist (T : Type) (NodeSize : Nat) where
  root : Node T
  size_ : Nat
  depth_ : Nat
  next_id : Nat

namespace Node

variable {T : Type}

/-- Modelled from the spec: the identity (address) of a node. -/
def id_ : Node T → Nat
  | leaf id _ _ _ => id
  | internal id _ _ _ => id

/-- Modelled from the spec: the parent link of a node (§3.2). -/
def parent_ : Node T → Option Nat
  | leaf _ p _ _ => p
  | internal _ p _ _ => p

/-- Modelled from the spec: the index of a node within its parent's child array. -/
def parent_index_ : Node T → Nat
  | leaf _ _ pi _ => pi
  | internal _ _ pi _ => pi

/-- Modelled from the spec: the number of entries of a node, elements for a leaf
and children for an internal node (§3.2, invariants 2 and 3). -/
def count : Node T → Nat
  | leaf _ _ _ es => es.length
  | internal _ _ _ cs => cs.length

/-- Modelled from the spec: the element count of the subtree of a node as its
parent caches it: the sum of the cached sizes of its children, the size of the
element buffer for a leaf (§3.2, invariant 5). -/
def subtree_size : Node T → Nat
  | leaf _ _ _ es => es.length
  | internal _ _ _ cs => (cs.map Prod.fst).sum

/-- Modelled from the spec: update of the parent link and parent index of a node
(§4.2.4 step 4). -/
def set_parent : Node T → Option Nat → Nat → Node T
  | leaf id _ _ es, p, pi => leaf id p pi es
  | internal id _ _ cs, p, pi => internal id p pi cs

/-- Modelled from the spec: the elements below a node in iteration order, for a
node at height `h` above the leaves (§4.2.3: the order of iteration is the in-order
visit). -/
def contents : Nat → Node T → List T
  | _, leaf _ _ _ es => es
  | 0, internal _ _ _ _ => []
  | h + 1, internal _ _ _ cs => (cs.map (fun c => contents h c.2)).flatten

/-- Modelled from the spec: invariant 4 of §3.2 on a child array: the child at
index `k` has the parent link `id` and the parent index `k`. -/
def linked (id : Nat) : Nat → List (Nat × Node T) → Prop
  | _, [] => True
  | k, c :: cs => c.2.parent_ = some id ∧ c.2.parent_index_ = k ∧ linked id (k + 1) cs

/-- Modelled from the spec: the invariants 1, 3, 4, 5 of §3.2 and invariant 2 for
the nodes below this one, for a node at height `h` above the leaves: all leaves are
`h` levels down, no node has more than `N` entries, every node below has at least
`N / 2` entries, the children's parent links and parent indices are correct and
every cached subtree size is that of the child. -/
def shape (N : Nat) : Nat → Node T → Prop
  | 0, leaf _ _ _ es => es.length ≤ N
  | h + 1, internal id _ _ cs =>
      cs.length ≤ N ∧ linked id 0 cs ∧
      ∀ c ∈ cs, c.1 = c.2.subtree_size ∧ N / 2 ≤ c.2.count ∧ shape N h c.2
  | _, _ => False

instance decLinked (id : Nat) : ∀ (k : Nat) (cs : List (Nat × Node T)), Decidable (linked id k cs)
  | _, [] => isTrue trivial
  | k, c :: cs =>
    @instDecidableAnd _ _ inferInstance (@instDecidableAnd _ _ inferInstance (decLinked id (k + 1) cs))

instance decShape (N : Nat) : ∀ (h : Nat) (n : Node T), Decidable (shape N h n)
  | 0, leaf _ _ _ es => inferInstanceAs (Decidable (es.length ≤ N))
  | 0, internal _ _ _ _ => isFalse (fun h => h)
  | _ + 1, leaf _ _ _ _ => isFalse (fun h => h)
  | h + 1, internal id _ _ cs =>
    have : ∀ c : Nat × Node T,
        Decidable (c.1 = c.2.subtree_size ∧ N / 2 ≤ c.2.count ∧ shape N h c.2) :=
      fun c => @instDecidableAnd _ _ inferInstance
        (@instDecidableAnd _ _ inferInstance (decShape N h c.2))
    inferInstanceAs (Decidable (cs.length ≤ N ∧ linked id 0 cs ∧
      ∀ c ∈ cs, c.1 = c.2.subtree_size ∧ N / 2 ≤ c.2.count ∧ shape N h c.2))

/-- Modelled from the spec: the elements below the children of a child array, in
iteration order. -/
def children_contents (h : Nat) (cs : List (Nat × Node T)) : List T :=
  (cs.map (fun c => contents h c.2)).flatten

/-- Modelled from the spec: the condition of `shape` on the entries of a child
array: the cached size is that of the child (invariant 5), the child has at least
`N / 2` entries (invariant 2) and is itself well shaped. -/
def children_ok (N : Nat) (h : Nat) (cs : List (Nat × Node T)) : Prop :=
  ∀ c ∈ cs, c.1 = c.2.subtree_size ∧ N / 2 ≤ c.2.count ∧ shape N h c.2

/-- Modelled from the spec: the update of the parent links and parent indices of
the children of the node `id`, from index `k` on (§4.2.4 step 4, §4.2.5). -/
def relink (id : Nat) : Nat → List (Nat × Node T) → List (Nat × Node T)
  | _, [] => []
  | k, c :: cs => (c.1, c.2.set_parent (some id) k) :: relink id (k + 1) cs

/-- Modelled from the spec: an internal node with the given child array, the
children's parent links and parent indices updated. -/
def mk_internal (id : Nat) (parent : Option Nat) (parent_index : Nat)
    (cs : List (Nat × Node T)) : Node T :=
  internal id parent parent_index (relink id 0 cs)

/-- Modelled from the spec: insertion of one entry at offset `k` of a buffer
(`static_vector::emplace`). -/
def emplace_at {α : Type} (l : List α) (k : Nat) (x : α) : List α :=
  l.take k ++ x :: l.drop k

/-- Modelled from the spec: removal of the entry at offset `k` of a buffer
(`static_vector::erase`). -/
def erase_at {α : Type} (l : List α) (k : Nat) : List α :=
  l.take k ++ l.drop (k + 1)

/-- Modelled from the spec: the descent by cached subtree sizes (§4.2.2): scan the
children left to right, subtracting their sizes from `i` until the child containing
position `i` is found; the position one past the last element belongs to the last
child (the canonical end iterator, §4.2.3).  The result is the index of the child
and the position within it. -/
def locate : List (Nat × Node T) → Nat → Nat × Nat
  | [], i => (0, i)
  | [_], i => (0, i)
  | c :: d :: cs, i =>
    if i < c.1 then (0, i) else ((locate (d :: cs) (i - c.1)).1 + 1, (locate (d :: cs) (i - c.1)).2)

/-- Modelled from the spec: insertion below a node at height `h` (§4.2.4).  The
result is the node and, when it was split, the new right node; `nid` is the next
unused node identifier.  Without a split only the cached size of the child on the
path grows by one.  A full node is split by moving its last `N / 2` entries into a
fresh node; the new entry goes to the left part when its offset is at most `N / 2`,
else to the right part.  A new right child is entered in the parent immediately
after the left one, and the parent links and indices of the children of a node whose
child array was shifted or split are updated. -/
def insert_node (N : Nat) : Nat → Node T → Nat → T → Nat → (Node T × Option (Node T)) × Nat
  | _, leaf id p pi es, k, x, nid =>
    if es.length < N then ((leaf id p pi (emplace_at es k x), none), nid)
    else
      let l := es.take (es.length - N / 2)
      let r := es.drop (es.length - N / 2)
      if k ≤ N / 2 then
        ((leaf id p pi (emplace_at l k x), some (leaf nid p (pi + 1) r)), nid + 1)
      else
        ((leaf id p pi l, some (leaf nid p (pi + 1) (emplace_at r (k - N / 2) x))), nid + 1)
  | 0, internal id p pi cs, _, _, nid => ((internal id p pi cs, none), nid)
  | h + 1, internal id p pi cs, i, x, nid =>
    let j := (locate cs i).1
    let k := (locate cs i).2
    match cs[j]? with
    | none => ((internal id p pi cs, none), nid)
    | some c =>
      match insert_node N h c.2 k x nid with
      | ((a, none), nid1) => ((internal id p pi (cs.set j (c.1 + 1, a)), none), nid1)
      | ((a, some b), nid1) =>
        let cs1 := cs.set j (a.subtree_size, a)
        let e := (b.subtree_size, b)
        if cs.length < N then ((mk_internal id p pi (emplace_at cs1 (j + 1) e), none), nid1)
        else
          let l := cs1.take (cs1.length - N / 2)
          let r := cs1.drop (cs1.length - N / 2)
          if j + 1 ≤ N / 2 then
            ((mk_internal id p pi (emplace_at l (j + 1) e),
              some (mk_internal nid1 p (pi + 1) r)), nid1 + 1)
          else
            ((mk_internal id p pi l,
              some (mk_internal nid1 p (pi + 1) (emplace_at r (j + 1 - N / 2) e))), nid1 + 1)

/-- Modelled from the spec: borrow (§4.2.5 step 3) from the left sibling `l`: its
last entry becomes the first entry of `c`. -/
def borrow_left : Node T → Node T → Node T × Node T
  | leaf lid lp lpi les, leaf cid cp cpi ces =>
    (leaf lid lp lpi (les.take (les.length - 1)),
     leaf cid cp cpi (les.drop (les.length - 1) ++ ces))
  | internal lid lp lpi lcs, internal cid cp cpi ccs =>
    (mk_internal lid lp lpi (lcs.take (lcs.length - 1)),
     mk_internal cid cp cpi (lcs.drop (lcs.length - 1) ++ ccs))
  | l, c => (l, c)

/-- Modelled from the spec: borrow (§4.2.5 step 3) from the right sibling `r`: its
first entry becomes the last entry of `c`. -/
def borrow_right : Node T → Node T → Node T × Node T
  | leaf cid cp cpi ces, leaf rid rp rpi res =>
    (leaf cid cp cpi (ces ++ res.take 1), leaf rid rp rpi (res.drop 1))
  | internal cid cp cpi ccs, internal rid rp rpi rcs =>
    (mk_internal cid cp cpi (ccs ++ rcs.take 1), mk_internal rid rp rpi (rcs.drop 1))
  | c, r => (c, r)

/-- Modelled from the spec: merge (§4.2.5 step 3): the entries of the right node
are appended to the left node, which survives. -/
def merge : Node T → Node T → Node T
  | leaf lid lp lpi les, leaf _ _ _ res => leaf lid lp lpi (les ++ res)
  | internal lid lp lpi lcs, internal _ _ _ rcs => mk_internal lid lp lpi (lcs ++ rcs)
  | l, _ => l

/-- Modelled from the spec: rebalancing (§4.2.5 step 3 and the tie-breaks) of the
child at index `j`, which has fewer than `N / 2` entries, against an adjacent
sibling: borrow from the left sibling if it has more than `N / 2` entries, else
borrow from the right sibling if it has more than `N / 2` entries, else merge into
the left sibling, else merge the right sibling into the child.  The cached sizes of the two children are
updated; a merge removes the entry of the node that does not survive. -/
def rebalance (N : Nat) (cs : List (Nat × Node T)) (j : Nat) : List (Nat × Node T) :=
  match cs[j]? with
  | none => cs
  | some c =>
    let left := if 0 < j then cs[j - 1]? else none
    let right := cs[j + 1]?
    match left, right with
    | some l, some r =>
      if N / 2 < l.2.count then
        ((cs.set (j - 1) ((borrow_left l.2 c.2).1.subtree_size, (borrow_left l.2 c.2).1)).set j
          ((borrow_left l.2 c.2).2.subtree_size, (borrow_left l.2 c.2).2))
      else if N / 2 < r.2.count then
        ((cs.set j ((borrow_right c.2 r.2).1.subtree_size, (borrow_right c.2 r.2).1)).set (j + 1)
          ((borrow_right c.2 r.2).2.subtree_size, (borrow_right c.2 r.2).2))
      else erase_at (cs.set (j - 1) ((merge l.2 c.2).subtree_size, merge l.2 c.2)) j
    | some l, none =>
      if N / 2 < l.2.count then
        ((cs.set (j - 1) ((borrow_left l.2 c.2).1.subtree_size, (borrow_left l.2 c.2).1)).set j
          ((borrow_left l.2 c.2).2.subtree_size, (borrow_left l.2 c.2).2))
      else erase_at (cs.set (j - 1) ((merge l.2 c.2).subtree_size, merge l.2 c.2)) j
    | none, some r =>
      if N / 2 < r.2.count then
        ((cs.set j ((borrow_right c.2 r.2).1.subtree_size, (borrow_right c.2 r.2).1)).set (j + 1)
          ((borrow_right c.2 r.2).2.subtree_size, (borrow_right c.2 r.2).2))
      else erase_at (cs.set j ((merge c.2 r.2).subtree_size, merge c.2 r.2)) (j + 1)
    | none, none => cs

/-- Modelled from the spec: erasure below a node at height `h` (§4.2.5): erase in
the leaf, decrement the cached sizes on the path, and rebalance a child that is left
with fewer than `N / 2` entries; after a rebalancing the parent links and indices of
the children are updated. -/
def erase_node (N : Nat) : Nat → Node T → Nat → Node T
  | _, leaf id p pi es, k => leaf id p pi (erase_at es k)
  | 0, internal id p pi cs, _ => internal id p pi cs
  | h + 1, internal id p pi cs, i =>
    let j := (locate cs i).1
    let k := (locate cs i).2
    match cs[j]? with
    | none => internal id p pi cs
    | some c =>
      let a := erase_node N h c.2 k
      let cs1 := cs.set j (c.1 - 1, a)
      if N / 2 ≤ a.count then internal id p pi cs1
      else mk_internal id p pi (rebalance N cs1 j)

end Node

namespace blist

variable {T : Type} {NodeSize : Nat}

/-- Modelled from the spec: the default constructor `blist()`: an empty leaf root,
size 0, depth 1 (§3.2 invariant 6). -/
def empty_blist : blist T NodeSize :=
  { root := Node.leaf 0 none 0 [], size_ := 0, depth_ := 1, next_id := 1 }

/-- Modelled from the spec: member `size()`. -/
def size (b : blist T NodeSize) : Nat := b.size_

/-- Modelled from the spec: member `empty()`. -/
def empty (b : blist T NodeSize) : Bool := b.size_ == 0

/-- Modelled from the spec: member `depth()`, the number of nodes on the path from
the root to a leaf. -/
def depth (b : blist T NodeSize) : Nat := b.depth_

/-- Modelled from the spec: the elements in the order of forward iteration from
`begin()` to `end()`. -/
def contents (b : blist T NodeSize) : List T := b.root.contents (b.depth_ - 1)

/-- Modelled from the spec: member `emplace( pos, args... )` (§4.2.4), `pos` being
the iterator `std::next( begin(), i )`.  When the root is split a new internal root
takes the two halves as children and the depth grows by one. -/
def emplace (b : blist T NodeSize) (i : Nat) (x : T) : blist T NodeSize :=
  match Node.insert_node NodeSize (b.depth_ - 1) b.root i x b.next_id with
  | ((a, none), nid) =>
    { root := a, size_ := b.size_ + 1, depth_ := b.depth_, next_id := nid }
  | ((a, some c), nid) =>
    { root := Node.mk_internal nid none 0 [(a.subtree_size, a), (c.subtree_size, c)]
      size_ := b.size_ + 1, depth_ := b.depth_ + 1, next_id := nid + 1 }

/-- Modelled from the spec: member `insert( pos, value )`, which is `emplace`. -/
def insert (b : blist T NodeSize) (i : Nat) (value : T) : blist T NodeSize :=
  b.emplace i value

/-- Modelled from the spec: member `push_back( x )`: `emplace( end(), x )`. -/
def push_back (b : blist T NodeSize) (x : T) : blist T NodeSize := b.emplace b.size_ x

/-- Modelled from the spec: member `push_front( x )`: `emplace( begin(), x )`. -/
def push_front (b : blist T NodeSize) (x : T) : blist T NodeSize := b.emplace 0 x

/-- Modelled from the spec: member `erase( pos )` (§4.2.5), `pos` being the iterator
`std::next( begin(), i )`.  An internal root that is left with one child is
discarded and its child promoted; the depth shrinks by one. -/
def erase (b : blist T NodeSize) (i : Nat) : blist T NodeSize :=
  match Node.erase_node NodeSize (b.depth_ - 1) b.root i with
  | Node.internal _ _ _ [c] =>
    { root := c.2.set_parent none 0, size_ := b.size_ - 1, depth_ := b.depth_ - 1,
      next_id := b.next_id }
  | a => { root := a, size_ := b.size_ - 1, depth_ := b.depth_, next_id := b.next_id }

/-- Modelled from the spec: the range constructor `blist( first, last )`: repeated
`push_back` (§4.2.1). -/
def of_range (r : List T) : blist T NodeSize :=
  r.foldl (fun b x => b.push_back x) empty_blist

/-- Modelled from the spec: the move constructor `blist( blist && )` (§4.2.7): the
new list adopts the root; the source is left with a fresh empty leaf root, size 0
and depth 1.  The result is the new list and the source after the move. -/
def move_ctor (o : blist T NodeSize) : blist T NodeSize × blist T NodeSize :=
  ({ o with next_id := o.next_id + 1 },
   { root := Node.leaf o.next_id none 0 [], size_ := 0, depth_ := 1, next_id := o.next_id + 1 })

/-- Modelled from the spec: the predicate `validate()` (§4.2.1), which holds when
all the invariants of §3.2 hold; the body in the sources is empty. -/
def validate (b : blist T NodeSize) : Prop :=
  1 ≤ b.depth_ ∧ b.root.shape NodeSize (b.depth_ - 1) ∧ (1 < b.depth_ → 2 ≤ b.root.count) ∧
  b.root.parent_ = none ∧ b.size_ = b.root.subtree_size

instance decValidate (b : blist T NodeSize) : Decidable b.validate := by
  unfold validate; exact inferInstance

/-- Modelled from the spec: the operations of a trace on a list (§8, "equivalence
with reference sequence"). -/
inductive Op (T : Type) where
  | push_back (x : T)
  | push_front (x : T)
  | erase (i : Nat)

/-- Modelled from the spec: one operation of a trace on the `blist`. -/
def apply_op (b : blist T NodeSize) : Op T → blist T NodeSize
  | Op.push_back x => b.push_back x
  | Op.push_front x => b.push_front x
  | Op.erase i => b.erase i

/-- One operation of a trace on the reference sequence (`std::deque`,
`std::vector`). -/
def apply_ref (l : List T) : Op T → List T
  | Op.push_back x => l ++ [x]
  | Op.push_front x => x :: l
  | Op.erase i => l.eraseIdx i

/-- A trace is admissible from the reference sequence `l` when every erase is at a
position that holds an element (the test takes the index modulo the size). -/
def admissible : List T → List (Op T) → Prop
  | _, [] => True
  | l, Op.erase i :: ops => i < l.length ∧ admissible (l.eraseIdx i) ops
  | l, op :: ops => admissible (apply_ref l op) ops

instance decAdmissible : ∀ (l : List T) (ops : List (Op T)), Decidable (admissible l ops)
  | _, [] => isTrue trivial
  | l, Op.erase i :: ops =>
    @instDecidableAnd _ _ inferInstance (decAdmissible (l.eraseIdx i) ops)
  | l, Op.push_back x :: ops => decAdmissible (apply_ref l (Op.push_back x)) ops
  | l, Op.push_front x :: ops => decAdmissible (apply_ref l (Op.push_front x)) ops

/-- The `blist` after the operations of a trace, in order. -/
def run (b : blist T NodeSize) (ops : List (Op T)) : blist T NodeSize :=
  ops.foldl apply_op b

/-- The reference sequence after the operations of a trace, in order. -/
def run_ref (l : List T) (ops : List (Op T)) : List T :=
  ops.foldl apply_ref l

end blist

/-! Theorems on `static_vector`. -/

namespace static_vector

variable {T : Type} {Capacity : Nat}

theorem uninitialized_move_n_size [Movable T] (n : Nat) :
    ∀ (s : static_vector T Capacity) (first d : Nat),
      (s.uninitialized_move_n first n d)._size = s._size := by
  induction n with
  | zero => intro s first d; rfl
  | succ n ih => intro s first d; rw [uninitialized_move_n, ih]; rfl

theorem uninitialized_move_n_data [Movable T] (n : Nat) :
    ∀ (s : static_vector T Capacity) (first d : Nat), first + n ≤ d → ∀ i,
      (s.uninitialized_move_n first n d)._data i =
        if d ≤ i ∧ i < d + n then
          { s._data i with v := (s._data (i - d + first)).v,
                           constructed := (s._data i).constructed + 1 }
        else if first ≤ i ∧ i < first + n then
          { s._data i with v := Movable.moved_from (s._data i).v }
        else s._data i := by
  induction n with
  | zero => intro s first d _ i; simp only [uninitialized_move_n]; split_ifs <;> first | omega | rfl
  | succ n ih =>
    intro s first d h i
    rw [uninitialized_move_n, ih _ _ _ (by omega)]
    simp only [move_construct, Function.update_apply]
    split_ifs <;> first | omega | rfl | (subst_vars; simp; done) | (congr 3; omega)

theorem uninitialized_move_n_faults [Movable T] (n : Nat) :
    ∀ (s : static_vector T Capacity) (first d : Nat), first + n ≤ d → d + n ≤ Capacity →
      (∀ i, first ≤ i → i < first + n → (s._data i).live) →
      (∀ i, d ≤ i → i < d + n → (s._data i).dead) →
      (s.uninitialized_move_n first n d).faults = s.faults := by
  induction n with
  | zero => intro s first d _ _ _ _; rfl
  | succ n ih =>
    intro s first d h hc hl hd
    rw [uninitialized_move_n, ih _ _ _ (by omega) (by omega)]
    · have h1 := hl first (by omega) (by omega)
      have h2 := hd d (by omega) (by omega)
      simp only [move_construct]
      rw [if_pos ⟨by omega, h1, h2⟩]
    · intro i hi1 hi2
      have := hl i (by omega) (by omega)
      simp only [move_construct, Function.update_apply]
      split_ifs <;> first | omega | assumption
    · intro i hi1 hi2
      have := hd i (by omega) (by omega)
      simp only [move_construct, Function.update_apply]
      split_ifs <;> first | omega | assumption

theorem move_backward_n_size [Movable T] (n : Nat) :
    ∀ (s : static_vector T Capacity) (last d_last : Nat),
      (s.move_backward_n n last d_last)._size = s._size := by
  induction n with
  | zero => intro s last d_last; rfl
  | succ n ih => intro s last d_last; rw [move_backward_n, ih]; rfl

theorem move_backward_n_data [Movable T] (n : Nat) :
    ∀ (s : static_vector T Capacity) (last d_last : Nat), n ≤ last → last < d_last → ∀ i,
      (s.move_backward_n n last d_last)._data i =
        if d_last - n ≤ i ∧ i < d_last then
          { s._data i with
            v := (s._data (i - (d_last - last))).v,
            moved_to := (s._data i).moved_to + 1,
            moved_from := if last - n ≤ i ∧ i < last then (s._data i).moved_from + 1
                          else (s._data i).moved_from }
        else if last - n ≤ i ∧ i < last then
          { s._data i with v := Movable.moved_from (s._data i).v,
                           moved_from := (s._data i).moved_from + 1 }
        else s._data i := by
  induction n with
  | zero =>
    intro s last d_last _ _ i; simp only [move_backward_n]
    split_ifs <;> first | omega | rfl
  | succ n ih =>
    intro s last d_last h1 h2 i
    have e : d_last - 1 - (last - 1) = d_last - last := by omega
    rw [move_backward_n, ih _ _ _ (by omega) (by omega), e]
    simp only [move_assign, Function.update_apply]
    split_ifs <;> first | omega | rfl | (subst_vars; simp; done) |
      (subst_vars; simp [*, show d_last - 1 - (d_last - last) = last - 1 by omega])

theorem move_backward_n_faults [Movable T] (n : Nat) :
    ∀ (s : static_vector T Capacity) (last d_last : Nat), n ≤ last → last < d_last →
      (∀ i, last - n ≤ i → i < d_last → (s._data i).live) →
      (s.move_backward_n n last d_last).faults = s.faults := by
  induction n with
  | zero => intro s last d_last _ _ _; rfl
  | succ n ih =>
    intro s last d_last h1 h2 hl
    rw [move_backward_n, ih _ _ _ (by omega) (by omega)]
    · have a := hl (last - 1) (by omega) (by omega)
      have b := hl (d_last - 1) (by omega) (by omega)
      simp only [move_assign]
      rw [if_pos ⟨a, b⟩]
    · intro i hi1 hi2
      have := hl i (by omega) (by omega)
      simp only [move_assign, Function.update_apply, Slot.live] at *
      split_ifs <;> first | omega | assumption | (subst_vars; assumption)

theorem move_n_size [Movable T] (n : Nat) :
    ∀ (s : static_vector T Capacity) (first d_first : Nat),
      (s.move_n n first d_first)._size = s._size := by
  induction n with
  | zero => intro s first d_first; rfl
  | succ n ih => intro s first d_first; rw [move_n, ih]; rfl

theorem move_n_data [Movable T] (n : Nat) :
    ∀ (s : static_vector T Capacity) (first d_first : Nat), d_first ≤ first → ∀ i,
      (s.move_n n first d_first)._data i =
        if d_first ≤ i ∧ i < d_first + n then
          { s._data i with
            v := (s._data (i + (first - d_first))).v,
            moved_to := (s._data i).moved_to + 1,
            moved_from := if first ≤ i ∧ i < first + n then (s._data i).moved_from + 1
                          else (s._data i).moved_from }
        else if first ≤ i ∧ i < first + n then
          { s._data i with v := Movable.moved_from (s._data i).v,
                           moved_from := (s._data i).moved_from + 1 }
        else s._data i := by
  induction n with
  | zero =>
    intro s first d_first _ i; simp only [move_n]
    split_ifs <;> first | omega | rfl
  | succ n ih =>
    intro s first d_first h1 i
    have e : first + 1 - (d_first + 1) = first - d_first := by omega
    rw [move_n, ih _ _ _ (by omega), e]
    simp only [move_assign, Function.update_apply]
    split_ifs <;> first | omega | rfl | (subst_vars; simp; done) |
      (subst_vars; simp [*, Nat.add_sub_of_le])

theorem move_n_faults [Movable T] (n : Nat) :
    ∀ (s : static_vector T Capacity) (first d_first : Nat), d_first ≤ first →
      (∀ i, d_first ≤ i → i < first + n → (s._data i).live) →
      (s.move_n n first d_first).faults = s.faults := by
  induction n with
  | zero => intro s first d_first _ _; rfl
  | succ n ih =>
    intro s first d_first h1 hl
    rw [move_n, ih _ _ _ (by omega)]
    · have a := hl first (by omega) (by omega)
      have b := hl d_first (by omega) (by omega)
      simp only [move_assign]
      rw [if_pos ⟨a, b⟩]
    · intro i hi1 hi2
      have := hl i (by omega) (by omega)
      simp only [move_assign, Function.update_apply, Slot.live] at *
      split_ifs <;> first | omega | assumption | (subst_vars; assumption)

theorem copy_size (r : List T) :
    ∀ (s : static_vector T Capacity) (d : Nat), (s.copy r d)._size = s._size := by
  induction r with
  | nil => intro s d; rfl
  | cons x xs ih => intro s d; rw [copy, ih]; rfl

theorem copy_data (r : List T) :
    ∀ (s : static_vector T Capacity) (d : Nat) (i : Nat),
      (s.copy r d)._data i =
        if d ≤ i ∧ i < d + r.length then
          { s._data i with v := (r[i - d]?).getD (s._data i).v,
                           copied_to := (s._data i).copied_to + 1 }
        else s._data i := by
  induction r with
  | nil =>
    intro s d i; simp only [copy, List.length_nil]
    split_ifs <;> first | omega | rfl
  | cons x xs ih =>
    intro s d i
    rw [copy, ih]
    simp only [List.length_cons]
    by_cases hi : i = d
    · subst hi
      split_ifs <;> first | omega | (simp [copy_assign]; done)
    · split_ifs <;> first | omega | skip
      all_goals simp only [copy_assign, Function.update_apply, if_neg hi]
      all_goals first | rfl | skip
      all_goals
        have e : i - d = (i - (d + 1)) + 1 := by omega
        rw [e]; simp

theorem copy_faults (r : List T) :
    ∀ (s : static_vector T Capacity) (d : Nat),
      (∀ i, d ≤ i → i < d + r.length → (s._data i).live) →
      (s.copy r d).faults = s.faults := by
  induction r with
  | nil => intro s d _; rfl
  | cons x xs ih =>
    intro s d hl
    simp only [List.length_cons] at hl
    rw [copy, ih]
    · have a := hl d (by omega) (by omega)
      simp only [copy_assign]
      rw [if_pos a]
    · intro i hi1 hi2
      have := hl i (by omega) (by omega)
      simp only [copy_assign, Function.update_apply, Slot.live] at *
      split_ifs <;> first | omega | assumption | (subst_vars; assumption)

theorem destroy_n_size (n : Nat) :
    ∀ (s : static_vector T Capacity) (first : Nat), (s.destroy_n n first)._size = s._size := by
  induction n with
  | zero => intro s first; rfl
  | succ n ih => intro s first; rw [destroy_n, ih]; rfl

theorem destroy_n_data (n : Nat) :
    ∀ (s : static_vector T Capacity) (first : Nat) (i : Nat),
      (s.destroy_n n first)._data i =
        if first ≤ i ∧ i < first + n then
          { s._data i with destructed := (s._data i).destructed + 1 }
        else s._data i := by
  induction n with
  | zero =>
    intro s first i; simp only [destroy_n]
    split_ifs <;> first | omega | rfl
  | succ n ih =>
    intro s first i
    rw [destroy_n, ih]
    simp only [destroy_at, Function.update_apply]
    split_ifs <;> first | omega | rfl | (subst_vars; simp; done)

theorem destroy_n_faults (n : Nat) :
    ∀ (s : static_vector T Capacity) (first : Nat),
      (∀ i, first ≤ i → i < first + n → (s._data i).live) →
      (s.destroy_n n first).faults = s.faults := by
  induction n with
  | zero => intro s first _; rfl
  | succ n ih =>
    intro s first hl
    rw [destroy_n, ih]
    · have a := hl first (by omega) (by omega)
      simp only [destroy_at]
      rw [if_pos a]
    · intro i hi1 hi2
      have := hl i (by omega) (by omega)
      simp only [destroy_at, Function.update_apply, Slot.live] at *
      split_ifs <;> first | omega | assumption

theorem insert_loop_size (to_end : Nat) (r : List T) :
    ∀ (s : static_vector T Capacity) (i d : Nat),
      (insert_loop to_end s i r d)._size = s._size := by
  induction r with
  | nil => intro s i d; rfl
  | cons x xs ih =>
    intro s i d; rw [insert_loop, ih]
    split_ifs <;> rfl

theorem insert_loop_data (to_end : Nat) (r : List T) :
    ∀ (s : static_vector T Capacity) (i0 d : Nat) (j : Nat),
      (insert_loop to_end s i0 r d)._data j =
        if d ≤ j ∧ j < d + r.length then
          (if j - d + i0 < to_end then
            { s._data j with v := (r[j - d]?).getD (s._data j).v,
                             copied_to := (s._data j).copied_to + 1 }
           else
            { s._data j with v := (r[j - d]?).getD (s._data j).v,
                             constructed := (s._data j).constructed + 1 })
        else s._data j := by
  induction r with
  | nil =>
    intro s i0 d j; simp only [insert_loop, List.length_nil]
    split_ifs <;> first | omega | rfl
  | cons x xs ih =>
    intro s i0 d j
    rw [insert_loop, ih]
    simp only [List.length_cons]
    by_cases hj : j = d
    · subst hj
      split_ifs <;> first | omega | (simp [copy_assign, construct_at]; done)
    · split_ifs <;> first | omega | skip
      all_goals simp only [copy_assign, construct_at, Function.update_apply, if_neg hj]
      all_goals first | rfl | skip
      all_goals
        have e : j - d = (j - (d + 1)) + 1 := by omega
        rw [e]; simp

theorem insert_loop_faults (to_end : Nat) (r : List T) :
    ∀ (s : static_vector T Capacity) (i0 d : Nat), d + r.length ≤ Capacity →
      (∀ j, d ≤ j → j < d + r.length → j - d + i0 < to_end → (s._data j).live) →
      (∀ j, d ≤ j → j < d + r.length → ¬ j - d + i0 < to_end → (s._data j).dead) →
      (insert_loop to_end s i0 r d).faults = s.faults := by
  induction r with
  | nil => intro s i0 d _ _ _; rfl
  | cons x xs ih =>
    intro s i0 d hc hl hd
    simp only [List.length_cons] at hl hd hc
    rw [insert_loop, ih _ _ _ (by omega)]
    · by_cases h : i0 < to_end
      · have a := hl d (by omega) (by omega) (by omega)
        rw [if_pos h]; simp only [copy_assign]; rw [if_pos a]
      · have a := hd d (by omega) (by omega) (by omega)
        rw [if_neg h]; simp only [construct_at]; rw [if_pos ⟨by omega, a⟩]
    · intro j hj1 hj2 hj3
      have := hl j (by omega) (by omega) (by omega)
      split_ifs <;>
        simp only [copy_assign, construct_at, Function.update_apply, Slot.live] at * <;>
        split_ifs <;> first | omega | assumption
    · intro j hj1 hj2 hj3
      have := hd j (by omega) (by omega) (by omega)
      split_ifs <;>
        simp only [copy_assign, construct_at, Function.update_apply, Slot.dead] at * <;>
        split_ifs <;> first | omega | assumption

theorem contents_length (s : static_vector T Capacity) : s.contents.length = s._size := by
  simp [contents]

theorem contents_getElem? (s : static_vector T Capacity) (i : Nat) :
    s.contents[i]? = if i < s._size then some (s._data i).v else none := by
  unfold contents
  split_ifs with h
  · rw [List.getElem?_eq_getElem (by simpa using h)]
    simp
  · rw [List.getElem?_eq_none (by simpa using h)]

theorem splice_getElem? (v r : List T) (p : Nat) (hp : p ≤ v.length) (i : Nat) :
    (v.take p ++ r ++ v.drop p)[i]? =
      if i < p then v[i]? else if i < p + r.length then r[i - p]? else v[i - r.length]? := by
  have hl : (v.take p).length = p := by simp [hp]
  split_ifs with h1 h2
  · rw [List.append_assoc, List.getElem?_append_left (by omega), List.getElem?_take_of_lt h1]
  · rw [List.getElem?_append_left (by simp; omega), List.getElem?_append_right (by omega), hl]
  · rw [List.getElem?_append_right (by simp; omega)]
    simp only [List.length_append, hl, List.getElem?_drop]
    congr 1; omega

theorem internal_size_wrap {n : Nat} (h : n ≤ Capacity) (hN : Capacity < size_t_mod) :
    n % internal_size Capacity = n := by
  apply Nat.mod_eq_of_lt
  unfold internal_size size_t_mod at *
  split_ifs <;> omega

/-- The state in which the first branch of the range `insert` leaves the buffer. -/
theorem insert_range_shift [Movable T] (s : static_vector T Capacity) (p : Nat) (r : List T)
    (hN : Capacity < size_t_mod) (hr : s._size + r.length ≤ Capacity)
    (hd : 0 < r.length) (ha : r.length ≤ s._size - p) :
    s.insert_range p r =
      (.ok p, { ((s.uninitialized_move_n (s._size - r.length) r.length s._size).move_backward_n
                  (s._size - r.length - p) (s._size - r.length) s._size).copy r p with
                _size := s._size + r.length }) := by
  have e1 : r.length % size_t_mod = r.length := Nat.mod_eq_of_lt (by omega)
  have e2 : (s._size + r.length) % size_t_mod = s._size + r.length :=
    Nat.mod_eq_of_lt (by omega)
  unfold insert_range
  simp only [e1, e2, end_, begin_, Nat.zero_add, move_backward]
  rw [if_neg (by omega), if_neg (by omega), if_pos (by omega)]
  simp only [copy_size, move_backward_n_size, uninitialized_move_n_size]
  rw [internal_size_wrap hr hN]

/-- The state in which the second branch of the range `insert` leaves the buffer. -/
theorem insert_range_cross [Movable T] (s : static_vector T Capacity) (p : Nat) (r : List T)
    (hN : Capacity < size_t_mod) (hr : s._size + r.length ≤ Capacity)
    (hb : s._size - p < r.length) :
    s.insert_range p r =
      (.ok p, { insert_loop (s._size - p)
                  (s.uninitialized_move_n (s._size - (s._size - p)) (s._size - p)
                    (s._size + r.length - (s._size - p))) 0 r p with
                _size := s._size + r.length }) := by
  have e1 : r.length % size_t_mod = r.length := Nat.mod_eq_of_lt (by omega)
  have e2 : (s._size + r.length) % size_t_mod = s._size + r.length :=
    Nat.mod_eq_of_lt (by omega)
  unfold insert_range
  simp only [e1, e2, end_, begin_, Nat.zero_add]
  rw [if_neg (by omega), if_neg (by omega), if_neg (by omega)]
  simp only [insert_loop_size, uninitialized_move_n_size]
  rw [internal_size_wrap hr hN]

theorem insert_range_contents [Movable T] (s : static_vector T Capacity) (p : Nat) (r : List T)
    (hN : Capacity < size_t_mod) (hp : p ≤ s._size) (hr : s._size + r.length ≤ Capacity) :
    (s.insert_range p r).2.contents = s.contents.take p ++ r ++ s.contents.drop p := by
  by_cases hd : r.length ≤ 0
  · have : r = [] := List.eq_nil_of_length_eq_zero (by omega)
    subst this
    simp [insert_range]
  apply List.ext_getElem?
  intro i
  rw [splice_getElem? _ _ _ (by rw [contents_length]; exact hp)]
  simp only [contents_getElem?]
  by_cases ha : r.length ≤ s._size - p
  · rw [insert_range_shift s p r hN hr (by omega) ha]
    simp only [copy_data, move_backward_n_data _ _ _ _ (show s._size - r.length - p ≤ s._size - r.length by omega)
      (show s._size - r.length < s._size by omega),
      uninitialized_move_n_data _ _ _ _ (show s._size - r.length + r.length ≤ s._size by omega)]
    rcases Nat.lt_or_ge i p with h1 | h1
    · simp (disch := omega) only [if_pos, if_neg]
    rcases Nat.lt_or_ge i (p + r.length) with h2 | h2
    · simp (disch := omega) only [if_pos, if_neg]
      rw [List.getElem?_eq_getElem (by omega)]; rfl
    rcases Nat.lt_or_ge i s._size with h3 | h3
    · simp (disch := omega) only [if_pos, if_neg]
      congr 3; omega
    rcases Nat.lt_or_ge i (s._size + r.length) with h4 | h4
    · simp (disch := omega) only [if_pos, if_neg]
      congr 3; omega
    · simp (disch := omega) only [if_pos, if_neg]
  · rw [insert_range_cross s p r hN hr (by omega)]
    simp only [insert_loop_data,
      uninitialized_move_n_data _ _ _ _ (show s._size - (s._size - p) + (s._size - p) ≤
        s._size + r.length - (s._size - p) by omega)]
    rcases Nat.lt_or_ge i p with h1 | h1
    · simp (disch := omega) only [if_pos, if_neg]
    rcases Nat.lt_or_ge i (p + r.length) with h2 | h2
    · simp (disch := omega) only [if_pos, if_neg]
      rw [List.getElem?_eq_getElem (by omega)]
      split_ifs <;> rfl
    rcases Nat.lt_or_ge i (s._size + r.length) with h4 | h4
    · simp (disch := omega) only [if_pos, if_neg]
      congr 3; omega
    · simp (disch := omega) only [if_pos, if_neg]

theorem uninitialized_move_n_constructed [Movable T] (n : Nat) :
    ∀ (s : static_vector T Capacity) (first d i : Nat),
      ((s.uninitialized_move_n first n d)._data i).constructed =
        if d ≤ i ∧ i < d + n then (s._data i).constructed + 1 else (s._data i).constructed := by
  induction n with
  | zero =>
    intro s first d i; simp only [uninitialized_move_n]
    split_ifs <;> first | omega | rfl
  | succ n ih =>
    intro s first d i
    rw [uninitialized_move_n, ih]
    simp only [move_construct, Function.update_apply]
    split_ifs <;> first | omega | rfl | (subst_vars; simp)

theorem uninitialized_move_n_destructed [Movable T] (n : Nat) :
    ∀ (s : static_vector T Capacity) (first d i : Nat),
      ((s.uninitialized_move_n first n d)._data i).destructed = (s._data i).destructed := by
  induction n with
  | zero => intro s first d i; rfl
  | succ n ih =>
    intro s first d i
    rw [uninitialized_move_n, ih]
    simp only [move_construct, Function.update_apply]
    split_ifs <;> first | rfl | (subst_vars; simp)

theorem move_assign_constructed [Movable T] (s : static_vector T Capacity) (a b i : Nat) :
    ((s.move_assign a b)._data i).constructed = (s._data i).constructed := by
  simp only [move_assign, Function.update_apply]
  split_ifs <;> first | rfl | (subst_vars; simp)

theorem move_assign_destructed [Movable T] (s : static_vector T Capacity) (a b i : Nat) :
    ((s.move_assign a b)._data i).destructed = (s._data i).destructed := by
  simp only [move_assign, Function.update_apply]
  split_ifs <;> first | rfl | (subst_vars; simp)

theorem move_backward_n_constructed [Movable T] (n : Nat) :
    ∀ (s : static_vector T Capacity) (last d_last i : Nat),
      ((s.move_backward_n n last d_last)._data i).constructed = (s._data i).constructed := by
  induction n with
  | zero => intro s last d_last i; rfl
  | succ n ih => intro s last d_last i; rw [move_backward_n, ih, move_assign_constructed]

theorem move_backward_n_destructed [Movable T] (n : Nat) :
    ∀ (s : static_vector T Capacity) (last d_last i : Nat),
      ((s.move_backward_n n last d_last)._data i).destructed = (s._data i).destructed := by
  induction n with
  | zero => intro s last d_last i; rfl
  | succ n ih => intro s last d_last i; rw [move_backward_n, ih, move_assign_destructed]

theorem move_n_constructed [Movable T] (n : Nat) :
    ∀ (s : static_vector T Capacity) (first d_first i : Nat),
      ((s.move_n n first d_first)._data i).constructed = (s._data i).constructed := by
  induction n with
  | zero => intro s first d_first i; rfl
  | succ n ih => intro s first d_first i; rw [move_n, ih, move_assign_constructed]

theorem move_n_destructed [Movable T] (n : Nat) :
    ∀ (s : static_vector T Capacity) (first d_first i : Nat),
      ((s.move_n n first d_first)._data i).destructed = (s._data i).destructed := by
  induction n with
  | zero => intro s first d_first i; rfl
  | succ n ih => intro s first d_first i; rw [move_n, ih, move_assign_destructed]

theorem copy_constructed (r : List T) :
    ∀ (s : static_vector T Capacity) (d i : Nat),
      ((s.copy r d)._data i).constructed = (s._data i).constructed := by
  intro s d i; rw [copy_data]; split_ifs <;> rfl

theorem copy_destructed (r : List T) :
    ∀ (s : static_vector T Capacity) (d i : Nat),
      ((s.copy r d)._data i).destructed = (s._data i).destructed := by
  intro s d i; rw [copy_data]; split_ifs <;> rfl

theorem destroy_n_constructed (n : Nat) (s : static_vector T Capacity) (first i : Nat) :
    ((s.destroy_n n first)._data i).constructed = (s._data i).constructed := by
  rw [destroy_n_data]; split_ifs <;> rfl

theorem destroy_n_destructed (n : Nat) (s : static_vector T Capacity) (first i : Nat) :
    ((s.destroy_n n first)._data i).destructed =
      if first ≤ i ∧ i < first + n then (s._data i).destructed + 1
      else (s._data i).destructed := by
  rw [destroy_n_data]; split_ifs <;> rfl

theorem insert_loop_constructed (to_end : Nat) (r : List T)
    (s : static_vector T Capacity) (i0 d j : Nat) :
    ((insert_loop to_end s i0 r d)._data j).constructed =
      if d ≤ j ∧ j < d + r.length ∧ ¬ j - d + i0 < to_end then (s._data j).constructed + 1
      else (s._data j).constructed := by
  rw [insert_loop_data]; split_ifs <;> first | rfl | omega | (exfalso; tauto)

theorem insert_loop_destructed (to_end : Nat) (r : List T)
    (s : static_vector T Capacity) (i0 d j : Nat) :
    ((insert_loop to_end s i0 r d)._data j).destructed = (s._data j).destructed := by
  rw [insert_loop_data]; split_ifs <;> rfl

theorem insert_range_wf_faults [Movable T] (s : static_vector T Capacity) (p : Nat) (r : List T)
    (hN : Capacity < size_t_mod) (hs : s.wf) (hp : p ≤ s._size)
    (hr : s._size + r.length ≤ Capacity) :
    (s.insert_range p r).2.wf ∧ (s.insert_range p r).2.faults = s.faults := by
  have hl := hs.live
  have hd := hs.dead
  by_cases hd0 : r.length ≤ 0
  · have : r = [] := List.eq_nil_of_length_eq_zero (by omega)
    subst this
    simp only [insert_range, List.length_nil, le_refl, if_true]
    exact ⟨hs, trivial⟩
  by_cases ha : r.length ≤ s._size - p
  · rw [insert_range_shift s p r hN hr (by omega) ha]
    refine ⟨⟨hr, ?_, ?_⟩, ?_⟩
    · intro i hi
      have := hl i; have := hd i
      simp only [copy_constructed, copy_destructed, move_backward_n_constructed,
        move_backward_n_destructed, uninitialized_move_n_constructed,
        uninitialized_move_n_destructed] at *
      split_ifs <;> omega
    · intro i hi hi2
      have := hl i; have := hd i
      simp only [copy_constructed, copy_destructed, move_backward_n_constructed,
        move_backward_n_destructed, uninitialized_move_n_constructed,
        uninitialized_move_n_destructed] at *
      split_ifs <;> omega
    · show (((s.uninitialized_move_n (s._size - r.length) r.length s._size).move_backward_n
                  (s._size - r.length - p) (s._size - r.length) s._size).copy r p).faults = _
      rw [copy_faults, move_backward_n_faults _ _ _ _ (by omega) (by omega),
        uninitialized_move_n_faults _ _ _ _ (by omega) (by omega)]
      · intro i h1 h2; exact hl i (by omega)
      · intro i h1 h2; exact hd i (by omega) (by omega)
      · intro i h1 h2
        have := hl i (by omega)
        simp only [Slot.live, uninitialized_move_n_constructed, uninitialized_move_n_destructed]
        rw [if_neg (by omega)]; exact this
      · intro i h1 h2
        have := hl i (by omega)
        simp only [Slot.live, move_backward_n_constructed, move_backward_n_destructed,
          uninitialized_move_n_constructed, uninitialized_move_n_destructed]
        rw [if_neg (by omega)]; exact this
  · rw [insert_range_cross s p r hN hr (by omega)]
    refine ⟨⟨hr, ?_, ?_⟩, ?_⟩
    · intro i hi
      have := hl i; have := hd i
      simp only [insert_loop_constructed, insert_loop_destructed,
        uninitialized_move_n_constructed, uninitialized_move_n_destructed] at *
      split_ifs <;> omega
    · intro i hi hi2
      have := hl i; have := hd i
      simp only [insert_loop_constructed, insert_loop_destructed,
        uninitialized_move_n_constructed, uninitialized_move_n_destructed] at *
      split_ifs <;> omega
    · show (insert_loop (s._size - p)
                  (s.uninitialized_move_n (s._size - (s._size - p)) (s._size - p)
                    (s._size + r.length - (s._size - p))) 0 r p).faults = _
      rw [insert_loop_faults _ _ _ _ _ (by omega),
        uninitialized_move_n_faults _ _ _ _ (by omega) (by omega)]
      · intro i h1 h2; exact hl i (by omega)
      · intro i h1 h2; exact hd i (by omega) (by omega)
      · intro i h1 h2 h3
        have := hl i (by omega)
        simp only [Slot.live, uninitialized_move_n_constructed, uninitialized_move_n_destructed]
        rw [if_neg (by omega)]; exact this
      · intro i h1 h2 h3
        have := hd i (by omega) (by omega)
        simp only [Slot.dead, uninitialized_move_n_constructed, uninitialized_move_n_destructed]
        rw [if_neg (by omega)]; exact this

/-- The state in which a successful `try_emplace` at `end()` leaves the buffer. -/
theorem try_emplace_at_end [Movable T] (s : static_vector T Capacity) (x : T)
    (hN : Capacity < size_t_mod) (hs : s._size < Capacity) :
    s.try_emplace s._size x =
      (some s._size, ({ s with _size := s._size + 1 } : static_vector T Capacity).construct_at
        s._size x) := by
  unfold try_emplace
  rw [if_neg (by omega)]
  simp only [end_, begin_, Nat.zero_add, ne_eq, not_true_eq_false, false_and, if_false]
  rw [internal_size_wrap (show s._size + 1 ≤ Capacity by omega) hN]
  rfl

/-- The state in which a successful `try_emplace` before `end()` leaves the buffer. -/
theorem try_emplace_shift [Movable T] (s : static_vector T Capacity) (k : Nat) (x : T)
    (hN : Capacity < size_t_mod) (hs : s._size < Capacity) (hk : k < s._size) :
    s.try_emplace k x =
      (some k, ({ (((s.uninitialized_move_n (s._size - 1) 1 s._size).move_backward_n
          (s._size - 1 - k) (s._size - 1) s._size).destroy_at k) with
          _size := s._size + 1 } : static_vector T Capacity).construct_at k x) := by
  unfold try_emplace
  rw [if_neg (by omega)]
  simp only [end_, begin_, Nat.zero_add, move_backward]
  rw [if_pos ⟨by omega, by omega⟩]
  by_cases h : s._size - 1 > k
  · rw [if_pos h]
    simp only [destroy_at, move_backward_n_size, uninitialized_move_n_size]
    rw [internal_size_wrap (show s._size + 1 ≤ Capacity by omega) hN]
    rfl
  · rw [if_neg h]
    have e : s._size - 1 - k = 0 := by omega
    rw [e]
    simp only [destroy_at, move_backward_n, uninitialized_move_n_size]
    rw [internal_size_wrap (show s._size + 1 ≤ Capacity by omega) hN]
    rfl

theorem try_emplace_contents [Movable T] (s : static_vector T Capacity) (k : Nat) (x : T)
    (hN : Capacity < size_t_mod) (hs : s._size < Capacity) (hk : k ≤ s._size) :
    (s.try_emplace k x).2.contents = s.contents.take k ++ [x] ++ s.contents.drop k := by
  apply List.ext_getElem?
  intro i
  rw [splice_getElem? _ _ _ (by rw [contents_length]; exact hk)]
  simp only [contents_getElem?, List.length_singleton]
  rcases Nat.lt_or_ge k s._size with h | h
  · rw [try_emplace_shift s k x hN hs h]
    simp only [construct_at, destroy_at, Function.update_apply,
      move_backward_n_data _ _ _ _ (show s._size - 1 - k ≤ s._size - 1 by omega)
      (show s._size - 1 < s._size by omega),
      uninitialized_move_n_data _ _ _ _ (show s._size - 1 + 1 ≤ s._size by omega)]
    rcases Nat.lt_or_ge i k with h1 | h1
    · simp (disch := omega) only [if_pos, if_neg]
    rcases Nat.lt_or_ge i (k + 1) with h2 | h2
    · have e : i = k := by omega
      subst e
      simp (disch := omega) only [if_pos, if_neg]
      simp
    rcases Nat.lt_or_ge i s._size with h3 | h3
    · simp (disch := omega) only [if_pos, if_neg]
      congr 3; omega
    rcases Nat.lt_or_ge i (s._size + 1) with h4 | h4
    · simp (disch := omega) only [if_pos, if_neg]
      congr 3; omega
    · simp (disch := omega) only [if_pos, if_neg]
  · have e : k = s._size := by omega
    subst e
    rw [try_emplace_at_end s x hN hs]
    simp only [construct_at, Function.update_apply]
    rcases Nat.lt_or_ge i s._size with h1 | h1
    · simp (disch := omega) only [if_pos, if_neg]
    rcases Nat.lt_or_ge i (s._size + 1) with h2 | h2
    · have e : i = s._size := by omega
      subst e
      simp (disch := omega) only [if_pos, if_neg]
      simp
    · simp (disch := omega) only [if_pos, if_neg]

/-- The state in which `erase( first, last )` leaves the buffer. -/
theorem erase_range_state [Movable T] (s : static_vector T Capacity) (f l : Nat)
    (hN : Capacity < size_t_mod) (hs : s._size ≤ Capacity) (hf : f ≤ l) (hl : l ≤ s._size) :
    s.erase_range f l =
      (f, { ((s.move_n (s._size - l) l f).destroy_n (l - f) (f + (s._size - l))) with
            _size := s._size - (l - f) }) := by
  unfold erase_range move destroy
  simp only [end_, begin_, Nat.zero_add, move_n_size, destroy_n_size]
  have e1 : s._size - (f + (s._size - l)) = l - f := by omega
  have e2 : (((s._size : Int) - ((l : Int) - (f : Int))) % (internal_size Capacity : Int)).toNat
      = s._size - (l - f) := by
    have h3 : ((s._size : Int) - ((l : Int) - (f : Int))) = ((s._size - (l - f) : Nat) : Int) := by
      omega
    rw [h3, ← Int.natCast_mod, Int.toNat_natCast]
    exact internal_size_wrap (by omega) hN
  rw [e1, e2]

theorem erase_range_contents [Movable T] (s : static_vector T Capacity) (f l : Nat)
    (hN : Capacity < size_t_mod) (hs : s._size ≤ Capacity) (hf : f ≤ l) (hl : l ≤ s._size) :
    (s.erase_range f l).2.contents = s.contents.take f ++ s.contents.drop l := by
  apply List.ext_getElem?
  intro i
  rw [erase_range_state s f l hN hs hf hl]
  have hlen : (s.contents.take f).length = f := by
    rw [List.length_take, contents_length]; omega
  simp only [contents_getElem?, destroy_n_data, move_n_data _ _ _ _ hf]
  rcases Nat.lt_or_ge i f with h1 | h1
  · rw [List.getElem?_append_left (by omega), List.getElem?_take_of_lt h1, contents_getElem?]
    simp (disch := omega) only [if_pos, if_neg]
  · rw [List.getElem?_append_right (by omega), hlen, List.getElem?_drop, contents_getElem?]
    rcases Nat.lt_or_ge i (s._size - (l - f)) with h2 | h2
    · simp (disch := omega) only [if_pos, if_neg]
      congr 3; omega
    · simp (disch := omega) only [if_pos, if_neg]

theorem of_list_wf (l : List Int) (h : l.length ≤ Capacity) : (of_list l Capacity).wf := by
  refine ⟨h, ?_, ?_⟩
  · intro i hi
    simp only [of_list] at *
    rw [if_pos hi]
  · intro i hi _
    simp only [of_list] at *
    rw [if_neg (by omega)]

theorem of_list_contents (l : List Int) : (of_list l Capacity).contents = l := by
  apply List.ext_getElem?
  intro i
  rw [contents_getElem?]
  simp only [of_list]
  split_ifs with h
  · rw [List.getD_eq_getElem?_getD, List.getElem?_eq_getElem h]; rfl
  · rw [List.getElem?_eq_none (by omega)]

/-- C1: for contents `v`, an offset `p ≤ |v|` and an input range `r` with
`|v| + |r| ≤ Capacity`, `insert( begin() + p, r.first, r.last )` returns the
iterator at offset `p` and leaves the contents `v[0..p) ++ r ++ v[p..|v|)` with size
`|v| + |r|`; the statement covers both branches of the code (tail at least as long
as the range, tail shorter than the range) and the empty range. -/
theorem insert_range_correct [Movable T] (s : static_vector T Capacity) (p : Nat) (r : List T)
    (hN : Capacity < size_t_mod) (hp : p ≤ s.size) (hr : s.size + r.length ≤ Capacity) :
    (s.insert_range (s.begin_ + p) r).1 = .ok (s.begin_ + p) ∧
    (s.insert_range (s.begin_ + p) r).2.contents
      = s.contents.take p ++ r ++ s.contents.drop p ∧
    (s.insert_range (s.begin_ + p) r).2.size = s.size + r.length := by
  simp only [begin_, Nat.zero_add]
  refine ⟨?_, insert_range_contents s p r hN hp hr, ?_⟩
  all_goals
    unfold size at *
    by_cases hd : r.length ≤ 0
    · have : r = [] := List.eq_nil_of_length_eq_zero (by omega)
      subst this
      simp [insert_range]
    by_cases ha : r.length ≤ s._size - p
    · rw [insert_range_shift s p r hN hr (by omega) ha]
    · rw [insert_range_cross s p r hN hr (by omega)]

theorem insert_range_correct_witness :
    (16 < size_t_mod ∧ 3 ≤ (of_list [0, 1, 2, 3, 4] 16).size ∧
      (of_list [0, 1, 2, 3, 4] 16).size + [21, 22, 23, 24, 25, 26].length ≤ 16) ∧
    ((of_list [0, 1, 2, 3, 4] 16).insert_range ((of_list [0, 1, 2, 3, 4] 16).begin_ + 3)
        [21, 22, 23, 24, 25, 26]).1
      = .ok ((of_list [0, 1, 2, 3, 4] 16).begin_ + 3) ∧
    ((of_list [0, 1, 2, 3, 4] 16).insert_range ((of_list [0, 1, 2, 3, 4] 16).begin_ + 3)
        [21, 22, 23, 24, 25, 26]).2.contents
      = (of_list [0, 1, 2, 3, 4] 16).contents.take 3 ++ [21, 22, 23, 24, 25, 26]
          ++ (of_list [0, 1, 2, 3, 4] 16).contents.drop 3 ∧
    ((of_list [0, 1, 2, 3, 4] 16).insert_range ((of_list [0, 1, 2, 3, 4] 16).begin_ + 3)
        [21, 22, 23, 24, 25, 26]).2.size
      = (of_list [0, 1, 2, 3, 4] 16).size + [21, 22, 23, 24, 25, 26].length :=
  ⟨⟨by decide, by decide, by decide⟩,
   insert_range_correct (of_list [0, 1, 2, 3, 4] 16) 3 [21, 22, 23, 24, 25, 26]
     (by decide) (by decide) (by decide)⟩

/-- C2: for a vector within its capacity and an input range `r` (whose length, as
every `std::distance`, fits `ptrdiff_t`), `insert( pos, r.first, r.last )` throws
`static_vector_full` if and only if `|v| + |r| > Capacity`, and when it throws the
vector (size, every slot) is unchanged. -/
theorem insert_range_full_iff [Movable T] (s : static_vector T Capacity) (p : Nat) (r : List T)
    (hN : Capacity ≤ ptrdiff_max) (hrl : r.length ≤ ptrdiff_max) (hs : s.size ≤ Capacity) :
    ((s.insert_range p r).1 = .error .static_vector_full ↔ s.size + r.length > Capacity) ∧
    ((s.insert_range p r).1 = .error .static_vector_full → (s.insert_range p r).2 = s) := by
  unfold size ptrdiff_max at *
  have e1 : r.length % size_t_mod = r.length := Nat.mod_eq_of_lt (by unfold size_t_mod; omega)
  have e2 : (s._size + r.length) % size_t_mod = s._size + r.length :=
    Nat.mod_eq_of_lt (by unfold size_t_mod; omega)
  unfold insert_range
  simp only [e1, e2]
  by_cases h1 : r.length ≤ 0
  · rw [if_pos h1]; simp; omega
  · rw [if_neg h1]
    by_cases h2 : s._size + r.length > Capacity
    · rw [if_pos h2]; simp; omega
    · rw [if_neg h2]; simp; omega

theorem insert_range_full_iff_witness :
    (4 ≤ ptrdiff_max ∧ [21, 22].length ≤ ptrdiff_max ∧ (of_list [1, 2, 3] 4).size ≤ 4) ∧
    ((of_list [1, 2, 3] 4).insert_range 2 [21, 22]).1 = .error .static_vector_full ∧
    ((of_list [1, 2, 3] 4).insert_range 2 [21, 22]).2 = of_list [1, 2, 3] 4 :=
  have h := insert_range_full_iff (of_list [1, 2, 3] 4) 2 [21, 22]
    (by decide) (by decide) (by decide)
  ⟨⟨by decide, by decide, by decide⟩, h.1.2 (by decide), h.2 (h.1.2 (by decide))⟩

/-- C4: `try_emplace` returns `nullopt` if and only if the vector is full
(`size() == Capacity`) before the call, and when it returns `nullopt` the vector
(size, every slot) is unchanged. -/
theorem try_emplace_none_iff [Movable T] (s : static_vector T Capacity) (pos : Nat) (x : T) :
    ((s.try_emplace pos x).1 = none ↔ s.size = Capacity) ∧
    ((s.try_emplace pos x).1 = none → (s.try_emplace pos x).2 = s) := by
  unfold try_emplace size
  split_ifs with h <;> simp [h]

theorem try_emplace_none_iff_witness :
    ((of_list [1, 2, 3, 4] 4).try_emplace 2 (9 : Int)).1 = none ∧
    ((of_list [1, 2, 3, 4] 4).try_emplace 2 (9 : Int)).2 = of_list [1, 2, 3, 4] 4 :=
  have h := try_emplace_none_iff (of_list [1, 2, 3, 4] 4) 2 9
  ⟨h.1.2 (by decide), h.2 (h.1.2 (by decide))⟩

/-- C5: each of `emplace( pos, x )`, `insert( pos, x )`, `insert( pos, rvalue x )`,
`push_back( x )` and `emplace_back( x )` throws `static_vector_full` if and only if
the vector is full before the call, leaving the vector unchanged when it throws;
when the vector is not full the resulting vector and the returned iterator are those
of `try_emplace` at the same position (`end()` for `push_back` and `emplace_back`). -/
theorem emplace_family_correct [Movable T] (s : static_vector T Capacity) (pos : Nat) (x : T) :
    (((s.emplace pos x).1 = .error .static_vector_full ↔ s.full = true) ∧
     ((s.insert pos x).1 = .error .static_vector_full ↔ s.full = true) ∧
     ((s.insert_rvalue pos x).1 = .error .static_vector_full ↔ s.full = true) ∧
     ((s.push_back x).1 = .error .static_vector_full ↔ s.full = true) ∧
     ((s.emplace_back x).1 = .error .static_vector_full ↔ s.full = true)) ∧
    (s.full = true →
      (s.emplace pos x).2 = s ∧ (s.insert pos x).2 = s ∧ (s.insert_rvalue pos x).2 = s ∧
      (s.push_back x).2 = s ∧ (s.emplace_back x).2 = s) ∧
    (s.full = false →
      (∃ it, (s.try_emplace pos x).1 = some it ∧
        (s.emplace pos x).1 = .ok it ∧ (s.insert pos x).1 = .ok it ∧
        (s.insert_rvalue pos x).1 = .ok it) ∧
      (s.emplace pos x).2 = (s.try_emplace pos x).2 ∧
      (s.insert pos x).2 = (s.try_emplace pos x).2 ∧
      (s.insert_rvalue pos x).2 = (s.try_emplace pos x).2 ∧
      (s.push_back x).1 = .ok () ∧ (s.emplace_back x).1 = .ok () ∧
      (s.push_back x).2 = (s.try_emplace s.end_ x).2 ∧
      (s.emplace_back x).2 = (s.try_emplace s.end_ x).2) := by
  unfold push_back emplace_back insert insert_rvalue emplace try_emplace full
  by_cases h : s._size = Capacity
  · simp [h, Arg.as_lvalue, Arg.as_rvalue]
  · simp [h, Arg.as_lvalue, Arg.as_rvalue]

theorem emplace_family_correct_witness :
    ((of_list [1, 2, 3, 4] 4).full = true ∧
      ((of_list [1, 2, 3, 4] 4).emplace 1 (9 : Int)).1 = .error .static_vector_full ∧
      ((of_list [1, 2, 3, 4] 4).push_back (9 : Int)).2 = of_list [1, 2, 3, 4] 4) ∧
    ((of_list [1, 2, 3] 4).full = false ∧
      ((of_list [1, 2, 3] 4).insert 1 (9 : Int)).2 = ((of_list [1, 2, 3] 4).try_emplace 1 (9 : Int)).2 ∧
      ((of_list [1, 2, 3] 4).push_back (9 : Int)).2 =
        ((of_list [1, 2, 3] 4).try_emplace (of_list [1, 2, 3] 4).end_ (9 : Int)).2) :=
  have h := emplace_family_correct (of_list [1, 2, 3, 4] 4) 1 9
  have g := emplace_family_correct (of_list [1, 2, 3] 4) 1 9
  ⟨⟨by decide, h.1.1.2 (by decide), (h.2.1 (by decide)).2.2.2.1⟩,
   ⟨by decide, (g.2.2 (by decide)).2.2.1, (g.2.2 (by decide)).2.2.2.2.2.2.1⟩⟩

/-- C6: for contents `v` and offsets `f ≤ l ≤ |v|`, `erase( begin() + f, begin() + l )`
returns the iterator at offset `f` and leaves the contents `v[0..f) ++ v[l..|v|)`
with size `|v| - (l - f)`; the returned iterator designates the element that
followed the erased range, or is `end()` when there was none; and `erase( pos )` is
`erase( pos, pos + 1 )`. -/
theorem erase_range_correct [Movable T] (s : static_vector T Capacity) (f l : Nat)
    (hN : Capacity < size_t_mod) (hs : s.size ≤ Capacity) (hf : f ≤ l) (hl : l ≤ s.size) :
    (s.erase_range (s.begin_ + f) (s.begin_ + l)).1 = s.begin_ + f ∧
    (s.erase_range (s.begin_ + f) (s.begin_ + l)).2.contents
      = s.contents.take f ++ s.contents.drop l ∧
    (s.erase_range (s.begin_ + f) (s.begin_ + l)).2.size = s.size - (l - f) ∧
    (l < s.size →
      (s.erase_range (s.begin_ + f) (s.begin_ + l)).2.deref (s.begin_ + f)
        = s.deref (s.begin_ + l)) ∧
    (l = s.size → s.begin_ + f = (s.erase_range (s.begin_ + f) (s.begin_ + l)).2.end_) ∧
    (∀ k, s.erase (s.begin_ + k) = s.erase_range (s.begin_ + k) (s.begin_ + k + 1)) := by
  unfold size at *
  simp only [begin_, Nat.zero_add, end_]
  rw [erase_range_state s f l hN hs hf hl]
  refine ⟨rfl, ?_, rfl, ?_, ?_, fun k => rfl⟩
  · rw [← erase_range_state s f l hN hs hf hl]
    exact erase_range_contents s f l hN hs hf hl
  · intro h
    simp only [deref, destroy_n_data, move_n_data _ _ _ _ hf]
    simp (disch := omega) only [if_pos, if_neg]
    congr 3; omega
  · intro h
    show f = s._size - (l - f)
    omega

theorem erase_range_correct_witness :
    (16 < size_t_mod ∧ (of_list [0, 1, 2, 3, 4] 16).size ≤ 16 ∧ 1 ≤ 3 ∧
      3 ≤ (of_list [0, 1, 2, 3, 4] 16).size) ∧
    ((of_list [0, 1, 2, 3, 4] 16).erase_range ((of_list [0, 1, 2, 3, 4] 16).begin_ + 1)
      ((of_list [0, 1, 2, 3, 4] 16).begin_ + 3)).1 = (of_list [0, 1, 2, 3, 4] 16).begin_ + 1 ∧
    ((of_list [0, 1, 2, 3, 4] 16).erase_range ((of_list [0, 1, 2, 3, 4] 16).begin_ + 1)
      ((of_list [0, 1, 2, 3, 4] 16).begin_ + 3)).2.contents
      = (of_list [0, 1, 2, 3, 4] 16).contents.take 1 ++ (of_list [0, 1, 2, 3, 4] 16).contents.drop 3 ∧
    ((of_list [0, 1, 2, 3, 4] 16).erase_range ((of_list [0, 1, 2, 3, 4] 16).begin_ + 1)
      ((of_list [0, 1, 2, 3, 4] 16).begin_ + 3)).2.deref ((of_list [0, 1, 2, 3, 4] 16).begin_ + 1)
      = (of_list [0, 1, 2, 3, 4] 16).deref ((of_list [0, 1, 2, 3, 4] 16).begin_ + 3) :=
  have h := erase_range_correct (of_list [0, 1, 2, 3, 4] 16) 1 3
    (by decide) (by decide) (by decide) (by decide)
  ⟨⟨by decide, by decide, by decide, by decide⟩, h.1, h.2.1, h.2.2.2.1 (by decide)⟩

/-- C10: in the slot model with construction and destruction counts, a successful
range `insert( begin() + p, r.first, r.last )` (either branch) on a vector that
satisfies the slot invariant leaves every slot of `[0, size)` constructed exactly
once more than destroyed and every slot of `[size, Capacity)` constructed and
destroyed equally often, and performs no construction in a live slot and no
assignment to a slot that is not live (the fault counter does not move). -/
theorem insert_range_lifetime [Movable T] (s : static_vector T Capacity) (p : Nat) (r : List T)
    (hN : Capacity < size_t_mod) (hs : s.wf) (hp : p ≤ s.size)
    (hr : s.size + r.length ≤ Capacity) :
    (∀ i, i < (s.insert_range (s.begin_ + p) r).2.size →
      ((s.insert_range (s.begin_ + p) r).2._data i).constructed
        = ((s.insert_range (s.begin_ + p) r).2._data i).destructed + 1) ∧
    (∀ i, (s.insert_range (s.begin_ + p) r).2.size ≤ i → i < Capacity →
      ((s.insert_range (s.begin_ + p) r).2._data i).constructed
        = ((s.insert_range (s.begin_ + p) r).2._data i).destructed) ∧
    (s.insert_range (s.begin_ + p) r).2.faults = s.faults := by
  have h := insert_range_wf_faults s p r hN hs hp hr
  simp only [begin_, Nat.zero_add]
  exact ⟨h.1.live, h.1.dead, h.2⟩

theorem insert_range_lifetime_witness :
    (16 < size_t_mod ∧ (of_list [0, 1, 2, 3, 4] 16).wf ∧ 3 ≤ (of_list [0, 1, 2, 3, 4] 16).size ∧
      (of_list [0, 1, 2, 3, 4] 16).size + [21, 22, 23, 24, 25, 26].length ≤ 16) ∧
    (((of_list [0, 1, 2, 3, 4] 16).insert_range ((of_list [0, 1, 2, 3, 4] 16).begin_ + 3)
        [21, 22, 23, 24, 25, 26]).2._data 10).constructed
      = (((of_list [0, 1, 2, 3, 4] 16).insert_range ((of_list [0, 1, 2, 3, 4] 16).begin_ + 3)
        [21, 22, 23, 24, 25, 26]).2._data 10).destructed + 1 ∧
    ((of_list [0, 1, 2, 3, 4] 16).insert_range ((of_list [0, 1, 2, 3, 4] 16).begin_ + 3)
        [21, 22, 23, 24, 25, 26]).2.faults = (of_list [0, 1, 2, 3, 4] 16).faults :=
  have h := insert_range_lifetime (of_list [0, 1, 2, 3, 4] 16) 3 [21, 22, 23, 24, 25, 26]
    (by decide) (of_list_wf _ (by decide)) (by decide) (by decide)
  ⟨⟨by decide, of_list_wf _ (by decide), by decide, by decide⟩, h.1 10 (by decide), h.2.2⟩

theorem uninitialized_copy_eq_insert_loop (r : List T) :
    ∀ (s : static_vector T Capacity) (i d : Nat),
      s.uninitialized_copy r d = insert_loop 0 s i r d := by
  induction r with
  | nil => intro s i d; rfl
  | cons x xs ih =>
    intro s i d
    rw [uninitialized_copy, insert_loop, if_neg (Nat.not_lt_zero i)]
    exact ih _ _ _

theorem uninitialized_copy_size (r : List T) (s : static_vector T Capacity) (d : Nat) :
    (s.uninitialized_copy r d)._size = s._size := by
  rw [uninitialized_copy_eq_insert_loop r s 0 d, insert_loop_size]

theorem uninitialized_copy_data (r : List T) (s : static_vector T Capacity) (d j : Nat) :
    (s.uninitialized_copy r d)._data j =
      if d ≤ j ∧ j < d + r.length then
        { s._data j with v := (r[j - d]?).getD (s._data j).v,
                         constructed := (s._data j).constructed + 1 }
      else s._data j := by
  rw [uninitialized_copy_eq_insert_loop r s 0 d, insert_loop_data]
  split_ifs <;> first | rfl | omega

theorem uninitialized_copy_faults (r : List T) (s : static_vector T Capacity) (d : Nat)
    (hc : d + r.length ≤ Capacity)
    (hd : ∀ j, d ≤ j → j < d + r.length → (s._data j).dead) :
    (s.uninitialized_copy r d).faults = s.faults := by
  rw [uninitialized_copy_eq_insert_loop r s 0 d]
  exact insert_loop_faults 0 r s 0 d hc (fun j _ _ h => absurd h (Nat.not_lt_zero _))
    (fun j h1 h2 _ => hd j h1 h2)

theorem uninitialized_copy_constructed (r : List T) (s : static_vector T Capacity) (d j : Nat) :
    ((s.uninitialized_copy r d)._data j).constructed =
      if d ≤ j ∧ j < d + r.length then (s._data j).constructed + 1
      else (s._data j).constructed := by
  rw [uninitialized_copy_data]; split_ifs <;> rfl

theorem uninitialized_copy_destructed (r : List T) (s : static_vector T Capacity) (d j : Nat) :
    ((s.uninitialized_copy r d)._data j).destructed = (s._data j).destructed := by
  rw [uninitialized_copy_data]; split_ifs <;> rfl

theorem uninitialized_fill_n_eq (value : T) (n : Nat) :
    ∀ (s : static_vector T Capacity) (first : Nat),
      s.uninitialized_fill_n value n first
        = s.uninitialized_copy (List.replicate n value) first := by
  induction n with
  | zero => intro s first; rfl
  | succ n ih =>
    intro s first
    rw [uninitialized_fill_n, List.replicate_succ, uninitialized_copy]
    exact ih _ _

theorem value_construct_n_eq [Inhabited T] (n : Nat) :
    ∀ (s : static_vector T Capacity) (it : Nat),
      s.value_construct_n n it = s.uninitialized_copy (List.replicate n default) it := by
  induction n with
  | zero => intro s it; rfl
  | succ n ih =>
    intro s it
    rw [value_construct_n, List.replicate_succ, uninitialized_copy]
    exact ih _ _

theorem fill_n_eq (value : T) (n : Nat) :
    ∀ (s : static_vector T Capacity) (first : Nat),
      s.fill_n value n first = s.copy (List.replicate n value) first := by
  induction n with
  | zero => intro s first; rfl
  | succ n ih =>
    intro s first
    rw [fill_n, List.replicate_succ, copy]
    exact ih _ _

/-- The values which the slots `first, first + 1, ...` (`n` of them) of a buffer
hold. -/
theorem values_congr (o o1 : static_vector T Capacity) (first n : Nat)
    (h : ∀ i, first ≤ i → o1._data i = o._data i) :
    (List.range' first n).map (fun i => (o1._data i).v)
      = (List.range' first n).map (fun i => (o._data i).v) := by
  apply List.map_congr_left
  intro i hi
  rw [List.mem_range'_1] at hi
  rw [h i hi.1]

theorem uninitialized_move_from_fst [Movable T] (n : Nat) :
    ∀ (s o : static_vector T Capacity) (first d : Nat),
      (uninitialized_move_from n s o first d).1
        = s.uninitialized_copy ((List.range' first n).map (fun i => (o._data i).v)) d := by
  induction n with
  | zero => intro s o first d; rfl
  | succ n ih =>
    intro s o first d
    rw [uninitialized_move_from, ih, List.range'_succ, List.map_cons, uninitialized_copy]
    congr 1
    apply values_congr
    intro i hi
    simp only [move_construct_from]
    rw [Function.update_noteq (by omega)]

theorem move_from_fst_size [Movable T] (n : Nat) :
    ∀ (s o : static_vector T Capacity) (first d : Nat),
      (move_from n s o first d).1._size = s._size := by
  induction n with
  | zero => intro s o first d; rfl
  | succ n ih => intro s o first d; rw [move_from, ih]; rfl

theorem move_from_fst_data [Movable T] (n : Nat) :
    ∀ (s o : static_vector T Capacity) (first d j : Nat),
      (move_from n s o first d).1._data j =
        if d ≤ j ∧ j < d + n then
          { s._data j with v := (o._data (first + (j - d))).v,
                           moved_to := (s._data j).moved_to + 1 }
        else s._data j := by
  induction n with
  | zero =>
    intro s o first d j; simp only [move_from]
    split_ifs <;> first | omega | rfl
  | succ n ih =>
    intro s o first d j
    rw [move_from, ih]
    by_cases hj : j = d
    · subst hj
      split_ifs <;> first | omega | (simp [move_assign_from]; done)
    · split_ifs <;> first | omega | skip
      all_goals simp only [move_assign_from, Function.update_apply, if_neg hj]
      all_goals first | rfl | skip
      all_goals
        rw [if_neg (by omega)]
        have e : first + 1 + (j - (d + 1)) = first + (j - d) := by omega
        rw [e]

theorem move_from_fst_faults [Movable T] (n : Nat) :
    ∀ (s o : static_vector T Capacity) (first d : Nat),
      (∀ j, d ≤ j → j < d + n → (s._data j).live) →
      (move_from n s o first d).1.faults = s.faults := by
  induction n with
  | zero => intro s o first d _; rfl
  | succ n ih =>
    intro s o first d hl
    rw [move_from, ih]
    · have a := hl d (by omega) (by omega)
      simp only [move_assign_from]
      rw [if_pos a]
    · intro j hj1 hj2
      have := hl j (by omega) (by omega)
      simp only [move_assign_from, Function.update_apply, Slot.live] at *
      split_ifs <;> first | omega | assumption

theorem contents_eq_range' (s : static_vector T Capacity) :
    s.contents = (List.range' 0 s._size).map (fun i => (s._data i).v) := by
  rw [contents, List.range_eq_range']

theorem uninitialized_move_from_snd_size [Movable T] (n : Nat) :
    ∀ (s o : static_vector T Capacity) (first d : Nat),
      (uninitialized_move_from n s o first d).2._size = o._size := by
  induction n with
  | zero => intro s o first d; rfl
  | succ n ih => intro s o first d; rw [uninitialized_move_from, ih]; rfl

theorem move_from_snd_size [Movable T] (n : Nat) :
    ∀ (s o : static_vector T Capacity) (first d : Nat),
      (move_from n s o first d).2._size = o._size := by
  induction n with
  | zero => intro s o first d; rfl
  | succ n ih => intro s o first d; rw [move_from, ih]; rfl

theorem slot_sum_congr (f g : Nat → Nat) (n : Nat) (h : ∀ i, i < n → f i = g i) :
    slot_sum f n = slot_sum g n := by
  induction n with
  | zero => rfl
  | succ n ih =>
    rw [slot_sum, slot_sum, ih (fun i hi => h i (by omega)), h n (by omega)]

theorem slot_sum_range (f g : Nat → Nat) (a b : Nat) (hab : a ≤ b) (n : Nat)
    (h : ∀ i, i < n → f i = g i + (if a ≤ i ∧ i < b then 1 else 0)) :
    slot_sum f n = slot_sum g n + (min b n - min a n) := by
  induction n with
  | zero => simp [slot_sum]
  | succ n ih =>
    rw [slot_sum, slot_sum, ih (fun i hi => h i (by omega)), h n (by omega)]
    split_ifs <;> omega

theorem contents_eq_iff (s : static_vector T Capacity) (l : List T) :
    s.contents = l ↔ ∀ i, l[i]? = if i < s._size then some (s._data i).v else none := by
  constructor
  · intro h i; rw [← h, contents_getElem?]
  · intro h
    apply List.ext_getElem?
    intro i
    rw [contents_getElem?, h]

theorem take_append_replicate_getElem? (l : List T) (n : Nat) (x : T) (i : Nat) :
    (l.take n ++ List.replicate (n - l.length) x)[i]? =
      if i < n then (if i < l.length then l[i]? else some x) else none := by
  have hl : (l.take n).length = min n l.length := List.length_take _ _
  by_cases h1 : i < n
  · rw [if_pos h1]
    by_cases h2 : i < l.length
    · rw [if_pos h2, List.getElem?_append_left (by omega), List.getElem?_take_of_lt h1]
    · rw [if_neg h2, List.getElem?_append_right (by omega), List.getElem?_replicate,
        if_pos (by omega)]
  · rw [if_neg h1, List.getElem?_eq_none]
    rw [List.length_append, List.length_replicate, hl]
    omega

theorem set_size_size (s : static_vector T Capacity) (n : Nat) (hn : n ≤ Capacity)
    (hN : Capacity < size_t_mod) : (s._set_size n)._size = n := by
  simp only [_set_size]
  exact internal_size_wrap hn hN

theorem set_size_data (s : static_vector T Capacity) (n j : Nat) :
    (s._set_size n)._data j =
      if n ≤ j ∧ j < s._size then
        { s._data j with destructed := (s._data j).destructed + 1 }
      else s._data j := by
  simp only [_set_size, destroy, begin_, end_, Nat.zero_add]
  by_cases h : n < s._size
  · rw [if_pos h]
    show (s.destroy_n (s._size - n) n)._data j = _
    rw [destroy_n_data]
    split_ifs <;> first | omega | rfl
  · rw [if_neg h, if_neg (by omega)]

theorem set_size_faults (s : static_vector T Capacity) (n : Nat)
    (hl : ∀ i, i < s._size → (s._data i).live) : (s._set_size n).faults = s.faults := by
  simp only [_set_size, destroy, begin_, end_, Nat.zero_add]
  by_cases h : n < s._size
  · rw [if_pos h]
    show (s.destroy_n (s._size - n) n).faults = _
    exact destroy_n_faults _ s n (fun i _ h2 => hl i (by omega))
  · rw [if_neg h]

/-- The state in which a successful `resize( count )` leaves the vector. -/
theorem resize_state [Inhabited T] (s : static_vector T Capacity) (n : Nat)
    (hn : n ≤ Capacity) (hN : Capacity < size_t_mod) :
    s.resize n = (.ok (), (s._set_size n).uninitialized_copy
      (List.replicate (n - s._size) default) s._size) := by
  simp only [resize, _resize]
  rw [if_neg (by omega)]
  simp only [end_, begin_, Nat.zero_add, set_size_size s n hn hN, value_construct_n_eq]

/-- The state in which a successful `resize( count, value )` leaves the vector. -/
theorem resize_value_state (s : static_vector T Capacity) (n : Nat) (x : T)
    (hn : n ≤ Capacity) (hN : Capacity < size_t_mod) :
    s.resize_value n x = (.ok (), (s._set_size n).copy
      (List.replicate (n - s._size) x) s._size) := by
  simp only [resize_value, _resize]
  rw [if_neg (by omega)]
  simp only [end_, begin_, Nat.zero_add, set_size_size s n hn hN, fill, fill_n_eq]
  by_cases h : s._size < n
  · rw [if_pos h]
  · rw [if_neg h]
    have e : n - s._size = 0 := by omega
    rw [e]; rfl

theorem resize_data [Inhabited T] (s : static_vector T Capacity) (n : Nat)
    (hn : n ≤ Capacity) (hN : Capacity < size_t_mod) (j : Nat) :
    (s.resize n).2._data j =
      if s._size ≤ j ∧ j < n then
        { s._data j with v := default, constructed := (s._data j).constructed + 1 }
      else if n ≤ j ∧ j < s._size then
        { s._data j with destructed := (s._data j).destructed + 1 }
      else s._data j := by
  rw [resize_state s n hn hN]
  simp only [uninitialized_copy_data, set_size_data, List.length_replicate]
  by_cases h1 : s._size ≤ j ∧ j < n
  · rw [if_pos h1, if_pos (by omega), if_neg (by omega), List.getElem?_replicate,
      if_pos (by omega)]
    rfl
  · rw [if_neg h1, if_neg (by omega)]

theorem resize_value_data (s : static_vector T Capacity) (n : Nat) (x : T)
    (hn : n ≤ Capacity) (hN : Capacity < size_t_mod) (j : Nat) :
    (s.resize_value n x).2._data j =
      if s._size ≤ j ∧ j < n then
        { s._data j with v := x, copied_to := (s._data j).copied_to + 1 }
      else if n ≤ j ∧ j < s._size then
        { s._data j with destructed := (s._data j).destructed + 1 }
      else s._data j := by
  rw [resize_value_state s n x hn hN]
  simp only [copy_data, set_size_data, List.length_replicate]
  by_cases h1 : s._size ≤ j ∧ j < n
  · rw [if_pos h1, if_pos (by omega), if_neg (by omega), List.getElem?_replicate,
      if_pos (by omega)]
    rfl
  · rw [if_neg h1, if_neg (by omega)]

theorem resize_size [Inhabited T] (s : static_vector T Capacity) (n : Nat)
    (hn : n ≤ Capacity) (hN : Capacity < size_t_mod) : (s.resize n).2._size = n := by
  rw [resize_state s n hn hN]
  simp only [uninitialized_copy_size, set_size_size s n hn hN]

theorem resize_value_size (s : static_vector T Capacity) (n : Nat) (x : T)
    (hn : n ≤ Capacity) (hN : Capacity < size_t_mod) : (s.resize_value n x).2._size = n := by
  rw [resize_value_state s n x hn hN]
  simp only [copy_size, set_size_size s n hn hN]

/-- C15: for contents `v` and a count `n`: if `n ≤ Capacity`, `resize( n )` succeeds
with size `n`, keeps the first `min( |v|, n )` elements and value-initialises every
new element (contents `v[0..n) ++ [T(), ...]`), constructing exactly `n - |v|` and
destroying exactly `|v| - n` elements (differences cut off at zero); if
`n > Capacity` it throws `static_vector_full` and leaves the vector unchanged. -/
theorem resize_correct [Inhabited T] (s : static_vector T Capacity) (n : Nat)
    (hN : Capacity < size_t_mod) (hs : s.size ≤ Capacity) :
    (n ≤ Capacity →
      (s.resize n).1 = .ok () ∧ (s.resize n).2.size = n ∧
      (s.resize n).2.contents = s.contents.take n ++ List.replicate (n - s.size) default ∧
      (s.resize n).2.ctor_cnt = s.ctor_cnt + (n - s.size) ∧
      (s.resize n).2.dtor_cnt = s.dtor_cnt + (s.size - n)) ∧
    (Capacity < n → (s.resize n).1 = .error .static_vector_full ∧ (s.resize n).2 = s) := by
  unfold size at *
  constructor
  · intro hn
    refine ⟨by rw [resize_state s n hn hN], resize_size s n hn hN, ?_, ?_, ?_⟩
    · rw [contents_eq_iff]
      intro i
      have e : n - s._size = n - s.contents.length := by rw [contents_length]
      rw [e, take_append_replicate_getElem?, contents_length, resize_size s n hn hN,
        resize_data s n hn hN, contents_getElem?]
      by_cases h1 : i < n
      · by_cases h2 : i < s._size
        · simp (disch := omega) only [if_pos, if_neg]
        · simp (disch := omega) only [if_pos, if_neg]
      · simp (disch := omega) only [if_pos, if_neg]
    · unfold ctor_cnt
      rw [slot_sum_range _ (fun i => (s._data i).constructed) s._size (max s._size n)
        (by omega) Capacity]
      · omega
      · intro i _
        rw [resize_data s n hn hN]
        split_ifs <;> first | omega | rfl
    · unfold dtor_cnt
      rw [slot_sum_range _ (fun i => (s._data i).destructed) n (max s._size n)
        (by omega) Capacity]
      · omega
      · intro i _
        rw [resize_data s n hn hN]
        split_ifs <;> first | omega | rfl
  · intro hn
    simp only [resize, _resize]
    rw [if_pos hn]
    exact ⟨rfl, rfl⟩

theorem resize_correct_witness :
    (16 < size_t_mod ∧ (of_list [42, 42, 42] 16).size ≤ 16 ∧ 5 ≤ 16 ∧ 16 < 17) ∧
    ((of_list [42, 42, 42] 16).resize 5).2.contents
      = (of_list [42, 42, 42] 16).contents.take 5
          ++ List.replicate (5 - (of_list [42, 42, 42] 16).size) default ∧
    ((of_list [42, 42, 42] 16).resize 5).2.ctor_cnt = (of_list [42, 42, 42] 16).ctor_cnt
      + (5 - (of_list [42, 42, 42] 16).size) ∧
    ((of_list [42, 42, 42] 16).resize 17).2 = of_list [42, 42, 42] 16 :=
  have h := resize_correct (of_list [42, 42, 42] 16) 5 (by decide) (by decide)
  have g := resize_correct (of_list [42, 42, 42] 16) 17 (by decide) (by decide)
  ⟨⟨by decide, by decide, by decide, by decide⟩, (h.1 (by decide)).2.2.1,
    (h.1 (by decide)).2.2.2.1, (g.2 (by decide)).2⟩

/-- C16: for contents `v`, a value `x` and a count `n`: if `n ≤ Capacity`,
`resize( n, x )` succeeds with size `n`, the first `min( |v|, n )` elements unchanged
and every element at an index `≥ |v|` equal to `x` (contents
`v[0..n) ++ [x, ...]`); if `n > Capacity` it throws `static_vector_full` and leaves
the vector unchanged. -/
theorem resize_value_correct (s : static_vector T Capacity) (n : Nat) (x : T)
    (hN : Capacity < size_t_mod) :
    (n ≤ Capacity →
      (s.resize_value n x).1 = .ok () ∧ (s.resize_value n x).2.size = n ∧
      (s.resize_value n x).2.contents
        = s.contents.take n ++ List.replicate (n - s.size) x) ∧
    (Capacity < n →
      (s.resize_value n x).1 = .error .static_vector_full ∧ (s.resize_value n x).2 = s) := by
  unfold size at *
  constructor
  · intro hn
    refine ⟨by rw [resize_value_state s n x hn hN], resize_value_size s n x hn hN, ?_⟩
    rw [contents_eq_iff]
    intro i
    have e : n - s._size = n - s.contents.length := by rw [contents_length]
    rw [e, take_append_replicate_getElem?, contents_length, resize_value_size s n x hn hN,
      resize_value_data s n x hn hN, contents_getElem?]
    by_cases h1 : i < n
    · by_cases h2 : i < s._size
      · simp (disch := omega) only [if_pos, if_neg]
      · simp (disch := omega) only [if_pos, if_neg]
    · simp (disch := omega) only [if_pos, if_neg]
  · intro hn
    simp only [resize_value, _resize]
    rw [if_pos hn]
    exact ⟨rfl, rfl⟩

theorem resize_value_correct_witness :
    (16 < size_t_mod ∧ 5 ≤ 16 ∧ 16 < 17) ∧
    ((of_list [42, 42, 42] 16).resize_value 5 16).2.contents
      = (of_list [42, 42, 42] 16).contents.take 5
          ++ List.replicate (5 - (of_list [42, 42, 42] 16).size) 16 ∧
    ((of_list [42, 42, 42] 16).resize_value 17 16).1 = .error .static_vector_full :=
  have h := resize_value_correct (of_list [42, 42, 42] 16) 5 16 (by decide)
  have g := resize_value_correct (of_list [42, 42, 42] 16) 17 16 (by decide)
  ⟨⟨by decide, by decide, by decide⟩, (h.1 (by decide)).2.2, (g.2 (by decide)).1⟩

theorem contents_uninitialized_copy (mem : Nat → Slot T) (r : List T) (f : Nat) :
    (({ _data := mem, _size := r.length, faults := f } :
      static_vector T Capacity).uninitialized_copy r 0).contents = r := by
  rw [contents_eq_iff]
  intro i
  simp only [uninitialized_copy_size, uninitialized_copy_data, Nat.zero_add, Nat.sub_zero,
    Nat.zero_le, true_and]
  by_cases h : i < r.length
  · rw [if_pos h, if_pos h, List.getElem?_eq_getElem h]; rfl
  · rw [if_neg h, List.getElem?_eq_none (by omega)]

theorem ctor_cnt_uninitialized_copy (s : static_vector T Capacity) (r : List T)
    (h : r.length ≤ Capacity) :
    (s.uninitialized_copy r 0).ctor_cnt = s.ctor_cnt + r.length ∧
    (s.uninitialized_copy r 0).dtor_cnt = s.dtor_cnt := by
  constructor
  · unfold ctor_cnt
    rw [slot_sum_range _ (fun i => (s._data i).constructed) 0 r.length (by omega) Capacity]
    · omega
    · intro i _
      rw [uninitialized_copy_constructed]
      split_ifs <;> first | omega | rfl
  · unfold dtor_cnt
    apply slot_sum_congr
    intro i _
    rw [uninitialized_copy_destructed]

theorem ctor_cnt_raw (mem : Nat → Slot T) (r : List T) (n f : Nat) (h : r.length ≤ Capacity) :
    ((⟨mem, n, f⟩ : static_vector T Capacity).uninitialized_copy r 0).ctor_cnt
      = (ctor_default Capacity mem).ctor_cnt + r.length ∧
    ((⟨mem, n, f⟩ : static_vector T Capacity).uninitialized_copy r 0).dtor_cnt
      = (ctor_default Capacity mem).dtor_cnt :=
  ctor_cnt_uninitialized_copy ⟨mem, n, f⟩ r h

/-- C17: for a count `c` and a value `v`: if `c ≤ Capacity` the count constructor
yields size `c` with `c` value-initialised elements and the fill constructor yields
size `c` with every element equal to `v`, each performing exactly `c` constructions
(and no destruction); if `c > Capacity` each throws `static_vector_full` and leaves
every slot of the storage as it was (constructs no element). -/
theorem ctor_count_fill_correct [Inhabited T] (mem : Nat → Slot T) (c : Nat) (v : T)
    (hN : Capacity < size_t_mod) :
    (c ≤ Capacity →
      ((ctor_count Capacity mem c).1 = .ok () ∧ (ctor_count Capacity mem c).2.size = c ∧
        (ctor_count Capacity mem c).2.contents = List.replicate c default ∧
        (ctor_count Capacity mem c).2.ctor_cnt = (ctor_default Capacity mem).ctor_cnt + c ∧
        (ctor_count Capacity mem c).2.dtor_cnt = (ctor_default Capacity mem).dtor_cnt) ∧
      ((ctor_fill Capacity mem c v).1 = .ok () ∧ (ctor_fill Capacity mem c v).2.size = c ∧
        (ctor_fill Capacity mem c v).2.contents = List.replicate c v ∧
        (ctor_fill Capacity mem c v).2.ctor_cnt = (ctor_default Capacity mem).ctor_cnt + c ∧
        (ctor_fill Capacity mem c v).2.dtor_cnt = (ctor_default Capacity mem).dtor_cnt)) ∧
    (Capacity < c →
      (ctor_count Capacity mem c).1 = .error .static_vector_full ∧
      (ctor_count Capacity mem c).2._data = mem ∧
      (ctor_fill Capacity mem c v).1 = .error .static_vector_full ∧
      (ctor_fill Capacity mem c v).2._data = mem) := by
  constructor
  · intro hc
    have hw : c % internal_size Capacity = c := internal_size_wrap hc hN
    have e1 : ctor_count Capacity mem c = (.ok (),
        ({ _data := mem, _size := (List.replicate c (default : T)).length, faults := 0 } :
          static_vector T Capacity).uninitialized_copy (List.replicate c default) 0) := by
      simp only [ctor_count, _check_count_ctor]
      rw [if_neg (by omega)]
      simp only [end_, begin_, Nat.zero_add, Nat.sub_zero, hw, value_construct_n_eq,
        List.length_replicate]
    have e2 : ctor_fill Capacity mem c v = (.ok (),
        ({ _data := mem, _size := (List.replicate c v).length, faults := 0 } :
          static_vector T Capacity).uninitialized_copy (List.replicate c v) 0) := by
      simp only [ctor_fill, _check_count_ctor]
      rw [if_neg (by omega)]
      simp only [end_, begin_, Nat.zero_add, Nat.sub_zero, hw, uninitialized_fill,
        uninitialized_fill_n_eq, List.length_replicate]
    rw [e1, e2]
    have k1 := ctor_cnt_raw mem (List.replicate c (default : T))
      (List.replicate c (default : T)).length 0 (by simpa using hc)
    have k2 := ctor_cnt_raw mem (List.replicate c v) (List.replicate c v).length 0
      (by simpa using hc)
    rw [List.length_replicate] at k1 k2
    refine ⟨⟨rfl, ?_, contents_uninitialized_copy mem _ 0, ?_, ?_⟩,
      ⟨rfl, ?_, contents_uninitialized_copy mem _ 0, ?_, ?_⟩⟩
    · simp [size, uninitialized_copy_size]
    · rw [List.length_replicate]; exact k1.1
    · rw [List.length_replicate]; exact k1.2
    · simp [size, uninitialized_copy_size]
    · rw [List.length_replicate]; exact k2.1
    · rw [List.length_replicate]; exact k2.2
  · intro hc
    simp only [ctor_count, ctor_fill, _check_count_ctor]
    rw [if_pos hc]
    exact ⟨rfl, rfl, rfl, rfl⟩

theorem ctor_count_fill_correct_witness :
    (16 < size_t_mod ∧ 8 ≤ 16 ∧ 16 < 32) ∧
    (ctor_count 16 (fresh (fun _ => (7 : Int))) 8).2.contents = List.replicate 8 default ∧
    (ctor_count 16 (fresh (fun _ => (7 : Int))) 8).2.ctor_cnt
      = (ctor_default 16 (fresh (fun _ => (7 : Int)))).ctor_cnt + 8 ∧
    (ctor_fill 16 (fresh (fun _ => (7 : Int))) 8 42).2.contents = List.replicate 8 42 ∧
    (ctor_count 16 (fresh (fun _ => (7 : Int))) 32).1 = .error .static_vector_full ∧
    (ctor_count 16 (fresh (fun _ => (7 : Int))) 32).2._data = fresh (fun _ => (7 : Int)) :=
  have h := ctor_count_fill_correct (fresh (fun _ => (7 : Int))) 8 42
    (show 16 < size_t_mod by decide)
  have g := ctor_count_fill_correct (fresh (fun _ => (7 : Int))) 32 42
    (show 16 < size_t_mod by decide)
  ⟨⟨by decide, by decide, by decide⟩, (h.1 (by decide)).1.2.2.1, (h.1 (by decide)).1.2.2.2.1,
    (h.1 (by decide)).2.2.2.1, (g.2 (by decide)).1, (g.2 (by decide)).2.1⟩

theorem push_back_ok [Movable T] (s : static_vector T Capacity) (x : T)
    (hN : Capacity < size_t_mod) (hs : s._size < Capacity) :
    (s.push_back x).1 = .ok () ∧ (s.push_back x).2 = (s.try_emplace s._size x).2 ∧
    (s.push_back x).2.contents = s.contents ++ [x] ∧
    (s.push_back x).2._size = s._size + 1 := by
  have h := try_emplace_at_end s x hN hs
  have e : s.push_back x = (.ok (), (s.try_emplace s._size x).2) := by
    simp only [push_back, emplace_back, emplace, Arg.as_lvalue, end_, begin_, Nat.zero_add, h]
  rw [e]
  refine ⟨rfl, rfl, ?_, ?_⟩
  · show (s.try_emplace s._size x).2.contents = _
    rw [try_emplace_contents s s._size x hN hs (Nat.le_refl _)]
    have hl := contents_length s
    rw [← hl, List.take_length, List.drop_length, List.append_nil]
  · show (s.try_emplace s._size x).2._size = _
    rw [h]; rfl

theorem push_back_full [Movable T] (s : static_vector T Capacity) (x : T)
    (hs : s._size = Capacity) :
    s.push_back x = (.error .static_vector_full, s) := by
  simp only [push_back, emplace_back, emplace, Arg.as_lvalue, try_emplace, hs, if_true]

theorem push_back_all_ok [Movable T] (hN : Capacity < size_t_mod) (r : List T) :
    ∀ (s : static_vector T Capacity), s._size + r.length ≤ Capacity →
      (s.push_back_all r).1 = .ok () ∧ (s.push_back_all r).2.contents = s.contents ++ r ∧
      (s.push_back_all r).2._size = s._size + r.length := by
  induction r with
  | nil => intro s _; simp [push_back_all]
  | cons x xs ih =>
    intro s hs
    simp only [List.length_cons] at hs
    obtain ⟨h1, _, h3, h4⟩ := push_back_ok s x hN (by omega)
    rw [push_back_all]
    rcases hp : s.push_back x with ⟨_ | _, s1⟩
    · rw [hp] at h1; cases h1
    · rw [hp] at h3 h4
      simp only [] at h3 h4 ⊢
      obtain ⟨k1, k2, k3⟩ := ih s1 (by omega)
      refine ⟨k1, ?_, ?_⟩
      · rw [k2, h3, List.append_assoc]; rfl
      · rw [k3, h4, List.length_cons]; omega

theorem push_back_all_full [Movable T] (hN : Capacity < size_t_mod) (r : List T) :
    ∀ (s : static_vector T Capacity), s._size ≤ Capacity → Capacity < s._size + r.length →
      (s.push_back_all r).1 = .error .static_vector_full := by
  induction r with
  | nil => intro s h1 h2; simp at h2; omega
  | cons x xs ih =>
    intro s h1 h2
    simp only [List.length_cons] at h2
    rw [push_back_all]
    by_cases hf : s._size = Capacity
    · rw [push_back_full s x hf]
    · obtain ⟨k1, _, _, k4⟩ := push_back_ok s x hN (by omega)
      rcases hp : s.push_back x with ⟨_ | _, s1⟩
      · rw [hp] at k1; cases k1
      · rw [hp] at k4
        simp only [] at k4 ⊢
        exact ih s1 (by omega) (by omega)

/-- C18: construction from the iterator range of an input sequence `r`, and from
the initializer sequence `r` (which delegates to it), succeeds if and only if
`|r| ≤ Capacity`; then the size is `|r|` and element `i` is `r[i]` for every
`i < |r|`, also through `operator[]` and `data()`; otherwise it throws
`static_vector_full`. -/
theorem ctor_range_correct [Movable T] (mem : Nat → Slot T) (r : List T)
    (hN : Capacity < size_t_mod) :
    ctor_ilist Capacity mem r = ctor_range Capacity mem r ∧
    ((ctor_range Capacity mem r).1 = .ok () ↔ r.length ≤ Capacity) ∧
    (r.length ≤ Capacity →
      (ctor_range Capacity mem r).2.size = r.length ∧
      (ctor_range Capacity mem r).2.contents = r ∧
      ∀ i, i < r.length →
        some ((ctor_range Capacity mem r).2.index i) = r[i]? ∧
        some ((ctor_range Capacity mem r).2.deref ((ctor_range Capacity mem r).2.data + i))
          = r[i]?) ∧
    (Capacity < r.length → (ctor_range Capacity mem r).1 = .error .static_vector_full) := by
  have hok : r.length ≤ Capacity →
      (ctor_range Capacity mem r).1 = .ok () ∧ (ctor_range Capacity mem r).2.contents = r ∧
      (ctor_range Capacity mem r).2._size = r.length := by
    intro h
    have := push_back_all_ok hN r (ctor_default Capacity mem)
      (by show 0 + r.length ≤ Capacity; omega)
    have e1 : (ctor_default Capacity mem : static_vector T Capacity).contents = [] := rfl
    have e2 : (ctor_default Capacity mem : static_vector T Capacity)._size = 0 := rfl
    rw [e1, e2, List.nil_append, Nat.zero_add] at this
    exact this
  have hfull : Capacity < r.length →
      (ctor_range Capacity mem r).1 = .error .static_vector_full := by
    intro h
    exact push_back_all_full hN r (ctor_default Capacity mem) (Nat.zero_le _)
      (by show Capacity < 0 + r.length; omega)
  refine ⟨rfl, ⟨?_, fun h => (hok h).1⟩, ?_, hfull⟩
  · intro h
    rcases Nat.lt_or_ge Capacity r.length with h1 | h1
    · rw [hfull h1] at h; cases h
    · exact h1
  · intro h
    obtain ⟨_, h2, h3⟩ := hok h
    refine ⟨h3, h2, ?_⟩
    intro i hi
    have := contents_getElem? (ctor_range Capacity mem r).2 i
    rw [h2, h3, if_pos hi] at this
    exact ⟨by simpa [index, begin_] using this.symm,
      by simpa [deref, data, begin_] using this.symm⟩

theorem ctor_range_correct_witness :
    (16 < size_t_mod ∧ [0, 1, 2, 3, 4].length ≤ 16 ∧ 2 < [1, 2, 3, 4].length) ∧
    (ctor_range 16 (fresh (fun _ => (7 : Int))) [0, 1, 2, 3, 4]).2.contents = [0, 1, 2, 3, 4] ∧
    (ctor_range 16 (fresh (fun _ => (7 : Int))) [0, 1, 2, 3, 4]).2.size
      = [0, 1, 2, 3, 4].length ∧
    (ctor_range 2 (fresh (fun _ => (7 : Int))) [1, 2, 3, 4]).1 = .error .static_vector_full :=
  have h := ctor_range_correct (fresh (fun _ => (7 : Int))) [0, 1, 2, 3, 4]
    (show 16 < size_t_mod by decide)
  have g := ctor_range_correct (fresh (fun _ => (7 : Int))) [1, 2, 3, 4]
    (show 2 < size_t_mod by decide)
  ⟨⟨by decide, by decide, by decide⟩, (h.2.2.1 (by decide)).2.1, (h.2.2.1 (by decide)).1,
    g.2.2.2 (by decide)⟩

theorem std_equal_refl [DecidableEq T] (l : List T) : std_equal l l = true := by
  induction l with
  | nil => rfl
  | cons x xs ih => simp [std_equal, ih]

theorem std_equal_iff [DecidableEq T] (l : List T) : ∀ m : List T, std_equal l m = true ↔ l = m := by
  induction l with
  | nil => intro m; cases m <;> simp [std_equal]
  | cons x xs ih =>
    intro m
    cases m with
    | nil => simp [std_equal]
    | cons y ys =>
      simp only [std_equal, List.cons.injEq]
      split_ifs with h
      · rw [ih]; simp [h]
      · simp [h]

theorem ctor_copy_state (mem : Nat → Slot T) (a : static_vector T Capacity) :
    (ctor_copy mem a)._size = a._size ∧ (ctor_copy mem a).contents = a.contents := by
  have e : ctor_copy mem a = (⟨mem, a._size, 0⟩ : static_vector T Capacity).uninitialized_copy
      a.contents 0 := rfl
  rw [e]
  refine ⟨uninitialized_copy_size _ _ _, ?_⟩
  rw [contents_eq_iff]
  intro i
  simp only [uninitialized_copy_size, uninitialized_copy_data, Nat.zero_add, Nat.sub_zero,
    Nat.zero_le, true_and, contents_length]
  rw [contents_getElem?]
  by_cases h : i < a._size
  · simp [h]
  · simp [h]

theorem assign_copy_state (a b : static_vector T Capacity) (hN : Capacity < size_t_mod)
    (ha : a._size ≤ Capacity) :
    (b.assign_copy a false)._size = a._size ∧ (b.assign_copy a false).contents = a.contents := by
  have e : b.assign_copy a false = (b._set_size a._size).copy a.contents 0 := rfl
  rw [e]
  have hsz : ((b._set_size a._size).copy a.contents 0)._size = a._size := by
    rw [copy_size, set_size_size b _ ha hN]
  refine ⟨hsz, ?_⟩
  rw [contents_eq_iff]
  intro i
  rw [hsz]
  simp only [copy_data, Nat.zero_add, Nat.sub_zero, Nat.zero_le, true_and, contents_length]
  rw [contents_getElem?]
  by_cases h : i < a._size
  · simp [h]
  · simp [h]

/-- C19: for a source `a` with contents `v` and a destination `b` of any size, the
copy constructor and the copy assignment `b = a` give the destination size `|v|`
and contents `v`, so that `b == a` holds afterwards; the source is an argument that
is only read; a self-assignment leaves the vector as it is. -/
theorem copy_correct [DecidableEq T] (mem : Nat → Slot T) (a b : static_vector T Capacity)
    (hN : Capacity < size_t_mod) (ha : a.size ≤ Capacity) :
    ((ctor_copy mem a).size = a.size ∧ (ctor_copy mem a).contents = a.contents ∧
      (ctor_copy mem a).operator_eq a = true) ∧
    ((b.assign_copy a false).size = a.size ∧ (b.assign_copy a false).contents = a.contents ∧
      (b.assign_copy a false).operator_eq a = true) ∧
    a.assign_copy a true = a := by
  obtain ⟨h1, h2⟩ := ctor_copy_state mem a
  obtain ⟨h3, h4⟩ := assign_copy_state a b hN ha
  refine ⟨⟨h1, h2, ?_⟩, ⟨h3, h4, ?_⟩, rfl⟩
  · unfold operator_eq; rw [h2]; exact std_equal_refl _
  · unfold operator_eq; rw [h4]; exact std_equal_refl _

theorem copy_correct_witness :
    (16 < size_t_mod ∧ (of_list [0, 1, 2, 3, 4] 16).size ≤ 16) ∧
    (ctor_copy (fresh (fun _ => (7 : Int))) (of_list [0, 1, 2, 3, 4] 16)).contents
      = (of_list [0, 1, 2, 3, 4] 16).contents ∧
    ((of_list [0, 1] 16).assign_copy (of_list [0, 1, 2, 3, 4] 16) false).contents
      = (of_list [0, 1, 2, 3, 4] 16).contents ∧
    ((of_list [0, 1] 16).assign_copy (of_list [0, 1, 2, 3, 4] 16) false).operator_eq
      (of_list [0, 1, 2, 3, 4] 16) = true :=
  have h := copy_correct (fresh (fun _ => (7 : Int))) (of_list [0, 1, 2, 3, 4] 16)
    (of_list [0, 1] 16) (by decide) (by decide)
  ⟨⟨by decide, by decide⟩, h.1.2.1, h.2.1.2.1, h.2.1.2.2⟩

theorem ctor_move_state [Movable T] (mem : Nat → Slot T) (a : static_vector T Capacity) :
    (ctor_move mem a).1 = ctor_copy mem a ∧ (ctor_move mem a).2._size = 0 := by
  refine ⟨?_, rfl⟩
  simp only [ctor_move, ctor_copy, end_, begin_, Nat.zero_add, Nat.sub_zero]
  rw [uninitialized_move_from_fst, contents_eq_range']

theorem assign_move_state [Movable T] (a b : static_vector T Capacity)
    (hN : Capacity < size_t_mod) (ha : a._size ≤ Capacity) :
    (b.assign_move a false).1._size = a._size ∧
    (b.assign_move a false).1.contents = a.contents ∧
    (b.assign_move a false).2._size = 0 := by
  have e : (b.assign_move a false).1
      = (move_from (a._size - 0) (b._set_size a._size) a 0 0).1 := by
    simp only [assign_move, end_, begin_, Nat.zero_add, Nat.sub_zero]
    rfl
  have hsz : (b.assign_move a false).1._size = a._size := by
    rw [e, move_from_fst_size, set_size_size b _ ha hN]
  refine ⟨hsz, ?_, rfl⟩
  rw [contents_eq_iff]
  intro i
  rw [hsz, e, move_from_fst_data, contents_getElem?]
  by_cases h : i < a._size
  · rw [if_pos h, if_pos h, if_pos (by omega)]
    simp
  · rw [if_neg h, if_neg h]

/-- C20: for a source `a` with contents `v` and a distinct destination `b` of any
size, the move constructor and the move assignment `b = std::move( a )` give the
destination size `|v|` and contents `v`, and leave `a` empty (size 0). -/
theorem move_correct [Movable T] (mem : Nat → Slot T) (a b : static_vector T Capacity)
    (hN : Capacity < size_t_mod) (ha : a.size ≤ Capacity) :
    ((ctor_move mem a).1.size = a.size ∧ (ctor_move mem a).1.contents = a.contents ∧
      (ctor_move mem a).2.size = 0 ∧ (ctor_move mem a).2.empty = true) ∧
    ((b.assign_move a false).1.size = a.size ∧
      (b.assign_move a false).1.contents = a.contents ∧
      (b.assign_move a false).2.size = 0 ∧ (b.assign_move a false).2.empty = true) := by
  obtain ⟨h1, h2⟩ := ctor_move_state mem a
  obtain ⟨k1, k2⟩ := ctor_copy_state mem a
  obtain ⟨h3, h4, h5⟩ := assign_move_state a b hN ha
  refine ⟨⟨?_, ?_, h2, ?_⟩, ⟨h3, h4, h5, ?_⟩⟩
  · rw [h1]; exact k1
  · rw [h1]; exact k2
  · simp [empty, h2]
  · simp [empty, h5]

theorem move_correct_witness :
    (16 < size_t_mod ∧ (of_list [0, 1, 2, 3, 4] 16).size ≤ 16) ∧
    (ctor_move (fresh (fun _ => (7 : Int))) (of_list [0, 1, 2, 3, 4] 16)).1.contents
      = (of_list [0, 1, 2, 3, 4] 16).contents ∧
    (ctor_move (fresh (fun _ => (7 : Int))) (of_list [0, 1, 2, 3, 4] 16)).2.size = 0 ∧
    ((of_list [0, 1] 16).assign_move (of_list [0, 1, 2, 3, 4] 16) false).1.contents
      = (of_list [0, 1, 2, 3, 4] 16).contents ∧
    ((of_list [0, 1] 16).assign_move (of_list [0, 1, 2, 3, 4] 16) false).2.size = 0 :=
  have h := move_correct (fresh (fun _ => (7 : Int))) (of_list [0, 1, 2, 3, 4] 16)
    (of_list [0, 1] 16) (by decide) (by decide)
  ⟨⟨by decide, by decide⟩, h.1.2.1, h.1.2.2.1, h.2.2.1, h.2.2.2.1⟩

theorem construct_at_constructed (s : static_vector T Capacity) (p : Nat) (x : T) (i : Nat) :
    ((s.construct_at p x)._data i).constructed =
      if i = p then (s._data i).constructed + 1 else (s._data i).constructed := by
  simp only [construct_at, Function.update_apply]
  split_ifs with h
  · subst h; rfl
  · rfl

theorem construct_at_destructed (s : static_vector T Capacity) (p : Nat) (x : T) (i : Nat) :
    ((s.construct_at p x)._data i).destructed = (s._data i).destructed := by
  simp only [construct_at, Function.update_apply]
  split_ifs with h
  · subst h; rfl
  · rfl

theorem destroy_at_constructed (s : static_vector T Capacity) (p i : Nat) :
    ((s.destroy_at p)._data i).constructed = (s._data i).constructed := by
  simp only [destroy_at, Function.update_apply]
  split_ifs with h
  · subst h; rfl
  · rfl

theorem destroy_at_destructed (s : static_vector T Capacity) (p i : Nat) :
    ((s.destroy_at p)._data i).destructed =
      if i = p then (s._data i).destructed + 1 else (s._data i).destructed := by
  simp only [destroy_at, Function.update_apply]
  split_ifs with h
  · subst h; rfl
  · rfl

theorem construct_at_faults (s : static_vector T Capacity) (p : Nat) (x : T)
    (hp : p < Capacity) (hd : (s._data p).dead) : (s.construct_at p x).faults = s.faults := by
  simp only [construct_at]
  rw [if_pos ⟨hp, hd⟩]

theorem destroy_at_faults (s : static_vector T Capacity) (p : Nat)
    (hl : (s._data p).live) : (s.destroy_at p).faults = s.faults := by
  simp only [destroy_at]
  rw [if_pos hl]

theorem try_emplace_some [Movable T] (s : static_vector T Capacity) (p : Nat) (x : T)
    (hs : s._size ≠ Capacity) : (s.try_emplace p x).1 = some p := by
  unfold try_emplace
  rw [if_neg hs]

theorem try_emplace_full [Movable T] (s : static_vector T Capacity) (p : Nat) (x : T)
    (hs : s._size = Capacity) : s.try_emplace p x = (none, s) := by
  unfold try_emplace
  rw [if_pos hs]

/-- A successful `try_emplace` keeps the slot invariant and commits no lifetime
fault. -/
theorem try_emplace_wf_faults [Movable T] (s : static_vector T Capacity) (p : Nat) (x : T)
    (hN : Capacity < size_t_mod) (hs : s.wf) (hf : s._size < Capacity) (hp : p ≤ s._size) :
    (s.try_emplace p x).2.wf ∧ (s.try_emplace p x).2.faults = s.faults := by
  have hl := hs.live
  have hd := hs.dead
  rcases Nat.lt_or_ge p s._size with h | h
  · rw [try_emplace_shift s p x hN hf h]
    refine ⟨⟨by show s._size + 1 ≤ Capacity; omega, ?_, ?_⟩, ?_⟩
    · intro i hi
      have hi2 : i < s._size + 1 := hi
      have := hl i; have := hd i
      simp only [construct_at_constructed, construct_at_destructed, destroy_at_constructed,
        destroy_at_destructed, move_backward_n_constructed, move_backward_n_destructed,
        uninitialized_move_n_constructed, uninitialized_move_n_destructed] at *
      split_ifs <;> omega
    · intro i hi hi3
      have hi2 : s._size + 1 ≤ i := hi
      have := hl i; have := hd i
      simp only [construct_at_constructed, construct_at_destructed, destroy_at_constructed,
        destroy_at_destructed, move_backward_n_constructed, move_backward_n_destructed,
        uninitialized_move_n_constructed, uninitialized_move_n_destructed] at *
      split_ifs <;> omega
    · have e1 : (s.uninitialized_move_n (s._size - 1) 1 s._size).faults = s.faults := by
        apply uninitialized_move_n_faults _ _ _ _ (by omega) (by omega)
        · intro i h1 h2; exact hl i (by omega)
        · intro i h1 h2; exact hd i (by omega) (by omega)
      have e2 : ((s.uninitialized_move_n (s._size - 1) 1 s._size).move_backward_n
          (s._size - 1 - p) (s._size - 1) s._size).faults = s.faults := by
        rw [move_backward_n_faults _ _ _ _ (by omega) (by omega), e1]
        intro i h1 h2
        have := hl i (by omega)
        simp only [Slot.live, uninitialized_move_n_constructed, uninitialized_move_n_destructed]
        rw [if_neg (by omega)]; exact this
      have e3 : (((s.uninitialized_move_n (s._size - 1) 1 s._size).move_backward_n
          (s._size - 1 - p) (s._size - 1) s._size).destroy_at p).faults = s.faults := by
        rw [destroy_at_faults, e2]
        have := hl p h
        simp only [Slot.live, move_backward_n_constructed, move_backward_n_destructed,
          uninitialized_move_n_constructed, uninitialized_move_n_destructed]
        rw [if_neg (by omega)]; exact this
      rw [construct_at_faults _ _ _ (by omega)]
      · exact e3
      · have := hl p h
        show ((((s.uninitialized_move_n (s._size - 1) 1 s._size).move_backward_n
          (s._size - 1 - p) (s._size - 1) s._size).destroy_at p)._data p).dead
        simp only [Slot.dead, destroy_at_constructed, destroy_at_destructed,
          move_backward_n_constructed, move_backward_n_destructed,
          uninitialized_move_n_constructed, uninitialized_move_n_destructed]
        rw [if_neg (by omega), if_pos trivial]; exact this
  · have hp2 : p = s._size := by omega
    subst hp2
    rw [try_emplace_at_end s x hN hf]
    refine ⟨⟨by show s._size + 1 ≤ Capacity; omega, ?_, ?_⟩, ?_⟩
    · intro i hi
      have hi2 : i < s._size + 1 := hi
      have := hl i; have := hd i
      simp only [construct_at_constructed, construct_at_destructed] at *
      split_ifs <;> omega
    · intro i hi hi3
      have hi2 : s._size + 1 ≤ i := hi
      have := hl i; have := hd i
      simp only [construct_at_constructed, construct_at_destructed] at *
      split_ifs <;> omega
    · rw [construct_at_faults _ _ _ hf]
      exact hd _ (le_refl _) hf

/-- A successful `pop_back` keeps the slot invariant and commits no lifetime
fault. -/
theorem pop_back_wf_faults (s : static_vector T Capacity)
    (hN : Capacity < size_t_mod) (hs : s.wf) (hp : 0 < s._size) :
    s.pop_back.wf ∧ s.pop_back.faults = s.faults ∧ s.pop_back._size = s._size - 1 := by
  have hl := hs.live
  have hd := hs.dead
  have hle := hs.size_le
  have hsz : s.pop_back._size = s._size - 1 := by
    show (s._size + internal_size Capacity - 1) % internal_size Capacity = _
    have hpos : 0 < internal_size Capacity := by unfold internal_size; split_ifs <;> decide
    have e : s._size + internal_size Capacity - 1 = (s._size - 1) + internal_size Capacity := by
      omega
    rw [e, Nat.add_mod_right]
    exact internal_size_wrap (by omega) hN
  refine ⟨⟨by rw [hsz]; omega, ?_, ?_⟩, ?_, hsz⟩
  · intro i hi
    rw [hsz] at hi
    have := hl i (by omega)
    show ((s.destroy_at (s.end_ - 1))._data i).constructed
      = ((s.destroy_at (s.end_ - 1))._data i).destructed + 1
    simp only [destroy_at_constructed, destroy_at_destructed, end_, begin_, Nat.zero_add]
    rw [if_neg (by omega)]; exact this
  · intro i hi hc
    rw [hsz] at hi
    have := hl i; have := hd i
    show ((s.destroy_at (s.end_ - 1))._data i).constructed
      = ((s.destroy_at (s.end_ - 1))._data i).destructed
    simp only [destroy_at_constructed, destroy_at_destructed, end_, begin_, Nat.zero_add]
    split_ifs <;> omega
  · show (s.destroy_at (s.end_ - 1)).faults = s.faults
    apply destroy_at_faults
    exact hl _ (by simp only [end_, begin_]; omega)

/-- A valid `erase( first, last )` keeps the slot invariant and commits no
lifetime fault. -/
theorem erase_range_wf_faults [Movable T] (s : static_vector T Capacity) (f l : Nat)
    (hN : Capacity < size_t_mod) (hs : s.wf) (hf : f ≤ l) (hl2 : l ≤ s._size) :
    (s.erase_range f l).2.wf ∧ (s.erase_range f l).2.faults = s.faults := by
  have hl := hs.live
  have hd := hs.dead
  have hle := hs.size_le
  rw [erase_range_state s f l hN hle hf hl2]
  refine ⟨⟨by show s._size - (l - f) ≤ Capacity; omega, ?_, ?_⟩, ?_⟩
  · intro i hi
    have hi2 : i < s._size - (l - f) := hi
    have := hl i (by omega)
    show (((s.move_n (s._size - l) l f).destroy_n (l - f) (f + (s._size - l)))._data i).constructed
      = (((s.move_n (s._size - l) l f).destroy_n (l - f)
          (f + (s._size - l)))._data i).destructed + 1
    simp only [destroy_n_constructed, destroy_n_destructed, move_n_constructed,
      move_n_destructed]
    rw [if_neg (by omega)]; exact this
  · intro i hi hc
    have hi2 : s._size - (l - f) ≤ i := hi
    have := hl i; have := hd i
    show (((s.move_n (s._size - l) l f).destroy_n (l - f) (f + (s._size - l)))._data i).constructed
      = (((s.move_n (s._size - l) l f).destroy_n (l - f)
          (f + (s._size - l)))._data i).destructed
    simp only [destroy_n_constructed, destroy_n_destructed, move_n_constructed,
      move_n_destructed]
    split_ifs <;> omega
  · show ((s.move_n (s._size - l) l f).destroy_n (l - f) (f + (s._size - l))).faults = s.faults
    rw [destroy_n_faults, move_n_faults _ _ _ _ hf]
    · intro i h1 h2; exact hl i (by omega)
    · intro i h1 h2
      have := hl i (by omega)
      simp only [Slot.live, move_n_constructed, move_n_destructed]
      exact this

/-- A successful `resize( count )` keeps the slot invariant and commits no
lifetime fault. -/
theorem resize_wf_faults [Inhabited T] (s : static_vector T Capacity) (n : Nat)
    (hN : Capacity < size_t_mod) (hs : s.wf) (hn : n ≤ Capacity) :
    (s.resize n).2.wf ∧ (s.resize n).2.faults = s.faults := by
  have hl := hs.live
  have hd := hs.dead
  have hle := hs.size_le
  rw [resize_state s n hn hN]
  have hsz : ((s._set_size n).uninitialized_copy
      (List.replicate (n - s._size) default) s._size)._size = n := by
    rw [uninitialized_copy_size, set_size_size s n hn hN]
  refine ⟨⟨by rw [hsz]; exact hn, ?_, ?_⟩, ?_⟩
  · intro i hi
    rw [hsz] at hi
    have := hl i; have := hd i
    simp only [uninitialized_copy_constructed, uninitialized_copy_destructed, set_size_data,
      List.length_replicate]
    split_ifs <;> first | omega | (simp only []; omega)
  · intro i hi hc
    rw [hsz] at hi
    have := hl i; have := hd i
    simp only [uninitialized_copy_constructed, uninitialized_copy_destructed, set_size_data,
      List.length_replicate]
    split_ifs <;> first | omega | (simp only []; omega)
  · show ((s._set_size n).uninitialized_copy
      (List.replicate (n - s._size) default) s._size).faults = s.faults
    rw [uninitialized_copy_faults, set_size_faults s n (fun i hi => hl i hi)]
    · rw [List.length_replicate]; omega
    · intro j h1 h2
      rw [List.length_replicate] at h2
      have := hd j (by omega) (by omega)
      simp only [Slot.dead, set_size_data]
      rw [if_neg (by omega)]; exact this

/-- The member `clear` keeps the slot invariant and commits no lifetime fault. -/
theorem clear_wf_faults (s : static_vector T Capacity) (hs : s.wf) :
    s.clear.wf ∧ s.clear.faults = s.faults ∧ s.clear._size = 0 := by
  have hl := hs.live
  have hd := hs.dead
  have e : s.clear = { s.destroy_n s._size 0 with _size := 0 } := by
    simp only [clear, _destroy_elems, destroy, end_, begin_, Nat.zero_add, Nat.sub_zero]
  rw [e]
  refine ⟨⟨Nat.zero_le _, ?_, ?_⟩, ?_, rfl⟩
  · intro i hi
    exact absurd hi (Nat.not_lt_zero _)
  · intro i _ hc
    have := hl i; have := hd i
    show ((s.destroy_n s._size 0)._data i).constructed
      = ((s.destroy_n s._size 0)._data i).destructed
    simp only [destroy_n_constructed, destroy_n_destructed]
    split_ifs <;> omega
  · show (s.destroy_n s._size 0).faults = s.faults
    apply destroy_n_faults
    intro i _ h2; exact hl i (by omega)

/-- In a valid state the constructions exceed the destructions by the size. -/
theorem wf_balanced (s : static_vector T Capacity) (hs : s.wf) :
    s.ctor_cnt = s.dtor_cnt + s.size := by
  have hle := hs.size_le
  unfold ctor_cnt dtor_cnt size
  rw [slot_sum_range _ (fun i => (s._data i).destructed) 0 s._size (Nat.zero_le _) Capacity]
  · rw [Nat.min_eq_left hle]; simp
  · intro i hi
    by_cases h : i < s._size
    · rw [if_pos ⟨Nat.zero_le _, h⟩]; exact hs.live i h
    · rw [if_neg (by omega)]; exact hs.dead i (by omega) hi

/-- The destructor of a valid vector leaves as many destructions as constructions
and commits no lifetime fault. -/
theorem dtor_balanced (s : static_vector T Capacity) (hs : s.wf) :
    s.dtor.ctor_cnt = s.dtor.dtor_cnt ∧ s.dtor.faults = s.faults := by
  have hl := hs.live
  have hd := hs.dead
  have e : s.dtor = s.destroy_n s._size 0 := by
    simp only [dtor, _destroy_elems, destroy, end_, begin_, Nat.zero_add, Nat.sub_zero]
  rw [e]
  constructor
  · unfold ctor_cnt dtor_cnt
    apply slot_sum_congr
    intro i hi
    have := hl i; have := hd i
    simp only [destroy_n_constructed, destroy_n_destructed]
    split_ifs <;> omega
  · apply destroy_n_faults
    intro i _ h2; exact hl i (by omega)

theorem raw_uninitialized_copy_wf (mem : Nat → Slot T) (r : List T) (n : Nat)
    (hm : ∀ i, (mem i).constructed = (mem i).destructed) (hn : n = r.length)
    (h : r.length ≤ Capacity) :
    ((⟨mem, n, 0⟩ : static_vector T Capacity).uninitialized_copy r 0).wf ∧
    ((⟨mem, n, 0⟩ : static_vector T Capacity).uninitialized_copy r 0).faults = 0 := by
  subst hn
  refine ⟨⟨by rw [uninitialized_copy_size]; exact h, ?_, ?_⟩, ?_⟩
  · intro i hi
    rw [uninitialized_copy_size] at hi
    have hi2 : i < r.length := hi
    rw [uninitialized_copy_constructed, uninitialized_copy_destructed, if_pos (by omega)]
    show (mem i).constructed + 1 = (mem i).destructed + 1
    rw [hm i]
  · intro i hi hc
    rw [uninitialized_copy_size] at hi
    have hi2 : r.length ≤ i := hi
    rw [uninitialized_copy_constructed, uninitialized_copy_destructed, if_neg (by omega)]
    exact hm i
  · rw [uninitialized_copy_faults _ _ _ (by omega)]
    intro j _ _
    exact hm j

theorem ctor_count_state [Inhabited T] (mem : Nat → Slot T) (c : Nat)
    (hN : Capacity < size_t_mod) (hc : c ≤ Capacity) :
    ctor_count Capacity mem c = (.ok (),
      (⟨mem, c, 0⟩ : static_vector T Capacity).uninitialized_copy
        (List.replicate c default) 0) := by
  have hw : c % internal_size Capacity = c := internal_size_wrap hc hN
  simp only [ctor_count, _check_count_ctor]
  rw [if_neg (by omega)]
  simp only [end_, begin_, Nat.zero_add, Nat.sub_zero, hw, value_construct_n_eq]

theorem ctor_fill_state (mem : Nat → Slot T) (c : Nat) (v : T)
    (hN : Capacity < size_t_mod) (hc : c ≤ Capacity) :
    ctor_fill Capacity mem c v = (.ok (),
      (⟨mem, c, 0⟩ : static_vector T Capacity).uninitialized_copy (List.replicate c v) 0) := by
  have hw : c % internal_size Capacity = c := internal_size_wrap hc hN
  simp only [ctor_fill, _check_count_ctor]
  rw [if_neg (by omega)]
  simp only [end_, begin_, Nat.zero_add, Nat.sub_zero, hw, uninitialized_fill,
    uninitialized_fill_n_eq]

theorem push_back_all_wf [Movable T] (hN : Capacity < size_t_mod) (r : List T) :
    ∀ (s : static_vector T Capacity), s.wf → s._size + r.length ≤ Capacity →
      (s.push_back_all r).2.wf ∧ (s.push_back_all r).2.faults = s.faults := by
  induction r with
  | nil => intro s hs _; exact ⟨hs, rfl⟩
  | cons x xs ih =>
    intro s hs h
    simp only [List.length_cons] at h
    obtain ⟨h1, h2, _, h4⟩ := push_back_ok s x hN (by omega)
    obtain ⟨k1, k2⟩ := try_emplace_wf_faults s s._size x hN hs (by omega) (le_refl _)
    have e : s.push_back_all (x :: xs) = (s.push_back x).2.push_back_all xs := by
      rw [push_back_all]
      rcases hh : s.push_back x with ⟨a, b⟩
      rw [hh] at h1
      simp only at h1
      subst h1
      rfl
    rw [e]
    rw [← h2] at k1 k2
    obtain ⟨m1, m2⟩ := ih (s.push_back x).2 k1 (by rw [h4]; omega)
    exact ⟨m1, by rw [m2, k2]⟩

theorem fresh_dead (g : Nat → T) (i : Nat) :
    (fresh g i).constructed = (fresh g i).destructed := rfl

/-- A constructor that returns leaves a valid vector and commits no lifetime
fault. -/
theorem ctor_run_wf [Inhabited T] [Movable T] (g : Nat → T) (c : Ctor T Capacity)
    (hN : Capacity < size_t_mod) (hc : c.valid) (h0 : (c.run (fresh g)).1 = .ok ()) :
    (c.run (fresh g)).2.wf ∧ (c.run (fresh g)).2.faults = 0 := by
  cases c with
  | default_ =>
    refine ⟨⟨Nat.zero_le _, ?_, ?_⟩, rfl⟩
    · intro i hi; exact absurd hi (Nat.not_lt_zero _)
    · intro i _ _; rfl
  | count n =>
    by_cases hn : n ≤ Capacity
    · show (ctor_count Capacity (fresh g) n).2.wf ∧ (ctor_count Capacity (fresh g) n).2.faults = 0
      rw [ctor_count_state _ n hN hn]
      exact raw_uninitialized_copy_wf _ _ _ (fresh_dead g) (by simp) (by simpa using hn)
    · exfalso
      have : (ctor_count Capacity (fresh g) n).1 = .error .static_vector_full := by
        simp only [ctor_count, _check_count_ctor]
        rw [if_pos (by omega)]
      have h1 : (ctor_count Capacity (fresh g) n).1 = .ok () := h0
      rw [this] at h1
      cases h1
  | fill n v =>
    by_cases hn : n ≤ Capacity
    · show (ctor_fill Capacity (fresh g) n v).2.wf ∧ (ctor_fill Capacity (fresh g) n v).2.faults = 0
      rw [ctor_fill_state _ n v hN hn]
      exact raw_uninitialized_copy_wf _ _ _ (fresh_dead g) (by simp) (by simpa using hn)
    · exfalso
      have : (ctor_fill Capacity (fresh g) n v).1 = .error .static_vector_full := by
        simp only [ctor_fill, _check_count_ctor]
        rw [if_pos (by omega)]
      have h1 : (ctor_fill Capacity (fresh g) n v).1 = .ok () := h0
      rw [this] at h1
      cases h1
  | range r =>
    have hw : (ctor_default Capacity (fresh g)).wf := by
      refine ⟨Nat.zero_le _, ?_, ?_⟩
      · intro i hi; exact absurd hi (Nat.not_lt_zero _)
      · intro i _ _; rfl
    by_cases hn : r.length ≤ Capacity
    · exact push_back_all_wf hN r _ hw (by show 0 + r.length ≤ Capacity; omega)
    · exfalso
      have := push_back_all_full hN r (ctor_default Capacity (fresh g)) (Nat.zero_le _)
        (by show Capacity < 0 + r.length; omega)
      have h1 : ((ctor_default Capacity (fresh g)).push_back_all r).1 = .ok () := h0
      rw [this] at h1
      cases h1
  | copy o =>
    have ho : o.wf := hc
    exact raw_uninitialized_copy_wf _ _ _ (fresh_dead g) (contents_length o).symm
      (by rw [contents_length]; exact ho.size_le)
  | move o =>
    have ho : o.wf := hc
    show (ctor_move (fresh g) o).1.wf ∧ (ctor_move (fresh g) o).1.faults = 0
    rw [(ctor_move_state (fresh g) o).1]
    exact raw_uninitialized_copy_wf _ _ _ (fresh_dead g) (contents_length o).symm
      (by rw [contents_length]; exact ho.size_le)

theorem emplace_eq [Movable T] (s : static_vector T Capacity) (p : Nat) (x : T) :
    (s.emplace p x).1.toBool = (s.try_emplace p x).1.isSome ∧
    (s.emplace p x).2 = (s.try_emplace p x).2 := by
  unfold emplace
  rcases s.try_emplace p x with ⟨_ | r, s1⟩
  · exact ⟨rfl, rfl⟩
  · exact ⟨rfl, rfl⟩

theorem emplace_back_eq [Movable T] (s : static_vector T Capacity) (x : T) :
    (s.emplace_back x).1.toBool = (s.try_emplace s.end_ x).1.isSome ∧
    (s.emplace_back x).2 = (s.try_emplace s.end_ x).2 := by
  obtain ⟨h1, h2⟩ := emplace_eq s s.end_ x
  rw [← h1, ← h2]
  unfold emplace_back
  rcases s.emplace s.end_ x with ⟨_ | r, s1⟩
  · exact ⟨rfl, rfl⟩
  · exact ⟨rfl, rfl⟩

theorem try_emplace_step [Movable T] (s : static_vector T Capacity) (p : Nat) (x : T)
    (hN : Capacity < size_t_mod) (hs : s.wf) (hp : p ≤ s._size)
    (hok : (s.try_emplace p x).1.isSome = true) :
    (s.try_emplace p x).2.wf ∧ (s.try_emplace p x).2.faults = s.faults := by
  by_cases hf : s._size = Capacity
  · rw [try_emplace_full s p x hf] at hok
    cases hok
  · exact try_emplace_wf_faults s p x hN hs (by have := hs.size_le; omega) hp

theorem insert_range_throws [Movable T] (s : static_vector T Capacity) (p : Nat) (r : List T)
    (hN : Capacity ≤ ptrdiff_max) (hrl : r.length ≤ ptrdiff_max) (hs : s._size ≤ Capacity)
    (h : Capacity < s._size + r.length) :
    (s.insert_range p r).1 = .error .static_vector_full := by
  unfold ptrdiff_max at *
  have e1 : r.length % size_t_mod = r.length := Nat.mod_eq_of_lt (by unfold size_t_mod; omega)
  have e2 : (s._size + r.length) % size_t_mod = s._size + r.length :=
    Nat.mod_eq_of_lt (by unfold size_t_mod; omega)
  unfold insert_range
  simp only [e1, e2]
  rw [if_neg (by omega), if_pos (by omega)]

/-- A call that meets its precondition and succeeds keeps the slot invariant and
commits no lifetime fault. -/
theorem call_run_wf [Inhabited T] [Movable T] (s : static_vector T Capacity) (c : Call T)
    (hN : Capacity ≤ ptrdiff_max) (hs : s.wf) (hpre : c.pre s = true)
    (hok : (c.run s).1 = true) :
    (c.run s).2.wf ∧ (c.run s).2.faults = s.faults := by
  have hN2 : Capacity < size_t_mod := by unfold ptrdiff_max at hN; unfold size_t_mod; omega
  cases c with
  | try_emplace p x =>
    have hp : p ≤ s._size := by simpa [Call.pre, end_, begin_] using hpre
    exact try_emplace_step s p x hN2 hs hp hok
  | emplace p x =>
    have hp : p ≤ s._size := by simpa [Call.pre, end_, begin_] using hpre
    obtain ⟨h1, h2⟩ := emplace_eq s p x
    show (s.emplace p x).2.wf ∧ (s.emplace p x).2.faults = s.faults
    rw [h2]
    exact try_emplace_step s p x hN2 hs hp (by rw [← h1]; exact hok)
  | insert p x =>
    have hp : p ≤ s._size := by simpa [Call.pre, end_, begin_] using hpre
    obtain ⟨h1, h2⟩ := emplace_eq s p x
    show (s.emplace p x).2.wf ∧ (s.emplace p x).2.faults = s.faults
    rw [h2]
    exact try_emplace_step s p x hN2 hs hp (by rw [← h1]; exact hok)
  | insert_rvalue p x =>
    have hp : p ≤ s._size := by simpa [Call.pre, end_, begin_] using hpre
    obtain ⟨h1, h2⟩ := emplace_eq s p x
    show (s.emplace p x).2.wf ∧ (s.emplace p x).2.faults = s.faults
    rw [h2]
    exact try_emplace_step s p x hN2 hs hp (by rw [← h1]; exact hok)
  | insert_range p r =>
    have hp : p ≤ s._size ∧ r.length ≤ ptrdiff_max := by
      simpa [Call.pre, end_, begin_] using hpre
    by_cases hr : s._size + r.length ≤ Capacity
    · exact insert_range_wf_faults s p r hN2 hs hp.1 hr
    · exfalso
      have := insert_range_throws s p r hN hp.2 hs.size_le (by omega)
      have h1 : (s.insert_range p r).1.toBool = true := hok
      rw [this] at h1
      cases h1
  | push_back x =>
    obtain ⟨h1, h2⟩ := emplace_back_eq s x
    show (s.emplace_back x).2.wf ∧ (s.emplace_back x).2.faults = s.faults
    rw [h2]
    exact try_emplace_step s _ x hN2 hs (le_of_eq (by simp [end_, begin_]))
      (by rw [← h1]; exact hok)
  | emplace_back x =>
    obtain ⟨h1, h2⟩ := emplace_back_eq s x
    show (s.emplace_back x).2.wf ∧ (s.emplace_back x).2.faults = s.faults
    rw [h2]
    exact try_emplace_step s _ x hN2 hs (le_of_eq (by simp [end_, begin_]))
      (by rw [← h1]; exact hok)
  | pop_back =>
    have hp : 0 < s._size := by simpa [Call.pre] using hpre
    obtain ⟨h1, h2, _⟩ := pop_back_wf_faults s hN2 hs hp
    exact ⟨h1, h2⟩
  | erase p =>
    have hp : p < s._size := by simpa [Call.pre, end_, begin_] using hpre
    exact erase_range_wf_faults s p (p + 1) hN2 hs (by omega) (by omega)
  | erase_range f l =>
    have hp : f ≤ l ∧ l ≤ s._size := by simpa [Call.pre, end_, begin_] using hpre
    exact erase_range_wf_faults s f l hN2 hs hp.1 hp.2
  | resize n =>
    by_cases hn : n ≤ Capacity
    · exact resize_wf_faults s n hN2 hs hn
    · exfalso
      have : (s.resize n).1 = .error .static_vector_full := by
        simp only [resize, _resize]
        rw [if_pos (by omega)]
      have h1 : (s.resize n).1.toBool = true := hok
      rw [this] at h1
      cases h1
  | clear =>
    obtain ⟨h1, h2, _⟩ := clear_wf_faults s hs
    exact ⟨h1, h2⟩

theorem states_wf [Inhabited T] [Movable T] (hN : Capacity ≤ ptrdiff_max)
    (calls : List (Call T)) :
    ∀ (s : static_vector T Capacity), s.wf → s.faults = 0 → s.calls_ok calls = true →
      (s.states calls).length = calls.length ∧
      (∀ x ∈ s.states calls, x.wf ∧ x.faults = 0) ∧
      (s.final calls).wf ∧ (s.final calls).faults = 0 := by
  induction calls with
  | nil => intro s hs hf _; exact ⟨rfl, fun x hx => (by cases hx), hs, hf⟩
  | cons c cs ih =>
    intro s hs hf hk
    simp only [calls_ok, Bool.and_eq_true] at hk
    obtain ⟨⟨hpre, hok⟩, hrest⟩ := hk
    obtain ⟨h1, h2⟩ := call_run_wf s c hN hs hpre hok
    obtain ⟨k1, k2, k3, k4⟩ := ih (c.run s).2 h1 (by rw [h2]; exact hf) hrest
    refine ⟨by simp only [states, List.length_cons, k1], ?_, k3, k4⟩
    intro x hx
    simp only [states, List.mem_cons] at hx
    rcases hx with hx | hx
    · subst hx; exact ⟨h1, by rw [h2]; exact hf⟩
    · exact k2 x hx

theorem uninitialized_move_from_snd_counts [Movable T] (n : Nat) :
    ∀ (s o : static_vector T Capacity) (first d i : Nat),
      ((uninitialized_move_from n s o first d).2._data i).constructed = (o._data i).constructed ∧
      ((uninitialized_move_from n s o first d).2._data i).destructed = (o._data i).destructed := by
  induction n with
  | zero => intro s o first d i; exact ⟨rfl, rfl⟩
  | succ n ih =>
    intro s o first d i
    rw [uninitialized_move_from]
    obtain ⟨h1, h2⟩ := ih (s.move_construct_from o d first).1 (s.move_construct_from o d first).2
      (first + 1) (d + 1) i
    rw [h1, h2]
    simp only [move_construct_from, Function.update_apply]
    split_ifs with h
    · subst h; exact ⟨rfl, rfl⟩
    · exact ⟨rfl, rfl⟩

/-- The move constructor leaves its source, a valid vector, empty and with as
many destructions as constructions. -/
theorem ctor_move_source [Movable T] (mem : Nat → Slot T) (o : static_vector T Capacity)
    (ho : o.wf) :
    (ctor_move mem o).2.size = 0 ∧ (ctor_move mem o).2.ctor_cnt = (ctor_move mem o).2.dtor_cnt := by
  refine ⟨rfl, ?_⟩
  have hl := ho.live
  have hd := ho.dead
  unfold ctor_cnt dtor_cnt
  apply slot_sum_congr
  intro i hi
  have := hl i; have := hd i
  obtain ⟨h1, h2⟩ := uninitialized_move_from_snd_counts (o.end_ - o.begin_)
    (⟨mem, o._size, 0⟩ : static_vector T Capacity) o o.begin_ 0 i
  simp only [ctor_move, clear, _destroy_elems, destroy, end_, begin_, Nat.zero_add, Nat.sub_zero,
    destroy_n_constructed, destroy_n_destructed, uninitialized_move_from_snd_size] at *
  rw [h1, h2]
  split_ifs <;> omega

/-- C14: for slots that count their constructions and destructions, starting
from storage in which no object was ever constructed: after a construction
(default, count, fill, range, copy or move) that returns, and after each call of
any sequence of `try_emplace`, `emplace`, `insert`, range `insert`, `push_back`,
`emplace_back`, `pop_back`, `erase`, `resize( count )` and `clear` calls that meet
their preconditions and succeed, the constructions in the vector's storage exceed
the destructions by exactly the current size, and no lifetime fault was committed;
after the destructor the constructions equal the destructions.  The source of a
move construction is left empty and balanced as well. -/
theorem lifecycle_balanced [Inhabited T] [Movable T] (g : Nat → T) (c : Ctor T Capacity)
    (calls : List (Call T)) (hN : Capacity ≤ ptrdiff_max) (hc : c.valid)
    (h0 : (c.run (fresh g)).1 = .ok ())
    (hk : (c.run (fresh g)).2.calls_ok calls = true) :
    (∀ s ∈ (c.run (fresh g)).2 :: (c.run (fresh g)).2.states calls,
      s.ctor_cnt = s.dtor_cnt + s.size ∧ s.faults = 0) ∧
    ((c.run (fresh g)).2.states calls).length = calls.length ∧
    ((c.run (fresh g)).2.final calls).dtor.ctor_cnt
      = ((c.run (fresh g)).2.final calls).dtor.dtor_cnt ∧
    ((c.run (fresh g)).2.final calls).dtor.faults = 0 ∧
    (∀ o, c = .move o →
      (ctor_move (fresh g) o).2.size = 0 ∧
      (ctor_move (fresh g) o).2.ctor_cnt = (ctor_move (fresh g) o).2.dtor_cnt) := by
  have hN2 : Capacity < size_t_mod := by unfold ptrdiff_max at hN; unfold size_t_mod; omega
  obtain ⟨h1, h2⟩ := ctor_run_wf g c hN2 hc h0
  obtain ⟨k1, k2, k3, k4⟩ := states_wf hN calls _ h1 h2 hk
  obtain ⟨d1, d2⟩ := dtor_balanced _ k3
  refine ⟨?_, k1, d1, by rw [d2]; exact k4, ?_⟩
  · intro s hs
    rcases List.mem_cons.1 hs with hs | hs
    · subst hs; exact ⟨wf_balanced _ h1, h2⟩
    · exact ⟨wf_balanced _ (k2 s hs).1, (k2 s hs).2⟩
  · intro o ho
    subst ho
    exact ctor_move_source _ o hc

theorem lifecycle_balanced_witness :
    (16 ≤ ptrdiff_max ∧ (Ctor.range [1, 2, 3] : Ctor Int 16).valid ∧
      ((Ctor.range [1, 2, 3] : Ctor Int 16).run (fresh (fun _ => (7 : Int)))).1 = .ok () ∧
      ((Ctor.range [1, 2, 3] : Ctor Int 16).run (fresh (fun _ => (7 : Int)))).2.calls_ok
        [.try_emplace 1 9, .pop_back, .insert_range 0 [4, 5], .erase 1, .resize 7, .clear,
          .push_back 8] = true) ∧
    (((Ctor.range [1, 2, 3] : Ctor Int 16).run (fresh (fun _ => (7 : Int)))).2.final
        [.try_emplace 1 9, .pop_back, .insert_range 0 [4, 5], .erase 1, .resize 7, .clear,
          .push_back 8]).dtor.ctor_cnt
      = (((Ctor.range [1, 2, 3] : Ctor Int 16).run (fresh (fun _ => (7 : Int)))).2.final
        [.try_emplace 1 9, .pop_back, .insert_range 0 [4, 5], .erase 1, .resize 7, .clear,
          .push_back 8]).dtor.dtor_cnt :=
  ⟨⟨by decide, trivial, rfl, by decide⟩,
    (lifecycle_balanced (fun _ => (7 : Int)) (Ctor.range [1, 2, 3] : Ctor Int 16)
      [.try_emplace 1 9, .pop_back, .insert_range 0 [4, 5], .erase 1, .resize 7, .clear,
        .push_back 8] (by decide) trivial rfl (by decide)).2.2.1⟩

/-- C11: the three assignments of a five-element source to the two-element
destination `b{ 0, 1 }` (the vectors of the tests `assign copy`, `assign move`,
`assign ilist`) give the destination size 5 and the source's values, but the slots
2, 3 and 4 are assigned to while they hold no object: each of the three is a
lifetime fault, and afterwards these slots, inside the live region, still have as
many constructions as destructions.  The copy constructor, on the same source,
constructs every slot and commits no fault. -/
theorem assign_grow_unconstructed :
    (((of_list [0, 1] 16).assign_copy (of_list [0, 1, 2, 3, 4] 16) false).size = 5 ∧
      ((of_list [0, 1] 16).assign_copy (of_list [0, 1, 2, 3, 4] 16) false).contents
        = [0, 1, 2, 3, 4] ∧
      ((of_list [0, 1] 16).assign_copy (of_list [0, 1, 2, 3, 4] 16) false).faults = 3 ∧
      (∀ i ∈ [2, 3, 4],
        ¬ (((of_list [0, 1] 16).assign_copy (of_list [0, 1, 2, 3, 4] 16) false)._data i).live)) ∧
    (((of_list [0, 1] 16).assign_move (of_list [0, 1, 2, 3, 4] 16) false).1.size = 5 ∧
      ((of_list [0, 1] 16).assign_move (of_list [0, 1, 2, 3, 4] 16) false).1.contents
        = [0, 1, 2, 3, 4] ∧
      ((of_list [0, 1] 16).assign_move (of_list [0, 1, 2, 3, 4] 16) false).1.faults = 3 ∧
      (∀ i ∈ [2, 3, 4],
        ¬ (((of_list [0, 1] 16).assign_move
          (of_list [0, 1, 2, 3, 4] 16) false).1._data i).live)) ∧
    (((of_list [0, 1] 16).assign_ilist [0, 1, 2, 3, 4]).2.size = 5 ∧
      ((of_list [0, 1] 16).assign_ilist [0, 1, 2, 3, 4]).2.contents = [0, 1, 2, 3, 4] ∧
      ((of_list [0, 1] 16).assign_ilist [0, 1, 2, 3, 4]).2.faults = 3 ∧
      (∀ i ∈ [2, 3, 4],
        ¬ (((of_list [0, 1] 16).assign_ilist [0, 1, 2, 3, 4]).2._data i).live)) ∧
    ((ctor_copy (fresh (fun _ => (0 : Int))) (of_list [0, 1, 2, 3, 4] 16)).faults = 0 ∧
      (∀ i ∈ [0, 1, 2, 3, 4],
        ((ctor_copy (fresh (fun _ => (0 : Int))) (of_list [0, 1, 2, 3, 4] 16))._data i).live)) := by
  decide

/-- The code of `try_emplace` up to the placement `new`, which is its last
statement: a successful call is the call whose constructor throws, followed by the
construction at `pos`. -/
theorem try_emplace_eq_throws [Movable T] (s : static_vector T Capacity) (p : Nat) (x : Arg T)
    (hf : s._size ≠ Capacity) :
    s.try_emplace p x = (some p, (s.try_emplace_throws p).construct_from p x) := by
  unfold try_emplace try_emplace_throws
  rw [if_neg hf, if_neg hf]

theorem try_emplace_throws_at_end [Movable T] (s : static_vector T Capacity)
    (hN : Capacity < size_t_mod) (hs : s._size < Capacity) :
    s.try_emplace_throws s._size = { s with _size := s._size + 1 } := by
  unfold try_emplace_throws
  rw [if_neg (by omega)]
  simp only [end_, begin_, Nat.zero_add, ne_eq, not_true_eq_false, false_and, if_false]
  rw [internal_size_wrap (show s._size + 1 ≤ Capacity by omega) hN]

theorem try_emplace_throws_shift [Movable T] (s : static_vector T Capacity) (k : Nat)
    (hN : Capacity < size_t_mod) (hs : s._size < Capacity) (hk : k < s._size) :
    s.try_emplace_throws k =
      { (((s.uninitialized_move_n (s._size - 1) 1 s._size).move_backward_n
          (s._size - 1 - k) (s._size - 1) s._size).destroy_at k) with
          _size := s._size + 1 } := by
  have h := try_emplace_shift s k (s._data 0).v hN hs hk
  rw [try_emplace_eq_throws s k _ (by omega)] at h
  have h2 := congrArg (fun r => r.2._size) h
  simp only [construct_at, construct_from] at h2
  unfold try_emplace_throws at h2 ⊢
  rw [if_neg (by omega)] at h2 ⊢
  simp only [end_, begin_, Nat.zero_add, move_backward] at h2 ⊢
  rw [if_pos ⟨by omega, by omega⟩] at h2 ⊢
  by_cases h3 : s._size - 1 > k
  · rw [if_pos h3] at h2 ⊢
    simp only [h2]
  · rw [if_neg h3] at h2 ⊢
    have e : s._size - 1 - k = 0 := by omega
    rw [e]
    simp only [move_backward_n] at h2 ⊢
    simp only [h2]

/-- C12, as stated, fails: on the non-full vector `{ 0, 1, 2 }` of capacity 16 a
`try_emplace` at position 1 whose constructor throws leaves size 4 instead of 3, and
slot 1, inside the live region, holds no object. -/
theorem try_emplace_throws_counterexample :
    (of_list [0, 1, 2] 16).full = false ∧
    ¬ (((of_list [0, 1, 2] 16).try_emplace_throws 1).size = (of_list [0, 1, 2] 16).size ∧
        ∀ i, i < ((of_list [0, 1, 2] 16).try_emplace_throws 1).size →
          (((of_list [0, 1, 2] 16).try_emplace_throws 1)._data i).live) := by
  refine ⟨by decide, ?_⟩
  intro h
  exact absurd h.1 (by decide)

/-- C12, amended: when the constructor of the new element throws during
`try_emplace` (or `emplace`, which only forwards to it) at a position `p` in
`[begin(), end()]` of a valid non-full vector, the call has run all of a successful
call but the construction: afterwards the size is one more than before, the slot at
`p`, inside the live region, holds no object (it was destroyed, or never
constructed when `p` is `end()`), every other slot of the new live region is live,
the elements before `p` keep their values, the elements formerly at `[p, end())`
lie one slot further right, and no lifetime fault was committed. -/
theorem try_emplace_throws_correct [Movable T] (s : static_vector T Capacity) (p : Nat)
    (hN : Capacity < size_t_mod) (hs : s.wf) (hf : s.size < Capacity) (hp : p ≤ s.size) :
    (∀ x, s.try_emplace p x = (some p, (s.try_emplace_throws p).construct_from p x)) ∧
    (s.try_emplace_throws p).size = s.size + 1 ∧
    ((s.try_emplace_throws p)._data p).dead ∧
    (∀ i, i < s.size + 1 → i ≠ p → ((s.try_emplace_throws p)._data i).live) ∧
    (∀ i, i < p → ((s.try_emplace_throws p)._data i).v = (s._data i).v) ∧
    (∀ i, p ≤ i → i < s.size → ((s.try_emplace_throws p)._data (i + 1)).v = (s._data i).v) ∧
    (s.try_emplace_throws p).faults = s.faults := by
  unfold size at *
  have hl := hs.live
  have hd := hs.dead
  refine ⟨fun x => try_emplace_eq_throws s p x (by omega), ?_⟩
  rcases Nat.lt_or_ge p s._size with h | h
  · rw [try_emplace_throws_shift s p hN hf h]
    refine ⟨rfl, ?_, ?_, ?_, ?_, ?_⟩
    · have := hl p h
      show ((((s.uninitialized_move_n (s._size - 1) 1 s._size).move_backward_n
          (s._size - 1 - p) (s._size - 1) s._size).destroy_at p)._data p).dead
      simp only [Slot.dead, destroy_at_constructed, destroy_at_destructed,
        move_backward_n_constructed, move_backward_n_destructed,
        uninitialized_move_n_constructed, uninitialized_move_n_destructed]
      rw [if_neg (by omega), if_pos trivial]; exact this
    · intro i hi hne
      have := hl i; have := hd i
      show ((((s.uninitialized_move_n (s._size - 1) 1 s._size).move_backward_n
          (s._size - 1 - p) (s._size - 1) s._size).destroy_at p)._data i).live
      simp only [Slot.live, destroy_at_constructed, destroy_at_destructed,
        move_backward_n_constructed, move_backward_n_destructed,
        uninitialized_move_n_constructed, uninitialized_move_n_destructed] at *
      split_ifs <;> omega
    · intro i hi
      show ((((s.uninitialized_move_n (s._size - 1) 1 s._size).move_backward_n
          (s._size - 1 - p) (s._size - 1) s._size).destroy_at p)._data i).v = _
      simp only [destroy_at, Function.update_apply,
        move_backward_n_data _ _ _ _ (show s._size - 1 - p ≤ s._size - 1 by omega)
        (show s._size - 1 < s._size by omega),
        uninitialized_move_n_data _ _ _ _ (show s._size - 1 + 1 ≤ s._size by omega)]
      simp (disch := omega) only [if_pos, if_neg]
    · intro i h1 h2
      show ((((s.uninitialized_move_n (s._size - 1) 1 s._size).move_backward_n
          (s._size - 1 - p) (s._size - 1) s._size).destroy_at p)._data (i + 1)).v = _
      simp only [destroy_at, Function.update_apply,
        move_backward_n_data _ _ _ _ (show s._size - 1 - p ≤ s._size - 1 by omega)
        (show s._size - 1 < s._size by omega),
        uninitialized_move_n_data _ _ _ _ (show s._size - 1 + 1 ≤ s._size by omega)]
      rcases Nat.lt_or_ge (i + 1) s._size with h3 | h3
      · simp (disch := omega) only [if_pos, if_neg]
        congr 3; omega
      · simp (disch := omega) only [if_pos, if_neg]
        congr 3; omega
    · have e1 : (s.uninitialized_move_n (s._size - 1) 1 s._size).faults = s.faults := by
        apply uninitialized_move_n_faults _ _ _ _ (by omega) (by omega)
        · intro i h1 h2; exact hl i (by omega)
        · intro i h1 h2; exact hd i (by omega) (by omega)
      have e2 : ((s.uninitialized_move_n (s._size - 1) 1 s._size).move_backward_n
          (s._size - 1 - p) (s._size - 1) s._size).faults = s.faults := by
        rw [move_backward_n_faults _ _ _ _ (by omega) (by omega), e1]
        intro i h1 h2
        have := hl i (by omega)
        simp only [Slot.live, uninitialized_move_n_constructed, uninitialized_move_n_destructed]
        rw [if_neg (by omega)]; exact this
      show (((s.uninitialized_move_n (s._size - 1) 1 s._size).move_backward_n
          (s._size - 1 - p) (s._size - 1) s._size).destroy_at p).faults = s.faults
      rw [destroy_at_faults, e2]
      have := hl p h
      simp only [Slot.live, move_backward_n_constructed, move_backward_n_destructed,
        uninitialized_move_n_constructed, uninitialized_move_n_destructed]
      rw [if_neg (by omega)]; exact this
  · have hp2 : p = s._size := by omega
    subst hp2
    rw [try_emplace_throws_at_end s hN hf]
    refine ⟨rfl, hd _ (le_refl _) hf, ?_, fun i _ => rfl, ?_, rfl⟩
    · intro i hi hne
      exact hl i (by omega)
    · intro i h1 h2
      omega

theorem try_emplace_throws_correct_witness :
    (16 < size_t_mod ∧ (of_list [0, 1, 2] 16).size < 16 ∧ 1 ≤ (of_list [0, 1, 2] 16).size) ∧
    ((of_list [0, 1, 2] 16).try_emplace_throws 1).size = (of_list [0, 1, 2] 16).size + 1 ∧
    (((of_list [0, 1, 2] 16).try_emplace_throws 1)._data 1).dead ∧
    ((of_list [0, 1, 2] 16).try_emplace_throws 1).faults = (of_list [0, 1, 2] 16).faults :=
  have h := try_emplace_throws_correct (of_list [0, 1, 2] 16) 1 (by decide)
    (of_list_wf [0, 1, 2] (by decide)) (by decide) (by decide)
  ⟨⟨by decide, by decide, by decide⟩, h.2.1, h.2.2.1, h.2.2.2.2.2.2⟩

/-- C13: on the two-element vector `{ 0, 1 }` of capacity 16, `resize( 5, 7 )`
returns with size 5 and contents `{ 0, 1, 7, 7, 7 }`, but the slots 2, 3 and 4 are
assigned to (`std::fill`) while they hold no object: each of the three is a
lifetime fault, none of the three slots was ever constructed, and afterwards they
lie inside the live region with as many constructions as destructions.  The
sibling `resize( 5 )` constructs the three slots and commits no fault. -/
theorem resize_value_assigns_unconstructed :
    (((of_list [0, 1] 16).resize_value 5 7).2.size = 5 ∧
      ((of_list [0, 1] 16).resize_value 5 7).2.contents = [0, 1, 7, 7, 7] ∧
      ((of_list [0, 1] 16).resize_value 5 7).2.faults = 3 ∧
      (∀ i ∈ [2, 3, 4],
        (((of_list [0, 1] 16).resize_value 5 7).2._data i).constructed = 0 ∧
        (((of_list [0, 1] 16).resize_value 5 7).2._data i).copied_to = 1 ∧
        ¬ (((of_list [0, 1] 16).resize_value 5 7).2._data i).live)) ∧
    (((of_list [0, 1] 16).resize 5).2.faults = 0 ∧
      (∀ i ∈ [2, 3, 4],
        (((of_list [0, 1] 16).resize 5).2._data i).constructed = 1 ∧
        (((of_list [0, 1] 16).resize 5).2._data i).live)) := by
  decide

/-- The state in which a successful initializer-list assignment leaves the
vector. -/
theorem assign_ilist_state (s : static_vector T Capacity) (r : List T)
    (hN : Capacity < size_t_mod) (hr : r.length ≤ Capacity) :
    (s.assign_ilist r).1 = .ok () ∧ (s.assign_ilist r).2._size = r.length ∧
    (s.assign_ilist r).2.contents = r := by
  have e : s.assign_ilist r = (.ok (), (s._set_size r.length).copy r 0) := by
    simp only [assign_ilist]
    rw [if_neg (by omega)]
    rfl
  rw [e]
  have hsz : ((s._set_size r.length).copy r 0)._size = r.length := by
    rw [copy_size, set_size_size s _ hr hN]
  refine ⟨rfl, hsz, ?_⟩
  rw [contents_eq_iff]
  intro i
  rw [hsz]
  simp only [copy_data, Nat.zero_add, Nat.sub_zero, Nat.zero_le, true_and]
  by_cases h : i < r.length
  · rw [if_pos h, if_pos h, List.getElem?_eq_getElem h]; rfl
  · rw [if_neg h, List.getElem?_eq_none (by omega)]

/-- C21: for a vector `b` and an initializer sequence `r`: if `|r| ≤ Capacity` the
assignment `b = r` returns and gives `b` size `|r|` and contents `r`; if
`|r| > Capacity` it throws `static_vector_full` and leaves `b` (its size, every
slot) unchanged. -/
theorem assign_ilist_correct (b : static_vector T Capacity) (r : List T)
    (hN : Capacity < size_t_mod) :
    (r.length ≤ Capacity →
      (b.assign_ilist r).1 = .ok () ∧ (b.assign_ilist r).2.size = r.length ∧
      (b.assign_ilist r).2.contents = r) ∧
    (Capacity < r.length →
      (b.assign_ilist r).1 = .error .static_vector_full ∧ (b.assign_ilist r).2 = b ∧
      (b.assign_ilist r).2.size = b.size ∧ (b.assign_ilist r).2.contents = b.contents) := by
  constructor
  · intro hr
    exact assign_ilist_state b r hN hr
  · intro hr
    have e : b.assign_ilist r = (.error .static_vector_full, b) := by
      simp only [assign_ilist]
      rw [if_pos hr]
    rw [e]
    exact ⟨rfl, rfl, rfl, rfl⟩

theorem assign_ilist_correct_witness :
    (16 < size_t_mod ∧ [0, 1, 2, 3, 4].length ≤ 16 ∧ 2 < [1, 2, 3].length) ∧
    ((of_list [0, 1] 16).assign_ilist [0, 1, 2, 3, 4]).2.contents = [0, 1, 2, 3, 4] ∧
    ((of_list [] 2).assign_ilist [1, 2, 3]).1 = .error .static_vector_full ∧
    ((of_list [] 2).assign_ilist [1, 2, 3]).2 = of_list [] 2 :=
  have h := assign_ilist_correct (of_list [0, 1] 16) [0, 1, 2, 3, 4] (by decide)
  have g := assign_ilist_correct (of_list [] 2) [1, 2, 3] (by decide)
  ⟨⟨by decide, by decide, by decide⟩, (h.1 (by decide)).2.2, (g.2 (by decide)).1,
    (g.2 (by decide)).2.1⟩

/-- C22: for contents `v` and an index `i`, `at( i )` throws `std::out_of_range`
if and only if `i ≥ |v|`, in particular `at( size() )` and (for a vector within its
capacity) `at( Capacity )` throw; otherwise it returns `v[i]`, the element that
`operator[]( i )` returns; in both cases the vector is left as it was. -/
theorem at_correct (s : static_vector T Capacity) (i : Nat) :
    ((s.at_ i).1 = .error .out_of_range ↔ s.size ≤ i) ∧
    (i < s.size → (s.at_ i).1 = .ok (s.index i) ∧ some (s.index i) = s.contents[i]?) ∧
    (s.at_ s.size).1 = .error .out_of_range ∧
    (s.size ≤ Capacity → (s.at_ Capacity).1 = .error .out_of_range) ∧
    (s.at_ i).2 = s := by
  have hthrow : ∀ j, s._size ≤ j → s.at_ j = (.error .out_of_range, s) := by
    intro j hj
    simp only [at_, _at]
    rw [if_pos hj]
  have hok : ∀ j, j < s._size → s.at_ j = (.ok (s.index j), s) := by
    intro j hj
    simp only [at_, _at]
    rw [if_neg (by omega)]
    rfl
  unfold size
  refine ⟨?_, ?_, ?_, ?_, ?_⟩
  · constructor
    · intro h
      rcases Nat.lt_or_ge i s._size with h1 | h1
      · rw [hok i h1] at h; cases h
      · exact h1
    · intro h; rw [hthrow i h]
  · intro h
    rw [hok i h, contents_getElem?, if_pos h]
    exact ⟨rfl, by simp [index, begin_]⟩
  · rw [hthrow _ (le_refl _)]
  · intro h; rw [hthrow _ h]
  · rcases Nat.lt_or_ge i s._size with h1 | h1
    · rw [hok i h1]
    · rw [hthrow i h1]

theorem at_correct_witness :
    (2 < (of_list [5, 6, 7] 16).size ∧ (of_list [5, 6, 7] 16).size ≤ 16) ∧
    ((of_list [5, 6, 7] 16).at_ 2).1 = .ok ((of_list [5, 6, 7] 16).index 2) ∧
    some ((of_list [5, 6, 7] 16).index 2) = (of_list [5, 6, 7] 16).contents[2]? ∧
    ((of_list [5, 6, 7] 16).at_ 16).1 = .error .out_of_range :=
  have h := at_correct (of_list [5, 6, 7] 16) 2
  ⟨⟨by decide, by decide⟩, (h.2.1 (by decide)).1, (h.2.1 (by decide)).2, h.2.2.2.1 (by decide)⟩

theorem slot_sum_zero (n : Nat) : slot_sum (fun _ => 0) n = 0 := by
  induction n with
  | zero => rfl
  | succ n ih => rw [slot_sum, ih]

/-- C29: in every state of the vector, hence after any sequence of operations,
`empty()` holds exactly when `size() == 0` and `full()` exactly when
`size() == Capacity`, which is `capacity()` and `max_size()`; a default-constructed
vector (of a capacity that is not zero) has size 0, is empty, is not full, and has
touched no slot of its storage, so that it has constructed no element. -/
theorem empty_full_size (s : static_vector T Capacity) (mem : Nat → Slot T) (g : Nat → T)
    (hC : 0 < Capacity) :
    (s.empty = true ↔ s.size = 0) ∧
    (s.full = true ↔ s.size = Capacity) ∧
    (s.full = true ↔ s.size = s.capacity) ∧
    (s.full = true ↔ s.size = s.max_size) ∧
    (ctor_default Capacity mem).size = 0 ∧
    (ctor_default Capacity mem).empty = true ∧
    (ctor_default Capacity mem).full = false ∧
    (ctor_default Capacity mem)._data = mem ∧
    (ctor_default Capacity mem).faults = 0 ∧
    (ctor_default Capacity (fresh g)).ctor_cnt = 0 := by
  refine ⟨by simp [empty, size], by simp [full, size], by simp [full, size, capacity],
    by simp [full, size, max_size], rfl, rfl, ?_, rfl, rfl, ?_⟩
  · simp only [full, ctor_default]
    rw [beq_eq_false_iff_ne]
    omega
  · unfold ctor_cnt
    exact slot_sum_zero Capacity

theorem empty_full_size_witness :
    0 < 16 ∧
    ((of_list [1, 2] 16).empty = true ↔ (of_list [1, 2] 16).size = 0) ∧
    (ctor_default 16 (fresh (fun _ => (0 : Int)))).full = false ∧
    (ctor_default 16 (fresh (fun _ => (0 : Int)))).ctor_cnt = 0 :=
  have h := empty_full_size (of_list [1, 2] 16) (fresh (fun _ => (0 : Int)))
    (fun _ => (0 : Int)) (by decide)
  ⟨by decide, h.1, h.2.2.2.2.2.2.1, h.2.2.2.2.2.2.2.2.2⟩

theorem clear_data (s : static_vector T Capacity) (i : Nat) :
    s.clear._data i =
      if i < s._size then { s._data i with destructed := (s._data i).destructed + 1 }
      else s._data i := by
  have e : s.clear = { s.destroy_n s._size 0 with _size := 0 } := by
    simp only [clear, _destroy_elems, destroy, end_, begin_, Nat.zero_add, Nat.sub_zero]
  rw [e]
  show (s.destroy_n s._size 0)._data i = _
  rw [destroy_n_data]
  simp only [Nat.zero_le, true_and, Nat.zero_add]

/-- C30: `clear()` leaves size 0 and destroys exactly the elements of
`[begin(), end())`: each of these slots has one destruction more, every other slot
is as before, no value and no other counter changes (for a vector within its
capacity that is `size()` destructions and no construction), and no lifetime fault
is committed when these elements were live.  It is idempotent: the state after
`clear(); clear()` is the state after one `clear()`, so the second call destroys
nothing. -/
theorem clear_correct (s : static_vector T Capacity) :
    s.clear.size = 0 ∧
    (∀ i, s.clear._data i =
      if i < s.size then { s._data i with destructed := (s._data i).destructed + 1 }
      else s._data i) ∧
    (s.size ≤ Capacity →
      s.clear.dtor_cnt = s.dtor_cnt + s.size ∧ s.clear.ctor_cnt = s.ctor_cnt) ∧
    ((∀ i, i < s.size → (s._data i).live) → s.clear.faults = s.faults) ∧
    s.clear.clear = s.clear ∧
    s.clear.clear.dtor_cnt = s.clear.dtor_cnt := by
  unfold size
  have hcc : s.clear.clear = s.clear := rfl
  refine ⟨rfl, clear_data s, ?_, ?_, hcc, by rw [hcc]⟩
  · intro hs
    constructor
    · unfold dtor_cnt
      rw [slot_sum_range _ (fun i => (s._data i).destructed) 0 s._size (Nat.zero_le _) Capacity]
      · rw [Nat.min_eq_left hs]; simp
      · intro i _
        rw [clear_data]
        split_ifs <;> first | omega | rfl
    · unfold ctor_cnt
      apply slot_sum_congr
      intro i _
      rw [clear_data]
      split_ifs <;> rfl
  · intro hl
    have e : s.clear = { s.destroy_n s._size 0 with _size := 0 } := by
      simp only [clear, _destroy_elems, destroy, end_, begin_, Nat.zero_add, Nat.sub_zero]
    rw [e]
    show (s.destroy_n s._size 0).faults = s.faults
    apply destroy_n_faults
    intro i _ h2; exact hl i (by omega)

theorem clear_correct_witness :
    ((of_list [1, 2, 3] 16).size ≤ 16 ∧ ∀ i, i < (of_list [1, 2, 3] 16).size →
      ((of_list [1, 2, 3] 16)._data i).live) ∧
    (of_list [1, 2, 3] 16).clear.dtor_cnt
      = (of_list [1, 2, 3] 16).dtor_cnt + (of_list [1, 2, 3] 16).size ∧
    (of_list [1, 2, 3] 16).clear.faults = (of_list [1, 2, 3] 16).faults ∧
    (of_list [1, 2, 3] 16).clear.clear = (of_list [1, 2, 3] 16).clear :=
  have h := clear_correct (of_list [1, 2, 3] 16)
  have hl : ∀ i, i < (of_list [1, 2, 3] 16).size → ((of_list [1, 2, 3] 16)._data i).live :=
    (of_list_wf [1, 2, 3] (by decide)).live
  ⟨⟨by decide, hl⟩, (h.2.2.1 (by decide)).1, h.2.2.2.1 hl, h.2.2.2.2.1⟩

theorem pop_back_size (s : static_vector T Capacity) (hN : Capacity < size_t_mod)
    (hle : s._size ≤ Capacity) (hp : 0 < s._size) : s.pop_back._size = s._size - 1 := by
  show (s._size + internal_size Capacity - 1) % internal_size Capacity = _
  have hpos : 0 < internal_size Capacity := by unfold internal_size; split_ifs <;> decide
  have e : s._size + internal_size Capacity - 1 = (s._size - 1) + internal_size Capacity := by
    omega
  rw [e, Nat.add_mod_right]
  exact internal_size_wrap (by omega) hN

theorem pop_back_value (s : static_vector T Capacity) (i : Nat) :
    (s.pop_back._data i).v = (s._data i).v := by
  show ((s.destroy_at (s.end_ - 1))._data i).v = _
  simp only [destroy_at, Function.update_apply]
  split_ifs with h
  · subst h; rfl
  · rfl

theorem pop_back_contents (s : static_vector T Capacity) (hN : Capacity < size_t_mod)
    (hle : s._size ≤ Capacity) (hp : 0 < s._size) :
    s.pop_back.contents = s.contents.dropLast := by
  rw [contents_eq_iff, pop_back_size s hN hle hp]
  intro i
  rw [List.dropLast_eq_take, contents_length, pop_back_value]
  by_cases h : i < s._size - 1
  · rw [if_pos h, List.getElem?_take_of_lt h, contents_getElem?, if_pos (by omega)]
  · rw [if_neg h, List.getElem?_eq_none]
    rw [List.length_take, contents_length]
    omega

theorem front_back_contents (s : static_vector T Capacity) (h : 0 < s._size) :
    some s.front = s.contents.head? ∧ some s.back = s.contents.getLast? := by
  constructor
  · rw [List.head?_eq_getElem?, contents_getElem?, if_pos h]
    rfl
  · rw [List.getLast?_eq_getElem?, contents_length, contents_getElem?, if_pos (by omega)]
    simp [back, deref, end_, begin_]

theorem stack_step [Movable T] (s : static_vector T Capacity) (c : StackOp T) (l : List T)
    (hN : Capacity < size_t_mod) (hle : s._size ≤ Capacity) (hl : s.contents = l)
    (hpre : c.pre s = true) :
    (c.run s)._size ≤ Capacity ∧ (c.run s).contents = c.ref l := by
  cases c with
  | push_back v =>
    have hf : s._size < Capacity := by
      have : s._size ≠ Capacity := by simpa [StackOp.pre, full] using hpre
      omega
    obtain ⟨_, _, h3, h4⟩ := push_back_ok s v hN hf
    refine ⟨?_, ?_⟩
    · show (s.push_back v).2._size ≤ Capacity
      rw [h4]; omega
    · show (s.push_back v).2.contents = l ++ [v]
      rw [h3, hl]
  | pop_back =>
    have hp : 0 < s._size := by
      have : s._size ≠ 0 := by simpa [StackOp.pre, empty] using hpre
      omega
    refine ⟨?_, ?_⟩
    · show s.pop_back._size ≤ Capacity
      rw [pop_back_size s hN hle hp]; omega
    · show s.pop_back.contents = l.dropLast
      rw [pop_back_contents s hN hle hp, hl]

theorem stack_run_contents [Movable T] (hN : Capacity < size_t_mod) (ops : List (StackOp T)) :
    ∀ (s : static_vector T Capacity) (l : List T), s._size ≤ Capacity → s.contents = l →
      s.stack_ok ops = true →
      (s.stack_run ops)._size ≤ Capacity ∧ (s.stack_run ops).contents = stack_ref l ops := by
  induction ops with
  | nil => intro s l hle hl _; exact ⟨hle, hl⟩
  | cons c cs ih =>
    intro s l hle hl hk
    simp only [stack_ok, Bool.and_eq_true] at hk
    obtain ⟨h1, h2⟩ := stack_step s c l hN hle hl hk.1
    exact ih (c.run s) (c.ref l) h1 h2 hk.2

theorem stack_ok_take [Movable T] (ops : List (StackOp T)) :
    ∀ (s : static_vector T Capacity) (k : Nat), s.stack_ok ops = true →
      s.stack_ok (ops.take k) = true := by
  induction ops with
  | nil => intro s k h; simpa using h
  | cons c cs ih =>
    intro s k h
    cases k with
    | zero => rfl
    | succ k =>
      simp only [List.take_succ_cons, stack_ok, Bool.and_eq_true] at h ⊢
      exact ⟨h.1, ih _ k h.2⟩

theorem stack_ref_getLast (ops : List (StackOp T)) :
    ∀ (l : List T) (v : T), ops.getLast? = some (.push_back v) →
      (stack_ref l ops).getLast? = some v := by
  induction ops with
  | nil => intro l v h; cases h
  | cons c cs ih =>
    intro l v h
    cases cs with
    | nil =>
      simp only [List.getLast?_singleton, Option.some.injEq] at h
      subst h
      simp [stack_ref, StackOp.ref]
    | cons c2 cs2 =>
      rw [List.getLast?_cons_cons] at h
      exact ih _ v h

/-- C23: starting from an empty vector, for every sequence of `push_back( x )`
calls made while the vector is not full and `pop_back()` calls made while it is not
empty, after each step the size and the contents are those of the reference list
under append and drop-last; when the list is not empty `front()` is its first and
`back()` its last element, and after a `push_back( x )` the value of `back()` is
`x`. -/
theorem push_pop_refines [Movable T] (mem : Nat → Slot T) (ops : List (StackOp T))
    (hN : Capacity < size_t_mod) (hk : (ctor_default Capacity mem).stack_ok ops = true) :
    ∀ k, k ≤ ops.length →
      ((ctor_default Capacity mem).stack_run (ops.take k)).size
        = (stack_ref [] (ops.take k)).length ∧
      ((ctor_default Capacity mem).stack_run (ops.take k)).contents
        = stack_ref [] (ops.take k) ∧
      (stack_ref [] (ops.take k) ≠ [] →
        some ((ctor_default Capacity mem).stack_run (ops.take k)).front
          = (stack_ref [] (ops.take k)).head? ∧
        some ((ctor_default Capacity mem).stack_run (ops.take k)).back
          = (stack_ref [] (ops.take k)).getLast?) ∧
      (∀ v, (ops.take k).getLast? = some (.push_back v) →
        ((ctor_default Capacity mem).stack_run (ops.take k)).back = v) := by
  intro k _
  obtain ⟨h1, h2⟩ := stack_run_contents hN (ops.take k) (ctor_default Capacity mem) []
    (Nat.zero_le _) rfl (stack_ok_take ops _ k hk)
  have hsz : ((ctor_default Capacity mem).stack_run (ops.take k))._size
      = (stack_ref [] (ops.take k)).length := by
    rw [← h2, contents_length]
  have hfb : stack_ref [] (ops.take k) ≠ [] →
      some ((ctor_default Capacity mem).stack_run (ops.take k)).front
        = (stack_ref [] (ops.take k)).head? ∧
      some ((ctor_default Capacity mem).stack_run (ops.take k)).back
        = (stack_ref [] (ops.take k)).getLast? := by
    intro hne
    have hpos : 0 < ((ctor_default Capacity mem).stack_run (ops.take k))._size := by
      rw [hsz]; exact List.length_pos.2 hne
    have := front_back_contents _ hpos
    rw [h2] at this
    exact this
  refine ⟨hsz, h2, hfb, ?_⟩
  intro v hv
  have hg := stack_ref_getLast (ops.take k) [] v hv
  have hne : stack_ref [] (ops.take k) ≠ [] := by
    intro h0; rw [h0] at hg; cases hg
  have := (hfb hne).2
  rw [hg] at this
  exact Option.some.inj this

theorem push_pop_refines_witness :
    (16 < size_t_mod ∧
      (ctor_default 16 (fresh (fun _ => (0 : Int)))).stack_ok
        [.push_back 1, .push_back 2, .pop_back, .push_back 5] = true ∧
      4 ≤ [StackOp.push_back (1 : Int), .push_back 2, .pop_back, .push_back 5].length) ∧
    ((ctor_default 16 (fresh (fun _ => (0 : Int)))).stack_run
        ([StackOp.push_back 1, .push_back 2, .pop_back, .push_back 5].take 4)).contents
      = stack_ref [] ([StackOp.push_back 1, .push_back 2, .pop_back, .push_back 5].take 4) ∧
    stack_ref [] ([StackOp.push_back (1 : Int), .push_back 2, .pop_back, .push_back 5].take 4)
      = [1, 5] :=
  ⟨⟨by decide, by decide, by decide⟩,
    (push_pop_refines (fresh (fun _ => (0 : Int)))
      [StackOp.push_back 1, .push_back 2, .pop_back, .push_back 5]
      (show 16 < size_t_mod by decide) (by decide) 4 (by decide)).2.1, by decide⟩

/-- The algorithm `std::lexicographical_compare` with the linear order of the
elements decides the lexicographic order of lists. -/
theorem lexicographical_compare_iff [LinearOrder T] (u : List T) :
    ∀ w : List T, lexicographical_compare u w = true ↔ List.Lex (fun x y => x < y) u w := by
  induction u with
  | nil =>
    intro w
    cases w with
    | nil => simp [lexicographical_compare, List.Lex.not_nil_right]
    | cons y ys => simp [lexicographical_compare, List.Lex.nil]
  | cons x xs ih =>
    intro w
    cases w with
    | nil => simp [lexicographical_compare, List.Lex.not_nil_right]
    | cons y ys =>
      simp only [lexicographical_compare]
      by_cases h1 : x < y
      · rw [if_pos h1]
        exact ⟨fun _ => List.Lex.rel h1, fun _ => rfl⟩
      · rw [if_neg h1]
        by_cases h2 : y < x
        · rw [if_pos h2]
          constructor
          · intro h; cases h
          · intro h
            cases h with
            | cons h3 => exact absurd h2 (lt_irrefl _)
            | rel h3 => exact absurd h3 h1
        · rw [if_neg h2]
          have e : x = y := le_antisymm (not_lt.1 h2) (not_lt.1 h1)
          subst e
          rw [ih ys]
          constructor
          · intro h; exact List.Lex.cons h
          · intro h
            cases h with
            | cons h3 => exact h3
            | rel h3 => exact absurd h3 h1

theorem operator_lt_iff [LinearOrder T] (a b : static_vector T Capacity) :
    a.operator_lt b = true ↔ a.contents < b.contents :=
  lexicographical_compare_iff a.contents b.contents

theorem operator_eq_iff [DecidableEq T] (a b : static_vector T Capacity) :
    a.operator_eq b = true ↔ a.contents = b.contents :=
  std_equal_iff a.contents b.contents

theorem lexicographical_compare_prefix [LinearOrder T] (u : List T) (x : T) (l : List T) :
    lexicographical_compare u (u ++ x :: l) = true := by
  induction u with
  | nil => rfl
  | cons y ys ih =>
    simp only [List.cons_append, lexicographical_compare, lt_irrefl, if_false]
    exact ih

/-- C24: for vectors `a`, `b` with contents `u`, `w` over linearly ordered
elements: `a == b` holds iff `u` and `w` have the same length and are element-wise
equal; `a < b` holds iff `u` is lexicographically less than `w`, and a proper
prefix is less; each of `==`, `!=`, `<`, `<=`, `>`, `>=` returns the truth value of
the same operator on the lists `u`, `w`. -/
theorem comparison_correct [LinearOrder T] (a b : static_vector T Capacity) :
    (a.operator_eq b = true ↔
      a.contents.length = b.contents.length ∧
      ∀ i, i < a.contents.length → a.contents[i]? = b.contents[i]?) ∧
    (a.operator_lt b = true ↔ List.Lex (fun x y => x < y) a.contents b.contents) ∧
    (∀ x l, b.contents = a.contents ++ x :: l → a.operator_lt b = true) ∧
    (a.operator_eq b = true ↔ a.contents = b.contents) ∧
    (a.operator_ne b = true ↔ a.contents ≠ b.contents) ∧
    (a.operator_lt b = true ↔ a.contents < b.contents) ∧
    (a.operator_le b = true ↔ a.contents ≤ b.contents) ∧
    (a.operator_gt b = true ↔ a.contents > b.contents) ∧
    (a.operator_ge b = true ↔ a.contents ≥ b.contents) := by
  have heq := operator_eq_iff a b
  have hlt := operator_lt_iff a b
  have hgt := operator_lt_iff b a
  refine ⟨?_, lexicographical_compare_iff _ _, ?_, heq, ?_, hlt, ?_, hgt, ?_⟩
  · rw [heq]
    constructor
    · intro h; rw [h]; exact ⟨rfl, fun _ _ => rfl⟩
    · intro h
      apply List.ext_getElem?
      intro i
      rcases Nat.lt_or_ge i a.contents.length with h1 | h1
      · exact h.2 i h1
      · rw [List.getElem?_eq_none h1, List.getElem?_eq_none (by omega)]
  · intro x l h
    unfold operator_lt
    rw [h]
    exact lexicographical_compare_prefix _ x l
  · unfold operator_ne
    rw [Bool.not_eq_true', ← Bool.not_eq_true, heq]
  · unfold operator_le operator_gt
    rw [Bool.not_eq_true', ← Bool.not_eq_true, hgt, not_lt]
  · unfold operator_ge
    rw [Bool.not_eq_true', ← Bool.not_eq_true, hlt, not_lt]

theorem comparison_correct_witness :
    ([1, 2] ++ 3 :: [] = [1, 2, 3] ∧ (2 : Nat) < 3) ∧
    (of_list [1, 2] 4).operator_lt (of_list [1, 2, 3] 4) = true ∧
    ((of_list [1, 3] 4).operator_le (of_list [1, 2, 3] 4) = true
      ↔ (of_list [1, 3] 4).contents ≤ (of_list [1, 2, 3] 4).contents) :=
  have h := comparison_correct (of_list [1, 2] 4) (of_list [1, 2, 3] 4)
  have g := comparison_correct (of_list [1, 3] 4) (of_list [1, 2, 3] 4)
  ⟨⟨by decide, by decide⟩, h.2.2.1 3 [] (by decide), g.2.2.2.2.2.2.1⟩

/-- C25: `a == b` holds if and only if neither `a < b` nor `b < a`. -/
theorem eq_iff_not_lt [LinearOrder T] (a b : static_vector T Capacity) :
    a.operator_eq b = true ↔ (a.operator_lt b = false ∧ b.operator_lt a = false) := by
  rw [← Bool.not_eq_true, ← Bool.not_eq_true, operator_eq_iff, operator_lt_iff, operator_lt_iff]
  constructor
  · intro h; rw [h]; exact ⟨lt_irrefl _, lt_irrefl _⟩
  · intro h; exact le_antisymm (not_lt.1 h.2) (not_lt.1 h.1)

/-- C26: `operator<` is a strict weak order: never `a < a`; `a < b` and `b < c`
give `a < c`; and when neither of `a`, `b` is less than the other and neither of
`b`, `c` is, then neither of `a`, `c` is. -/
theorem lt_strict_weak_order [LinearOrder T] (a b c : static_vector T Capacity) :
    a.operator_lt a = false ∧
    (a.operator_lt b = true → b.operator_lt c = true → a.operator_lt c = true) ∧
    (a.operator_lt b = false ∧ b.operator_lt a = false →
      b.operator_lt c = false ∧ c.operator_lt b = false →
      a.operator_lt c = false ∧ c.operator_lt a = false) := by
  refine ⟨?_, ?_, ?_⟩
  · rw [← Bool.not_eq_true, operator_lt_iff]; exact lt_irrefl _
  · rw [operator_lt_iff, operator_lt_iff, operator_lt_iff]; exact lt_trans
  · simp only [← Bool.not_eq_true, operator_lt_iff]
    intro h1 h2
    have e1 : a.contents = b.contents := le_antisymm (not_lt.1 h1.2) (not_lt.1 h1.1)
    have e2 : b.contents = c.contents := le_antisymm (not_lt.1 h2.2) (not_lt.1 h2.1)
    rw [e1, e2]
    exact ⟨lt_irrefl _, lt_irrefl _⟩

theorem lt_strict_weak_order_witness :
    ((of_list [1] 4).operator_lt (of_list [1, 2] 4) = true ∧
      (of_list [1, 2] 4).operator_lt (of_list [2] 4) = true) ∧
    (of_list [1] 4).operator_lt (of_list [2] 4) = true :=
  ⟨⟨by decide, by decide⟩,
    (lt_strict_weak_order (of_list [1] 4) (of_list [1, 2] 4) (of_list [2] 4)).2.1
      (by decide) (by decide)⟩

/-- C27: the derived operators agree with `==` and `<`: `a != b` is
`!( a == b )`, `a > b` is `b < a`, `a <= b` is `a < b || a == b`, and `a >= b` is
`b < a || a == b`. -/
theorem derived_operators [LinearOrder T] (a b : static_vector T Capacity) :
    a.operator_ne b = !(a.operator_eq b) ∧
    a.operator_gt b = b.operator_lt a ∧
    a.operator_le b = (a.operator_lt b || a.operator_eq b) ∧
    a.operator_ge b = (b.operator_lt a || a.operator_eq b) := by
  have heq := operator_eq_iff a b
  have hlt := operator_lt_iff a b
  have hgt := operator_lt_iff b a
  refine ⟨rfl, rfl, ?_, ?_⟩
  · rw [Bool.eq_iff_iff]
    unfold operator_le operator_gt
    rw [Bool.not_eq_true', ← Bool.not_eq_true, Bool.or_eq_true, hgt, hlt, heq, not_lt]
    exact le_iff_lt_or_eq
  · rw [Bool.eq_iff_iff]
    unfold operator_ge
    rw [Bool.not_eq_true', ← Bool.not_eq_true, Bool.or_eq_true, hgt, hlt, heq, not_lt]
    rw [le_iff_lt_or_eq]
    constructor
    · intro h; rcases h with h | h
      · exact Or.inl h
      · exact Or.inr h.symm
    · intro h; rcases h with h | h
      · exact Or.inl h
      · exact Or.inr h.symm

theorem try_emplace_size_le [Movable T] (s : static_vector T Capacity) (p : Nat) (x : T)
    (hN : Capacity < size_t_mod) (hs : s._size ≤ Capacity) (hp : p ≤ s._size) :
    (s.try_emplace p x).2._size ≤ Capacity := by
  by_cases hf : s._size = Capacity
  · rw [try_emplace_full s p x hf]; exact hs
  · have hlt : s._size < Capacity := by omega
    rcases Nat.lt_or_ge p s._size with h | h
    · rw [try_emplace_shift s p x hN hlt h]
      show s._size + 1 ≤ Capacity
      omega
    · have e : p = s._size := by omega
      subst e
      rw [try_emplace_at_end s x hN hlt]
      show s._size + 1 ≤ Capacity
      omega

theorem insert_range_size_le [Movable T] (s : static_vector T Capacity) (p : Nat) (r : List T)
    (hN : Capacity ≤ ptrdiff_max) (hrl : r.length ≤ ptrdiff_max) (hs : s._size ≤ Capacity) :
    (s.insert_range p r).2._size ≤ Capacity := by
  have hN2 : Capacity < size_t_mod := by unfold ptrdiff_max at hN; unfold size_t_mod; omega
  by_cases hd : r.length ≤ 0
  · have e : s.insert_range p r = (.ok p, s) := by
      unfold insert_range
      simp only []
      rw [if_pos hd]
    rw [e]; exact hs
  by_cases hr : s._size + r.length ≤ Capacity
  · by_cases ha : r.length ≤ s._size - p
    · rw [insert_range_shift s p r hN2 hr (by omega) ha]; exact hr
    · rw [insert_range_cross s p r hN2 hr (by omega)]; exact hr
  · have e : s.insert_range p r = (.error .static_vector_full, s) := by
      unfold ptrdiff_max at *
      have e1 : r.length % size_t_mod = r.length :=
        Nat.mod_eq_of_lt (by unfold size_t_mod; omega)
      have e2 : (s._size + r.length) % size_t_mod = s._size + r.length :=
        Nat.mod_eq_of_lt (by unfold size_t_mod; omega)
      unfold insert_range
      simp only [e1, e2]
      rw [if_neg (by omega), if_pos (by omega)]
    rw [e]; exact hs

theorem resize_size_le [Inhabited T] (s : static_vector T Capacity) (n : Nat)
    (hN : Capacity < size_t_mod) (hs : s._size ≤ Capacity) :
    (s.resize n).2._size ≤ Capacity := by
  by_cases hn : n ≤ Capacity
  · rw [resize_size s n hn hN]; exact hn
  · have e : s.resize n = (.error .static_vector_full, s) := by
      simp only [resize, _resize]
      rw [if_pos (by omega)]
    rw [e]; exact hs

theorem resize_value_size_le (s : static_vector T Capacity) (n : Nat) (x : T)
    (hN : Capacity < size_t_mod) (hs : s._size ≤ Capacity) :
    (s.resize_value n x).2._size ≤ Capacity := by
  by_cases hn : n ≤ Capacity
  · rw [resize_value_size s n x hn hN]; exact hn
  · have e : s.resize_value n x = (.error .static_vector_full, s) := by
      simp only [resize_value, _resize]
      rw [if_pos (by omega)]
    rw [e]; exact hs

theorem call_run_size_le [Inhabited T] [Movable T] (s : static_vector T Capacity) (c : Call T)
    (hN : Capacity ≤ ptrdiff_max) (hs : s._size ≤ Capacity) (hpre : c.pre s = true) :
    (c.run s).2._size ≤ Capacity := by
  have hN2 : Capacity < size_t_mod := by unfold ptrdiff_max at hN; unfold size_t_mod; omega
  cases c with
  | try_emplace p x =>
    have hp : p ≤ s._size := by simpa [Call.pre, end_, begin_] using hpre
    exact try_emplace_size_le s p x hN2 hs hp
  | emplace p x =>
    have hp : p ≤ s._size := by simpa [Call.pre, end_, begin_] using hpre
    show (s.emplace p x).2._size ≤ Capacity
    rw [(emplace_eq s p x).2]
    exact try_emplace_size_le s p x hN2 hs hp
  | insert p x =>
    have hp : p ≤ s._size := by simpa [Call.pre, end_, begin_] using hpre
    show (s.emplace p x).2._size ≤ Capacity
    rw [(emplace_eq s p x).2]
    exact try_emplace_size_le s p x hN2 hs hp
  | insert_rvalue p x =>
    have hp : p ≤ s._size := by simpa [Call.pre, end_, begin_] using hpre
    show (s.emplace p x).2._size ≤ Capacity
    rw [(emplace_eq s p x).2]
    exact try_emplace_size_le s p x hN2 hs hp
  | insert_range p r =>
    have hp : p ≤ s._size ∧ r.length ≤ ptrdiff_max := by
      simpa [Call.pre, end_, begin_] using hpre
    exact insert_range_size_le s p r hN hp.2 hs
  | push_back x =>
    show (s.emplace_back x).2._size ≤ Capacity
    rw [(emplace_back_eq s x).2]
    exact try_emplace_size_le s _ x hN2 hs (le_of_eq (by simp [end_, begin_]))
  | emplace_back x =>
    show (s.emplace_back x).2._size ≤ Capacity
    rw [(emplace_back_eq s x).2]
    exact try_emplace_size_le s _ x hN2 hs (le_of_eq (by simp [end_, begin_]))
  | pop_back =>
    have hp : 0 < s._size := by simpa [Call.pre] using hpre
    show s.pop_back._size ≤ Capacity
    rw [pop_back_size s hN2 hs hp]; omega
  | erase p =>
    have hp : p < s._size := by simpa [Call.pre, end_, begin_] using hpre
    show (s.erase_range p (p + 1)).2._size ≤ Capacity
    rw [erase_range_state s p (p + 1) hN2 hs (by omega) (by omega)]
    show s._size - (p + 1 - p) ≤ Capacity
    omega
  | erase_range f l =>
    have hp : f ≤ l ∧ l ≤ s._size := by simpa [Call.pre, end_, begin_] using hpre
    show (s.erase_range f l).2._size ≤ Capacity
    rw [erase_range_state s f l hN2 hs hp.1 hp.2]
    show s._size - (l - f) ≤ Capacity
    omega
  | resize n => exact resize_size_le s n hN2 hs
  | clear => exact Nat.zero_le _

/-- C28: `size() <= Capacity` holds after every constructor that returns (the
source of a copy or move construction being within its capacity), and every public
mutator called within its precondition on a vector with `size() <= Capacity`
leaves `size() <= Capacity`, whether it succeeds or throws `static_vector_full`:
`clear`, `try_emplace`, `emplace`, `insert`, the range `insert`, `push_back`,
`emplace_back`, `pop_back` on a non-empty vector, both `resize`, both `erase` and
the three assignments; the source of a move is left with size 0. -/
theorem size_le_capacity [Inhabited T] [Movable T] (hN : Capacity ≤ ptrdiff_max) :
    (∀ (mem : Nat → Slot T) (c : Ctor T Capacity),
      (∀ o, c = .copy o ∨ c = .move o → o.size ≤ Capacity) →
      (c.run mem).1 = .ok () → (c.run mem).2.size ≤ Capacity) ∧
    (∀ (s : static_vector T Capacity) (m : Mutator T Capacity),
      s.size ≤ Capacity → m.pre s → (m.run s).2.size ≤ Capacity) ∧
    (∀ (mem : Nat → Slot T) (s o : static_vector T Capacity),
      (ctor_move mem o).2.size = 0 ∧ (s.assign_move o false).2.size = 0) := by
  have hN2 : Capacity < size_t_mod := by unfold ptrdiff_max at hN; unfold size_t_mod; omega
  unfold size
  refine ⟨?_, ?_, fun mem s o => ⟨rfl, rfl⟩⟩
  · intro mem c hsrc h0
    cases c with
    | default_ => exact Nat.zero_le _
    | count n =>
      by_cases hn : n ≤ Capacity
      · show (ctor_count Capacity mem n).2._size ≤ Capacity
        rw [ctor_count_state mem n hN2 hn, uninitialized_copy_size]
        exact hn
      · exfalso
        have : (ctor_count Capacity mem n).1 = .error .static_vector_full := by
          simp only [ctor_count, _check_count_ctor]
          rw [if_pos (by omega)]
        have h1 : (ctor_count Capacity mem n).1 = .ok () := h0
        rw [this] at h1
        cases h1
    | fill n v =>
      by_cases hn : n ≤ Capacity
      · show (ctor_fill Capacity mem n v).2._size ≤ Capacity
        rw [ctor_fill_state mem n v hN2 hn, uninitialized_copy_size]
        exact hn
      · exfalso
        have : (ctor_fill Capacity mem n v).1 = .error .static_vector_full := by
          simp only [ctor_fill, _check_count_ctor]
          rw [if_pos (by omega)]
        have h1 : (ctor_fill Capacity mem n v).1 = .ok () := h0
        rw [this] at h1
        cases h1
    | range r =>
      by_cases hn : r.length ≤ Capacity
      · have := (push_back_all_ok hN2 r (ctor_default Capacity mem)
          (by show 0 + r.length ≤ Capacity; omega)).2.2
        show ((ctor_default Capacity mem).push_back_all r).2._size ≤ Capacity
        rw [this]
        show 0 + r.length ≤ Capacity
        omega
      · exfalso
        have := push_back_all_full hN2 r (ctor_default Capacity mem) (Nat.zero_le _)
          (by show Capacity < 0 + r.length; omega)
        have h1 : ((ctor_default Capacity mem).push_back_all r).1 = .ok () := h0
        rw [this] at h1
        cases h1
    | copy o =>
      show (ctor_copy mem o)._size ≤ Capacity
      rw [(ctor_copy_state mem o).1]
      exact hsrc o (Or.inl rfl)
    | move o =>
      show (ctor_move mem o).1._size ≤ Capacity
      rw [(ctor_move_state mem o).1, (ctor_copy_state mem o).1]
      exact hsrc o (Or.inr rfl)
  · intro s m hs hpre
    cases m with
    | call c => exact call_run_size_le s c hN hs hpre
    | resize_value n x => exact resize_value_size_le s n x hN2 hs
    | assign_copy o b =>
      have ho : o._size ≤ Capacity := hpre
      cases b with
      | true => exact hs
      | false =>
        show (s.assign_copy o false)._size ≤ Capacity
        rw [(assign_copy_state o s hN2 ho).1]; exact ho
    | assign_move o b =>
      have ho : o._size ≤ Capacity := hpre
      cases b with
      | true => exact hs
      | false =>
        show (s.assign_move o false).1._size ≤ Capacity
        rw [(assign_move_state o s hN2 ho).1]; exact ho
    | assign_ilist r =>
      show (s.assign_ilist r).2._size ≤ Capacity
      by_cases hr : r.length ≤ Capacity
      · rw [(assign_ilist_state s r hN2 hr).2.1]; exact hr
      · have e : s.assign_ilist r = (.error .static_vector_full, s) := by
          simp only [assign_ilist]
          rw [if_pos (by omega)]
        rw [e]; exact hs

theorem size_le_capacity_witness :
    (4 ≤ ptrdiff_max ∧ (of_list [1, 2, 3] 4).size ≤ 4 ∧
      (Mutator.call (.insert_range 2 [21, 22]) : Mutator Int 4).pre (of_list [1, 2, 3] 4)) ∧
    ((Mutator.call (.insert_range 2 [21, 22]) : Mutator Int 4).run (of_list [1, 2, 3] 4)).1
      = false ∧
    ((Mutator.call (.insert_range 2 [21, 22]) : Mutator Int 4).run (of_list [1, 2, 3] 4)).2.size
      ≤ 4 :=
  have hp : (Mutator.call (.insert_range 2 [21, 22]) : Mutator Int 4).pre
      (of_list [1, 2, 3] 4) :=
    show (Call.insert_range 2 [21, 22] : Call Int).pre (of_list [1, 2, 3] 4) = true by decide
  ⟨⟨by decide, by decide, hp⟩, by decide,
    (size_le_capacity (show 4 ≤ ptrdiff_max by decide)).2.1 (of_list [1, 2, 3] 4)
      (.call (.insert_range 2 [21, 22])) (by decide) hp⟩

theorem insert_ok [Movable T] (s : static_vector T Capacity) (p : Nat) (x : T)
    (hs : s._size < Capacity) : s.insert p x = (.ok p, (s.try_emplace p x).2) := by
  have h := try_emplace_some s p x (by omega)
  show s.emplace p x = _
  unfold emplace
  rcases hh : s.try_emplace p x with ⟨a, b⟩
  rw [hh] at h
  simp only at h
  subst h
  rfl

theorem try_emplace_size [Movable T] (s : static_vector T Capacity) (k : Nat) (x : T)
    (hN : Capacity < size_t_mod) (hs : s._size < Capacity) (hk : k ≤ s._size) :
    (s.try_emplace k x).2._size = s._size + 1 := by
  have h := congrArg List.length (try_emplace_contents s k x hN hs hk)
  rw [contents_length] at h
  rw [h]
  simp only [List.length_append, List.length_take, List.length_drop, contents_length,
    List.length_singleton]
  omega

theorem insert_range_size [Movable T] (s : static_vector T Capacity) (p : Nat) (r : List T)
    (hN : Capacity < size_t_mod) (hr : s._size + r.length ≤ Capacity) :
    (s.insert_range p r).2._size = s._size + r.length := by
  by_cases hd : r.length ≤ 0
  · have : r = [] := List.eq_nil_of_length_eq_zero (by omega)
    subst this
    simp [insert_range]
  by_cases ha : r.length ≤ s._size - p
  · rw [insert_range_shift s p r hN hr (by omega) ha]
  · rw [insert_range_cross s p r hN hr (by omega)]

theorem splice_take_drop (v : List T) (p : Nat) (x : T) (xs : List T) (hp : p ≤ v.length) :
    (v.take p ++ [x] ++ v.drop p).take (p + 1) ++ xs ++ (v.take p ++ [x] ++ v.drop p).drop (p + 1)
      = v.take p ++ (x :: xs) ++ v.drop p := by
  have hl : (v.take p ++ [x]).length = p + 1 := by
    rw [List.length_append, List.length_take, List.length_singleton]; omega
  rw [List.take_left' hl, List.drop_left' hl]
  simp

theorem insert_each_contents [Movable T] (hN : Capacity < size_t_mod) (r : List T) :
    ∀ (s : static_vector T Capacity) (p : Nat), p ≤ s._size → s._size + r.length ≤ Capacity →
      (s.insert_each p r).1 = .ok () ∧
      (s.insert_each p r).2.contents = s.contents.take p ++ r ++ s.contents.drop p ∧
      (s.insert_each p r).2._size = s._size + r.length := by
  induction r with
  | nil =>
    intro s p hp _
    refine ⟨rfl, ?_, rfl⟩
    show s.contents = _
    simp
  | cons x xs ih =>
    intro s p hp hr
    simp only [List.length_cons] at hr
    have hlt : s._size < Capacity := by omega
    have e : s.insert_each p (x :: xs) = (s.try_emplace p x).2.insert_each (p + 1) xs := by
      rw [insert_each, insert_ok s p x hlt]
    have hsz := try_emplace_size s p x hN hlt hp
    have hc := try_emplace_contents s p x hN hlt hp
    obtain ⟨h1, h2, h3⟩ := ih (s.try_emplace p x).2 (p + 1) (by omega) (by omega)
    rw [e]
    refine ⟨h1, ?_, ?_⟩
    · rw [h2, hc]
      exact splice_take_drop _ p x xs (by rw [contents_length]; exact hp)
    · rw [h3, hsz, List.length_cons]; omega

/-- C32: for contents `v`, an offset `p ≤ |v|` and a range `r` with
`|v| + |r| ≤ Capacity`, the range insertion `insert( begin() + p, r )` and the
successive single-element insertions `insert( begin() + p + i, r[i] )` both
succeed and leave the same contents (`v[0..p) ++ r ++ v[p..|v|)`) and the same
size. -/
theorem insert_range_eq_insert_each [Movable T] (s : static_vector T Capacity) (p : Nat)
    (r : List T) (hN : Capacity < size_t_mod) (hp : p ≤ s.size)
    (hr : s.size + r.length ≤ Capacity) :
    (s.insert_each (s.begin_ + p) r).1 = .ok () ∧
    (s.insert_range (s.begin_ + p) r).2.contents = (s.insert_each (s.begin_ + p) r).2.contents ∧
    (s.insert_range (s.begin_ + p) r).2.size = (s.insert_each (s.begin_ + p) r).2.size ∧
    (s.insert_range (s.begin_ + p) r).2.contents = s.contents.take p ++ r ++ s.contents.drop p := by
  unfold size at *
  simp only [begin_, Nat.zero_add]
  obtain ⟨h1, h2, h3⟩ := insert_each_contents hN r s p hp hr
  have h4 := insert_range_contents s p r hN hp hr
  refine ⟨h1, by rw [h4, h2], ?_, h4⟩
  rw [h3, insert_range_size s p r hN hr]

theorem insert_range_eq_insert_each_witness :
    (16 < size_t_mod ∧ 3 ≤ (of_list [0, 1, 2, 3, 4] 16).size ∧
      (of_list [0, 1, 2, 3, 4] 16).size + [21, 22, 23].length ≤ 16) ∧
    ((of_list [0, 1, 2, 3, 4] 16).insert_range ((of_list [0, 1, 2, 3, 4] 16).begin_ + 3)
        [21, 22, 23]).2.contents
      = ((of_list [0, 1, 2, 3, 4] 16).insert_each ((of_list [0, 1, 2, 3, 4] 16).begin_ + 3)
        [21, 22, 23]).2.contents ∧
    ((of_list [0, 1, 2, 3, 4] 16).insert_each ((of_list [0, 1, 2, 3, 4] 16).begin_ + 3)
        [21, 22, 23]).2.contents = [0, 1, 2, 21, 22, 23, 3, 4] :=
  ⟨⟨by decide, by decide, by decide⟩,
    (insert_range_eq_insert_each (of_list [0, 1, 2, 3, 4] 16) 3 [21, 22, 23]
      (by decide) (by decide) (by decide)).2.1, by decide⟩

/-- C33: erasing undoes inserting.  For a non-full vector with contents `v`, an
offset `k ≤ |v|` and a value `x`, `erase( begin() + k )` after
`try_emplace( begin() + k, x )` leaves contents `v` and size `|v|`; and for a range
`r` with `|v| + |r| ≤ Capacity`, `erase( begin() + k, begin() + k + |r| )` after
`insert( begin() + k, r )` leaves contents `v` and size `|v|`. -/
theorem erase_undoes_insert [Movable T] (s : static_vector T Capacity) (k : Nat) (x : T)
    (r : List T) (hN : Capacity < size_t_mod) (hk : k ≤ s.size) :
    (s.size < Capacity →
      ((s.try_emplace (s.begin_ + k) x).2.erase (s.begin_ + k)).2.contents = s.contents ∧
      ((s.try_emplace (s.begin_ + k) x).2.erase (s.begin_ + k)).2.size = s.size) ∧
    (s.size + r.length ≤ Capacity →
      ((s.insert_range (s.begin_ + k) r).2.erase_range (s.begin_ + k)
        (s.begin_ + k + r.length)).2.contents = s.contents ∧
      ((s.insert_range (s.begin_ + k) r).2.erase_range (s.begin_ + k)
        (s.begin_ + k + r.length)).2.size = s.size) := by
  unfold size at *
  simp only [begin_, Nat.zero_add]
  have hsize : ∀ (a : static_vector T Capacity), a.contents = s.contents → a._size = s._size := by
    intro a h
    rw [← contents_length a, h, contents_length]
  constructor
  · intro hf
    have hsz := try_emplace_size s k x hN hf hk
    have hc := try_emplace_contents s k x hN hf hk
    have he : ((s.try_emplace k x).2.erase k).2.contents = s.contents := by
      show ((s.try_emplace k x).2.erase_range k (k + 1)).2.contents = s.contents
      rw [erase_range_contents _ k (k + 1) hN (by omega) (by omega) (by omega), hc]
      have hl : (s.contents.take k).length = k := by
        rw [List.length_take, contents_length]; omega
      have hl2 : (s.contents.take k ++ [x]).length = k + 1 := by
        rw [List.length_append, hl, List.length_singleton]
      rw [List.drop_left' hl2, List.append_assoc, List.take_left' hl, List.take_append_drop]
    exact ⟨he, hsize _ he⟩
  · intro hr
    have hsz := insert_range_size s k r hN hr
    have hc := insert_range_contents s k r hN hk hr
    have he : ((s.insert_range k r).2.erase_range k (k + r.length)).2.contents = s.contents := by
      rw [erase_range_contents _ k (k + r.length) hN (by omega) (by omega) (by omega), hc]
      have hl : (s.contents.take k).length = k := by
        rw [List.length_take, contents_length]; omega
      have hl2 : (s.contents.take k ++ r).length = k + r.length := by
        rw [List.length_append, hl]
      rw [List.drop_left' hl2, List.append_assoc, List.take_left' hl, List.take_append_drop]
    exact ⟨he, hsize _ he⟩

theorem erase_undoes_insert_witness :
    (16 < size_t_mod ∧ 2 ≤ (of_list [5, 6, 7] 16).size ∧ (of_list [5, 6, 7] 16).size < 16 ∧
      (of_list [5, 6, 7] 16).size + [21, 22].length ≤ 16) ∧
    (((of_list [5, 6, 7] 16).try_emplace ((of_list [5, 6, 7] 16).begin_ + 2) (9 : Int)).2.erase
        ((of_list [5, 6, 7] 16).begin_ + 2)).2.contents = (of_list [5, 6, 7] 16).contents ∧
    (((of_list [5, 6, 7] 16).insert_range ((of_list [5, 6, 7] 16).begin_ + 2)
        [21, 22]).2.erase_range ((of_list [5, 6, 7] 16).begin_ + 2)
        ((of_list [5, 6, 7] 16).begin_ + 2 + [21, 22].length)).2.contents
      = (of_list [5, 6, 7] 16).contents :=
  have h := erase_undoes_insert (of_list [5, 6, 7] 16) 2 9 [21, 22] (by decide) (by decide)
  ⟨⟨by decide, by decide, by decide, by decide⟩, (h.1 (by decide)).1, (h.2 (by decide)).1⟩

theorem internal_size_uint32 (hC : Capacity ≤ 4294967295) :
    internal_size Capacity = 4294967296 := by
  unfold internal_size
  rw [if_pos hC]

/-- C34: for `Capacity ≤ 2^32 - 1` the counter `_size` is a `uint32_t`, and the
count and fill constructors initialise it with the 64-bit count reduced modulo
`2^32` before `_check_count_ctor` runs.  The check compares the 64-bit count: for
every count `c > Capacity`, also when `c mod 2^32 ≤ Capacity`, the constructor
throws `static_vector_full` and touches no slot; for every `c ≤ Capacity` the
stored size is `c`.  Likewise `resize( c )` stores `c` or throws and leaves the
vector unchanged, and the range `insert` stores `size() + |r|` or throws and
leaves the vector unchanged: the counter never wraps. -/
theorem size_counter_no_wrap [Inhabited T] [Movable T] (mem : Nat → Slot T)
    (s : static_vector T Capacity) (c : Nat) (v : T) (p : Nat) (r : List T)
    (hC : Capacity ≤ 4294967295) (hc : c < size_t_mod) :
    internal_size Capacity = 4294967296 ∧
    (Capacity < c →
      (ctor_count Capacity mem c).1 = .error .static_vector_full ∧
      (ctor_count Capacity mem c).2._size = c % 4294967296 ∧
      (ctor_count Capacity mem c).2._data = mem ∧
      (ctor_fill Capacity mem c v).1 = .error .static_vector_full ∧
      (ctor_fill Capacity mem c v).2._size = c % 4294967296 ∧
      (ctor_fill Capacity mem c v).2._data = mem) ∧
    (c ≤ Capacity →
      (ctor_count Capacity mem c).1 = .ok () ∧ (ctor_count Capacity mem c).2.size = c ∧
      (ctor_fill Capacity mem c v).1 = .ok () ∧ (ctor_fill Capacity mem c v).2.size = c) ∧
    (c ≤ Capacity → (s.resize c).1 = .ok () ∧ (s.resize c).2.size = c) ∧
    (Capacity < c → s.resize c = (.error .static_vector_full, s)) ∧
    (s.size + r.length ≤ Capacity →
      (s.insert_range p r).2.size = s.size + r.length) ∧
    (s.size ≤ Capacity → r.length ≤ ptrdiff_max → Capacity < s.size + r.length →
      s.insert_range p r = (.error .static_vector_full, s)) := by
  have hM := internal_size_uint32 hC
  have hN : Capacity < size_t_mod := by unfold size_t_mod; omega
  unfold size
  refine ⟨hM, ?_, ?_, ?_, ?_, ?_, ?_⟩
  · intro h
    simp only [ctor_count, ctor_fill, _check_count_ctor]
    rw [if_pos h, hM]
    exact ⟨rfl, rfl, rfl, rfl, rfl, rfl⟩
  · intro h
    rw [ctor_count_state mem c hN h, ctor_fill_state mem c v hN h]
    exact ⟨rfl, uninitialized_copy_size _ _ _, rfl, uninitialized_copy_size _ _ _⟩
  · intro h
    exact ⟨by rw [resize_state s c h hN], resize_size s c h hN⟩
  · intro h
    simp only [resize, _resize]
    rw [if_pos h]
  · intro h
    exact insert_range_size s p r hN h
  · intro hs hr h
    unfold ptrdiff_max at hr
    have e1 : r.length % size_t_mod = r.length :=
      Nat.mod_eq_of_lt (by unfold size_t_mod; omega)
    have e2 : (s._size + r.length) % size_t_mod = s._size + r.length :=
      Nat.mod_eq_of_lt (by unfold size_t_mod; omega)
    unfold insert_range
    simp only [e1, e2]
    rw [if_neg (by omega), if_pos (by omega)]

theorem size_counter_no_wrap_witness :
    ((16 : Nat) ≤ 4294967295 ∧ 4294967299 < size_t_mod ∧ 16 < 4294967299 ∧
      4294967299 % 4294967296 ≤ 16) ∧
    (ctor_count 16 (fresh (fun _ => (0 : Int))) 4294967299).1 = .error .static_vector_full ∧
    (ctor_count 16 (fresh (fun _ => (0 : Int))) 4294967299).2._size = 4294967299 % 4294967296 ∧
    (ctor_count 16 (fresh (fun _ => (0 : Int))) 4294967299).2._data
      = fresh (fun _ => (0 : Int)) ∧
    (of_list [1, 2] 16).resize 4294967299 = (.error .static_vector_full, of_list [1, 2] 16) :=
  have h := size_counter_no_wrap (fresh (fun _ => (0 : Int))) (of_list [1, 2] 16) 4294967299
    (0 : Int) 0 [] (show (16 : Nat) ≤ 4294967295 by decide) (by decide)
  ⟨⟨by decide, by decide, by decide, by decide⟩, (h.2.1 (by decide)).1, (h.2.1 (by decide)).2.1,
    (h.2.1 (by decide)).2.2.1, h.2.2.2.2.1 (by decide)⟩

/-- Every slot after a successful `try_emplace` before `end()`. -/
theorem try_emplace_shift_slot [Movable T] (s : static_vector T Capacity) (k : Nat) (x : T)
    (hN : Capacity < size_t_mod) (hs : s._size < Capacity) (hk : k < s._size) (i : Nat) :
    (s.try_emplace k x).2._data i =
      if i = k then
        { s._data i with
          v := x
          constructed := (s._data i).constructed + 1
          destructed := (s._data i).destructed + 1
          moved_from := if i + 1 < s._size then (s._data i).moved_from + 1
                        else (s._data i).moved_from }
      else if k < i ∧ i < s._size then
        { s._data i with
          v := (s._data (i - 1)).v
          moved_to := (s._data i).moved_to + 1
          moved_from := if i + 1 < s._size then (s._data i).moved_from + 1
                        else (s._data i).moved_from }
      else if i = s._size then
        { s._data i with
          v := (s._data (i - 1)).v
          constructed := (s._data i).constructed + 1 }
      else s._data i := by
  rw [try_emplace_shift s k x hN hs hk]
  simp only [construct_at, destroy_at, Function.update_apply,
    move_backward_n_data _ _ _ _ (show s._size - 1 - k ≤ s._size - 1 by omega)
    (show s._size - 1 < s._size by omega),
    uninitialized_move_n_data _ _ _ _ (show s._size - 1 + 1 ≤ s._size by omega)]
  rcases Nat.lt_or_ge i k with h1 | h1
  · simp (disch := omega) only [if_pos, if_neg]
  rcases Nat.lt_or_ge i (k + 1) with h2 | h2
  · have e : i = k := by omega
    subst e
    rcases Nat.lt_or_ge (i + 1) s._size with h3 | h3
    · simp (disch := omega) only [if_pos, if_neg, if_true]
    · simp (disch := omega) only [if_pos, if_neg, if_true]
  rcases Nat.lt_or_ge (i + 1) s._size with h3 | h3
  · simp (disch := omega) only [if_pos, if_neg]
    congr 3; omega
  rcases Nat.lt_or_ge i s._size with h4 | h4
  · simp (disch := omega) only [if_pos, if_neg]
    congr 3; omega
  rcases Nat.lt_or_ge i (s._size + 1) with h5 | h5
  · have e : i = s._size := by omega
    subst e
    simp (disch := omega) only [if_pos, if_neg]
    congr 3; omega
  · simp (disch := omega) only [if_pos, if_neg]

/-- Every slot after a successful `try_emplace` at `end()`. -/
theorem try_emplace_at_end_slot [Movable T] (s : static_vector T Capacity) (x : T)
    (hN : Capacity < size_t_mod) (hs : s._size < Capacity) (i : Nat) :
    (s.try_emplace s._size x).2._data i =
      if i = s._size then
        { s._data i with v := x, constructed := (s._data i).constructed + 1 }
      else s._data i := by
  rw [try_emplace_at_end s x hN hs]
  simp only [construct_at, Function.update_apply]
  split_ifs with h
  · subst h; rfl
  · rfl

/-- Every slot after `erase( first, last )`. -/
theorem erase_range_slot [Movable T] (s : static_vector T Capacity) (f l : Nat)
    (hN : Capacity < size_t_mod) (hs : s._size ≤ Capacity) (hf : f ≤ l) (hl : l ≤ s._size)
    (i : Nat) :
    (s.erase_range f l).2._data i =
      if f ≤ i ∧ i < s._size - (l - f) then
        { s._data i with
          v := (s._data (i + (l - f))).v
          moved_to := (s._data i).moved_to + 1
          moved_from := if l ≤ i then (s._data i).moved_from + 1 else (s._data i).moved_from }
      else if s._size - (l - f) ≤ i ∧ i < s._size then
        { s._data i with
          v := if l ≤ i then Movable.moved_from (s._data i).v else (s._data i).v
          moved_from := if l ≤ i then (s._data i).moved_from + 1 else (s._data i).moved_from
          destructed := (s._data i).destructed + 1 }
      else s._data i := by
  rw [erase_range_state s f l hN hs hf hl]
  simp only [destroy_n_data, move_n_data _ _ _ _ hf]
  rcases Nat.lt_or_ge i f with h1 | h1
  · simp (disch := omega) only [if_pos, if_neg]
  rcases Nat.lt_or_ge i (s._size - (l - f)) with h2 | h2
  · rcases Nat.lt_or_ge i l with h3 | h3
    · simp (disch := omega) only [if_pos, if_neg]
    · simp (disch := omega) only [if_pos, if_neg]
  rcases Nat.lt_or_ge i s._size with h4 | h4
  · rcases Nat.lt_or_ge i l with h3 | h3
    · simp (disch := omega) only [if_pos, if_neg]
    · simp (disch := omega) only [if_pos, if_neg]
  · simp (disch := omega) only [if_pos, if_neg]

/-- C31: on a valid vector, with the lifetime of every slot tracked by its
counters.  A successful `try_emplace` at an offset `k < size()` move-constructs the
last element into the slot at `end()`, which held no object (one construction
there, the value of the old last element), move-assigns the elements of
`[k, size() - 1)` one slot to the right (one `moved_to` in every slot of
`(k, size())`, one `moved_from` in every slot of `[k, size() - 1)`), destroys the
slot at `k` and constructs the new element in it (one destruction and one
construction there), and changes no other slot and no other counter; at
`k == size()` it performs the single construction at `end()`.  The call
`erase( first, last )` move-assigns the suffix `[last, size())` to `first` on and
destroys exactly the last `last - first` live slots, with no construction.  After
either call the slots below the new size are constructed once more than destroyed
and the slots from the new size up to the capacity are balanced, and no lifetime
fault was committed. -/
theorem try_emplace_erase_lifetime [Movable T] (s : static_vector T Capacity) (k : Nat)
    (x : T) (f l : Nat) (hN : Capacity < size_t_mod) (hs : s.wf) :
    (s.size < Capacity → k < s.size →
      (s._data s.size).dead ∧
      (∀ i, (s.try_emplace k x).2._data i =
        if i = k then
          { s._data i with
            v := x
            constructed := (s._data i).constructed + 1
            destructed := (s._data i).destructed + 1
            moved_from := if i + 1 < s.size then (s._data i).moved_from + 1
                          else (s._data i).moved_from }
        else if k < i ∧ i < s.size then
          { s._data i with
            v := (s._data (i - 1)).v
            moved_to := (s._data i).moved_to + 1
            moved_from := if i + 1 < s.size then (s._data i).moved_from + 1
                          else (s._data i).moved_from }
        else if i = s.size then
          { s._data i with
            v := (s._data (i - 1)).v
            constructed := (s._data i).constructed + 1 }
        else s._data i) ∧
      (s.try_emplace k x).2.size = s.size + 1 ∧
      (s.try_emplace k x).2.wf ∧ (s.try_emplace k x).2.faults = s.faults) ∧
    (s.size < Capacity →
      (∀ i, (s.try_emplace s.size x).2._data i =
        if i = s.size then
          { s._data i with v := x, constructed := (s._data i).constructed + 1 }
        else s._data i) ∧
      (s.try_emplace s.size x).2.size = s.size + 1 ∧
      (s.try_emplace s.size x).2.wf ∧ (s.try_emplace s.size x).2.faults = s.faults) ∧
    (f ≤ l → l ≤ s.size →
      (∀ i, (s.erase_range f l).2._data i =
        if f ≤ i ∧ i < s.size - (l - f) then
          { s._data i with
            v := (s._data (i + (l - f))).v
            moved_to := (s._data i).moved_to + 1
            moved_from := if l ≤ i then (s._data i).moved_from + 1
                          else (s._data i).moved_from }
        else if s.size - (l - f) ≤ i ∧ i < s.size then
          { s._data i with
            v := if l ≤ i then Movable.moved_from (s._data i).v else (s._data i).v
            moved_from := if l ≤ i then (s._data i).moved_from + 1
                          else (s._data i).moved_from
            destructed := (s._data i).destructed + 1 }
        else s._data i) ∧
      (s.erase_range f l).2.size = s.size - (l - f) ∧
      (s.erase_range f l).2.wf ∧ (s.erase_range f l).2.faults = s.faults) := by
  unfold size
  have hle := hs.size_le
  refine ⟨?_, ?_, ?_⟩
  · intro hf hk
    obtain ⟨h1, h2⟩ := try_emplace_wf_faults s k x hN hs hf (by omega)
    exact ⟨hs.dead _ (le_refl _) hf, try_emplace_shift_slot s k x hN hf hk,
      try_emplace_size s k x hN hf (by omega), h1, h2⟩
  · intro hf
    obtain ⟨h1, h2⟩ := try_emplace_wf_faults s s._size x hN hs hf (le_refl _)
    exact ⟨try_emplace_at_end_slot s x hN hf, try_emplace_size s s._size x hN hf (le_refl _),
      h1, h2⟩
  · intro hf hl
    obtain ⟨h1, h2⟩ := erase_range_wf_faults s f l hN hs hf hl
    refine ⟨erase_range_slot s f l hN hle hf hl, ?_, h1, h2⟩
    rw [erase_range_state s f l hN hle hf hl]

theorem try_emplace_erase_lifetime_witness :
    (16 < size_t_mod ∧ (of_list [5, 6, 7] 16).size < 16 ∧ 1 < (of_list [5, 6, 7] 16).size ∧
      1 ≤ 2 ∧ 2 ≤ (of_list [5, 6, 7] 16).size) ∧
    ((of_list [5, 6, 7] 16).try_emplace 1 (9 : Int)).2.wf ∧
    ((of_list [5, 6, 7] 16).try_emplace 1 (9 : Int)).2.faults = (of_list [5, 6, 7] 16).faults ∧
    ((of_list [5, 6, 7] 16).erase_range 1 2).2.wf ∧
    ((of_list [5, 6, 7] 16).erase_range 1 2).2.size = (of_list [5, 6, 7] 16).size - (2 - 1) ∧
    (((of_list [5, 6, 7] 16).try_emplace 1 (9 : Int)).2._data 1).destructed = 1 ∧
    (((of_list [5, 6, 7] 16).try_emplace 1 (9 : Int)).2._data 3).constructed = 1 ∧
    (((of_list [5, 6, 7] 16).erase_range 1 2).2._data 2).destructed = 1 :=
  have h := try_emplace_erase_lifetime (of_list [5, 6, 7] 16) 1 9 1 2 (by decide)
    (of_list_wf [5, 6, 7] (by decide))
  ⟨⟨by decide, by decide, by decide, by decide, by decide⟩,
    (h.1 (by decide) (by decide)).2.2.2.1, (h.1 (by decide) (by decide)).2.2.2.2,
    (h.2.2 (by decide) (by decide)).2.2.1, (h.2.2 (by decide) (by decide)).2.1,
    by decide, by decide, by decide⟩

theorem try_emplace_throws_value_before [Movable T] (s : static_vector T Capacity) (p i : Nat)
    (hN : Capacity < size_t_mod) (hs : s._size < Capacity) (hp : p ≤ s._size) (hi : i < p) :
    ((s.try_emplace_throws p)._data i).v = (s._data i).v := by
  rcases Nat.lt_or_ge p s._size with h | h
  · rw [try_emplace_throws_shift s p hN hs h]
    show ((((s.uninitialized_move_n (s._size - 1) 1 s._size).move_backward_n
        (s._size - 1 - p) (s._size - 1) s._size).destroy_at p)._data i).v = _
    simp only [destroy_at, Function.update_apply,
      move_backward_n_data _ _ _ _ (show s._size - 1 - p ≤ s._size - 1 by omega)
      (show s._size - 1 < s._size by omega),
      uninitialized_move_n_data _ _ _ _ (show s._size - 1 + 1 ≤ s._size by omega)]
    simp (disch := omega) only [if_pos, if_neg]
  · have e : p = s._size := by omega
    subst e
    rw [try_emplace_throws_at_end s hN hs]

/-- With an lvalue reference to an element before `pos` as argument, `try_emplace`
leaves the slots and the size that it leaves with the value of that element as
argument. -/
theorem try_emplace_lref_before [Movable T] (s : static_vector T Capacity) (k j : Nat)
    (hN : Capacity < size_t_mod) (hs : s._size < Capacity) (hk : k ≤ s._size) (hj : j < k) :
    (s.try_emplace k (.lref j)).1 = (s.try_emplace k (s._data j).v).1 ∧
    (s.try_emplace k (.lref j)).2._data = (s.try_emplace k (s._data j).v).2._data ∧
    (s.try_emplace k (.lref j)).2._size = (s.try_emplace k (s._data j).v).2._size := by
  rw [try_emplace_eq_throws s k (.lref j) (by omega),
    try_emplace_eq_throws s k (Arg.val (s._data j).v) (by omega)]
  refine ⟨rfl, ?_, rfl⟩
  show Function.update _ _ _ = Function.update _ _ _
  rw [try_emplace_throws_value_before s k j hN hs hk hj]

/-- C3, as stated, fails: the argument is taken by reference and read after the
tail has been shifted.  On `{ 0, 1, 2, 3, 4 }` (capacity 16),
`try_emplace( begin() + 1, v[ 3 ] )` with the value `x = 3` of `v[ 3 ]` leaves
`{ 0, 2, 1, 2, 3, 4 }` and an iterator that dereferences to 2, not
`{ 0, 3, 1, 2, 3, 4 }` and 3. -/
theorem try_emplace_alias_counterexample :
    ((of_list [0, 1, 2, 3, 4] 16).size < 16 ∧ 1 ≤ (of_list [0, 1, 2, 3, 4] 16).size ∧
      (Arg.lref 3).read (of_list [0, 1, 2, 3, 4] 16) = 3) ∧
    ((of_list [0, 1, 2, 3, 4] 16).try_emplace ((of_list [0, 1, 2, 3, 4] 16).begin_ + 1)
      (.lref 3)).2.contents = [0, 2, 1, 2, 3, 4] ∧
    ¬ (((of_list [0, 1, 2, 3, 4] 16).try_emplace ((of_list [0, 1, 2, 3, 4] 16).begin_ + 1)
        (.lref 3)).2.contents
      = (of_list [0, 1, 2, 3, 4] 16).contents.take 1
          ++ [(Arg.lref 3).read (of_list [0, 1, 2, 3, 4] 16)]
          ++ (of_list [0, 1, 2, 3, 4] 16).contents.drop 1) ∧
    ¬ (((of_list [0, 1, 2, 3, 4] 16).try_emplace ((of_list [0, 1, 2, 3, 4] 16).begin_ + 1)
        (.lref 3)).2.deref ((of_list [0, 1, 2, 3, 4] 16).begin_ + 1)
      = (Arg.lref 3).read (of_list [0, 1, 2, 3, 4] 16)) := by
  decide

/-- C3, amended: for contents `v` with `|v| < Capacity`, an offset `k ≤ |v|` and
an argument that is an object outside the vector or an lvalue reference to an
element of `v` before offset `k`, with `x` the value the argument has when the call
is made: `try_emplace( begin() + k, x )` returns the iterator at offset `k`, which
dereferences to `x`, and leaves the contents `v[0..k) ++ [x] ++ v[k..|v|)` with
size `|v| + 1`. -/
theorem try_emplace_correct [Movable T] (s : static_vector T Capacity) (k : Nat) (a : Arg T)
    (hN : Capacity < size_t_mod) (hs : s.size < Capacity) (hk : k ≤ s.size)
    (ha : a.before (s.begin_ + k)) :
    (s.try_emplace (s.begin_ + k) a).1 = some (s.begin_ + k) ∧
    (s.try_emplace (s.begin_ + k) a).2.deref (s.begin_ + k) = a.read s ∧
    (s.try_emplace (s.begin_ + k) a).2.contents
      = s.contents.take k ++ [a.read s] ++ s.contents.drop k ∧
    (s.try_emplace (s.begin_ + k) a).2.size = s.size + 1 := by
  unfold size at *
  simp only [begin_, Nat.zero_add] at *
  have hval : ∀ x : T,
      (s.try_emplace k x).1 = some k ∧ (s.try_emplace k x).2.deref k = x ∧
      (s.try_emplace k x).2.contents = s.contents.take k ++ [x] ++ s.contents.drop k ∧
      (s.try_emplace k x).2._size = s._size + 1 := by
    intro x
    refine ⟨try_emplace_some s k x (by omega), ?_, try_emplace_contents s k x hN hs hk,
      try_emplace_size s k x hN hs hk⟩
    rw [try_emplace_eq_throws s k x (by omega)]
    simp [deref, construct_from, construct_at]
  cases a with
  | val x => exact hval x
  | lref j =>
    have hj : j < k := ha
    obtain ⟨e1, e2, e3⟩ := try_emplace_lref_before s k j hN hs hk hj
    obtain ⟨h1, h2, h3, h4⟩ := hval (s._data j).v
    refine ⟨by rw [e1]; exact h1, ?_, ?_, by rw [e3]; exact h4⟩
    · show ((s.try_emplace k (.lref j)).2._data k).v = (s._data j).v
      rw [e2]; exact h2
    · show (s.try_emplace k (.lref j)).2.contents
        = s.contents.take k ++ [(s._data j).v] ++ s.contents.drop k
      rw [← h3]
      unfold contents
      rw [e2, e3]
  | rref j => exact absurd ha (fun h => h)

theorem try_emplace_correct_witness :
    (16 < size_t_mod ∧ (of_list [0, 1, 2, 3, 4] 16).size < 16 ∧
      2 ≤ (of_list [0, 1, 2, 3, 4] 16).size ∧
      (Arg.lref 1 : Arg Int).before ((of_list [0, 1, 2, 3, 4] 16).begin_ + 2)) ∧
    ((of_list [0, 1, 2, 3, 4] 16).try_emplace ((of_list [0, 1, 2, 3, 4] 16).begin_ + 2)
      (.val 7)).2.contents
      = (of_list [0, 1, 2, 3, 4] 16).contents.take 2 ++ [7]
          ++ (of_list [0, 1, 2, 3, 4] 16).contents.drop 2 ∧
    ((of_list [0, 1, 2, 3, 4] 16).try_emplace ((of_list [0, 1, 2, 3, 4] 16).begin_ + 2)
      (.lref 1)).2.contents
      = (of_list [0, 1, 2, 3, 4] 16).contents.take 2
          ++ [(Arg.lref 1).read (of_list [0, 1, 2, 3, 4] 16)]
          ++ (of_list [0, 1, 2, 3, 4] 16).contents.drop 2 ∧
    ((of_list [0, 1, 2, 3, 4] 16).try_emplace ((of_list [0, 1, 2, 3, 4] 16).begin_ + 2)
      (.lref 1)).2.contents = [0, 1, 1, 2, 3, 4] :=
  have hb : (Arg.lref 1 : Arg Int).before ((of_list [0, 1, 2, 3, 4] 16).begin_ + 2) :=
    show 1 < (of_list [0, 1, 2, 3, 4] 16).begin_ + 2 by decide
  ⟨⟨by decide, by decide, by decide, hb⟩,
   (try_emplace_correct (of_list [0, 1, 2, 3, 4] 16) 2 (.val 7) (by decide) (by decide)
     (by decide) trivial).2.2.1,
   (try_emplace_correct (of_list [0, 1, 2, 3, 4] 16) 2 (.lref 1) (by decide) (by decide)
     (by decide) hb).2.2.1, by decide⟩

end static_vector

/-! Theorems on `blist`. -/

namespace Node

variable {T : Type}

theorem set_parent_count (n : Node T) (p : Option Nat) (k : Nat) :
    (n.set_parent p k).count = n.count := by
  cases n <;> rfl

theorem set_parent_subtree_size (n : Node T) (p : Option Nat) (k : Nat) :
    (n.set_parent p k).subtree_size = n.subtree_size := by
  cases n <;> rfl

theorem set_parent_contents (h : Nat) (n : Node T) (p : Option Nat) (k : Nat) :
    (n.set_parent p k).contents h = n.contents h := by
  cases n <;> cases h <;> rfl

theorem set_parent_shape (N h : Nat) (n : Node T) (p : Option Nat) (k : Nat) :
    (n.set_parent p k).shape N h ↔ n.shape N h := by
  cases n <;> cases h <;> rfl

theorem set_parent_parent (n : Node T) (p : Option Nat) (k : Nat) :
    (n.set_parent p k).parent_ = p := by
  cases n <;> rfl

theorem set_parent_parent_index (n : Node T) (p : Option Nat) (k : Nat) :
    (n.set_parent p k).parent_index_ = k := by
  cases n <;> rfl

theorem shape_internal (N h id : Nat) (p : Option Nat) (pi : Nat) (cs : List (Nat × Node T)) :
    (internal id p pi cs).shape N (h + 1) ↔
      cs.length ≤ N ∧ linked id 0 cs ∧ children_ok N h cs := Iff.rfl

theorem relink_length (id : Nat) (cs : List (Nat × Node T)) :
    ∀ k, (relink id k cs).length = cs.length := by
  induction cs with
  | nil => intro k; rfl
  | cons c cs ih => intro k; simp [relink, ih]

theorem relink_map_fst (id : Nat) (cs : List (Nat × Node T)) :
    ∀ k, (relink id k cs).map Prod.fst = cs.map Prod.fst := by
  induction cs with
  | nil => intro k; rfl
  | cons c cs ih => intro k; simp [relink, ih]

theorem relink_contents (h id : Nat) (cs : List (Nat × Node T)) :
    ∀ k, children_contents h (relink id k cs) = children_contents h cs := by
  induction cs with
  | nil => intro k; rfl
  | cons c cs ih =>
    intro k
    have := ih (k + 1)
    simp only [children_contents] at *
    simp [relink, this, set_parent_contents]

theorem linked_relink (id : Nat) (cs : List (Nat × Node T)) :
    ∀ k, linked id k (relink id k cs) := by
  induction cs with
  | nil => intro k; trivial
  | cons c cs ih =>
    intro k
    exact ⟨set_parent_parent _ _ _, set_parent_parent_index _ _ _, ih (k + 1)⟩

theorem linked_set (id : Nat) (cs : List (Nat × Node T)) :
    ∀ (k j : Nat) (c e : Nat × Node T), linked id k cs → cs[j]? = some c →
      e.2.parent_ = c.2.parent_ → e.2.parent_index_ = c.2.parent_index_ →
      linked id k (cs.set j e) := by
  induction cs with
  | nil => intro k j c e _ hc; simp at hc
  | cons d cs ih =>
    intro k j c e hl hc hp hpi
    cases j with
    | zero =>
      simp only [List.getElem?_cons_zero, Option.some.injEq] at hc
      subst hc
      exact ⟨hp.trans hl.1, hpi.trans hl.2.1, hl.2.2⟩
    | succ j =>
      simp only [List.getElem?_cons_succ] at hc
      exact ⟨hl.1, hl.2.1, ih (k + 1) j c e hl.2.2 hc hp hpi⟩

theorem relink_children_ok (N h id : Nat) (cs : List (Nat × Node T)) :
    ∀ k, children_ok N h cs → children_ok N h (relink id k cs) := by
  induction cs with
  | nil => intro k _; exact fun c hc => by simp [relink] at hc
  | cons c cs ih =>
    intro k hok d hd
    simp only [relink, List.mem_cons] at hd
    rcases hd with hd | hd
    · subst hd
      have := hok c (List.mem_cons_self _ _)
      simpa [set_parent_subtree_size, set_parent_count, set_parent_shape] using this
    · exact ih (k + 1) (fun e he => hok e (List.mem_cons_of_mem _ he)) d hd

theorem mk_internal_count (id : Nat) (p : Option Nat) (pi : Nat) (cs : List (Nat × Node T)) :
    (mk_internal id p pi cs).count = cs.length := by
  simp [mk_internal, count, relink_length]

theorem mk_internal_subtree_size (id : Nat) (p : Option Nat) (pi : Nat)
    (cs : List (Nat × Node T)) :
    (mk_internal id p pi cs).subtree_size = (cs.map Prod.fst).sum := by
  simp [mk_internal, subtree_size, relink_map_fst]

theorem mk_internal_contents (h id : Nat) (p : Option Nat) (pi : Nat)
    (cs : List (Nat × Node T)) :
    (mk_internal id p pi cs).contents (h + 1) = children_contents h cs := by
  rw [← relink_contents h id cs 0]; rfl

theorem mk_internal_shape (N h id : Nat) (p : Option Nat) (pi : Nat)
    (cs : List (Nat × Node T)) (hl : cs.length ≤ N) (hok : children_ok N h cs) :
    (mk_internal id p pi cs).shape N (h + 1) := by
  refine ⟨?_, linked_relink id cs 0, relink_children_ok N h id cs 0 hok⟩
  rw [relink_length]; exact hl

theorem mk_internal_parent (id : Nat) (p : Option Nat) (pi : Nat) (cs : List (Nat × Node T)) :
    (mk_internal id p pi cs).parent_ = p := rfl

theorem children_contents_nil (h : Nat) : children_contents h ([] : List (Nat × Node T)) = [] :=
  rfl

theorem children_contents_cons (h : Nat) (c : Nat × Node T) (cs : List (Nat × Node T)) :
    children_contents h (c :: cs) = c.2.contents h ++ children_contents h cs := by
  simp [children_contents]

theorem children_contents_append (h : Nat) (as bs : List (Nat × Node T)) :
    children_contents h (as ++ bs) = children_contents h as ++ children_contents h bs := by
  simp [children_contents]

theorem children_ok_append (N h : Nat) (as bs : List (Nat × Node T)) :
    children_ok N h (as ++ bs) ↔ children_ok N h as ∧ children_ok N h bs := by
  simp only [children_ok, List.mem_append]
  constructor
  · intro H; exact ⟨fun c hc => H c (Or.inl hc), fun c hc => H c (Or.inr hc)⟩
  · rintro ⟨H1, H2⟩ c (hc | hc)
    · exact H1 c hc
    · exact H2 c hc

theorem children_ok_cons (N h : Nat) (c : Nat × Node T) (cs : List (Nat × Node T)) :
    children_ok N h (c :: cs) ↔
      (c.1 = c.2.subtree_size ∧ N / 2 ≤ c.2.count ∧ shape N h c.2) ∧ children_ok N h cs := by
  simp only [children_ok, List.mem_cons]
  constructor
  · intro H; exact ⟨H c (Or.inl rfl), fun d hd => H d (Or.inr hd)⟩
  · rintro ⟨H1, H2⟩ d (hd | hd)
    · subst hd; exact H1
    · exact H2 d hd

theorem children_ok_take (N h : Nat) (cs : List (Nat × Node T)) (k : Nat)
    (hok : children_ok N h cs) : children_ok N h (cs.take k) :=
  fun c hc => hok c (List.mem_of_mem_take hc)

theorem children_ok_drop (N h : Nat) (cs : List (Nat × Node T)) (k : Nat)
    (hok : children_ok N h cs) : children_ok N h (cs.drop k) :=
  fun c hc => hok c (List.mem_of_mem_drop hc)

/-- The cached size of a well shaped node is the number of elements below it. -/
theorem shape_subtree_size (N : Nat) :
    ∀ (h : Nat) (n : Node T), n.shape N h → n.subtree_size = (n.contents h).length := by
  intro h
  induction h with
  | zero =>
    intro n hn
    cases n with
    | leaf id p pi es => rfl
    | internal id p pi cs => exact absurd hn (by simp [shape])
  | succ h ih =>
    intro n hn
    cases n with
    | leaf id p pi es => exact absurd hn (by simp [shape])
    | internal id p pi cs =>
      obtain ⟨_, _, hok⟩ := hn
      simp only [subtree_size, contents]
      clear * - hok ih
      induction cs with
      | nil => rfl
      | cons c cs ihc =>
        have h1 := hok c (List.mem_cons_self _ _)
        simp only [List.map_cons, List.sum_cons, List.flatten_cons, List.length_append]
        rw [ihc (fun d hd => hok d (List.mem_cons_of_mem _ hd)), h1.1, ih c.2 h1.2.2]

theorem children_ok_sum (N h : Nat) (cs : List (Nat × Node T)) (hok : children_ok N h cs) :
    (cs.map Prod.fst).sum = (children_contents h cs).length := by
  induction cs with
  | nil => rfl
  | cons c cs ih =>
    rw [children_ok_cons] at hok
    rw [children_contents_cons, List.length_append, List.map_cons, List.sum_cons, ih hok.2,
      hok.1.1, shape_subtree_size N h c.2 hok.1.2.2]

theorem emplace_at_length {α : Type} (l : List α) (k : Nat) (x : α) :
    (emplace_at l k x).length = l.length + 1 := by
  simp only [emplace_at, List.length_append, List.length_cons, List.length_take, List.length_drop]
  omega

theorem erase_at_length {α : Type} (l : List α) (k : Nat) (hk : k < l.length) :
    (erase_at l k).length = l.length - 1 := by
  simp only [erase_at, List.length_append, List.length_take, List.length_drop]
  omega

theorem emplace_at_middle {α : Type} (a b c : List α) (k : Nat) (x : α) (hk : k ≤ b.length) :
    emplace_at (a ++ b ++ c) (a.length + k) x = a ++ emplace_at b k x ++ c := by
  simp only [emplace_at]
  rw [List.append_assoc, List.take_append, List.drop_append, List.take_append_of_le_length hk,
    List.drop_append_of_le_length hk]
  simp

theorem erase_at_middle {α : Type} (a b c : List α) (k : Nat) (hk : k < b.length) :
    erase_at (a ++ b ++ c) (a.length + k) = a ++ erase_at b k ++ c := by
  simp only [erase_at]
  rw [List.append_assoc, List.take_append, Nat.add_assoc, List.drop_append,
    List.take_append_of_le_length (Nat.le_of_lt hk),
    List.drop_append_of_le_length (show k + 1 ≤ b.length from hk)]
  simp

theorem erase_at_eq_eraseIdx {α : Type} (l : List α) (k : Nat) : erase_at l k = l.eraseIdx k := by
  rw [erase_at, List.eraseIdx_eq_take_drop_succ]

theorem list_split_at {α : Type} (l : List α) (j : Nat) (c : α) (hc : l[j]? = some c) :
    l = l.take j ++ c :: l.drop (j + 1) := by
  have hj : j < l.length := by
    rcases Nat.lt_or_ge j l.length with h | h
    · exact h
    · rw [List.getElem?_eq_none h] at hc; cases hc
  rw [List.getElem?_eq_getElem hj] at hc
  injection hc with hc
  subst hc
  rw [← List.drop_eq_getElem_cons hj, List.take_append_drop]

theorem list_set_split {α : Type} (l : List α) (j : Nat) (e : α) (hj : j < l.length) :
    l.set j e = l.take j ++ e :: l.drop (j + 1) := by
  rw [List.set_eq_take_append_cons_drop, if_pos hj]

theorem locate_spec (cs : List (Nat × Node T)) :
    ∀ i, cs ≠ [] → i ≤ (cs.map Prod.fst).sum →
      ∃ c, cs[(locate cs i).1]? = some c ∧ (locate cs i).2 ≤ c.1 ∧
        ((cs.take (locate cs i).1).map Prod.fst).sum + (locate cs i).2 = i ∧
        (i < (cs.map Prod.fst).sum → (locate cs i).2 < c.1) := by
  induction cs with
  | nil => intro i h; exact absurd rfl h
  | cons c cs ih =>
    intro i _ hi
    cases cs with
    | nil =>
      refine ⟨c, ?_, ?_, ?_, ?_⟩ <;> simp_all [locate]
    | cons d cs =>
      simp only [locate]
      by_cases h : i < c.1
      · rw [if_pos h]
        refine ⟨c, by simp, by simp; omega, by simp, fun _ => h⟩
      · rw [if_neg h]
        simp only [List.map_cons, List.sum_cons] at hi
        obtain ⟨e, h1, h2, h3, h4⟩ := ih (i - c.1) (by simp)
          (by simp only [List.map_cons, List.sum_cons]; omega)
        refine ⟨e, ?_, h2, ?_, ?_⟩
        · simpa using h1
        · simp only [List.take_succ_cons, List.map_cons, List.sum_cons]
          omega
        · intro hlt
          apply h4
          simp only [List.map_cons, List.sum_cons] at hlt ⊢
          omega

/-- Decomposition of a child array around the located child, for insertion (the
position may be one past the last element). -/
theorem locate_children (N h : Nat) (cs : List (Nat × Node T)) (i : Nat)
    (hne : cs ≠ []) (hok : children_ok N h cs) (hi : i ≤ (children_contents h cs).length) :
    ∃ c, cs[(locate cs i).1]? = some c ∧ (locate cs i).1 < cs.length ∧
      (locate cs i).2 ≤ (c.2.contents h).length ∧
      (children_contents h (cs.take (locate cs i).1)).length + (locate cs i).2 = i ∧
      (i < (children_contents h cs).length → (locate cs i).2 < (c.2.contents h).length) ∧
      c.1 = (c.2.contents h).length ∧ N / 2 ≤ c.2.count ∧ c.2.shape N h ∧
      cs = cs.take (locate cs i).1 ++ c :: cs.drop ((locate cs i).1 + 1) := by
  rw [← children_ok_sum N h cs hok] at hi
  obtain ⟨c, h1, h2, h3, h4⟩ := locate_spec cs i hne hi
  have hj : (locate cs i).1 < cs.length := by
    rcases Nat.lt_or_ge (locate cs i).1 cs.length with h | h
    · exact h
    · rw [List.getElem?_eq_none h] at h1; cases h1
  have hc : c ∈ cs := List.getElem?_mem h1
  have hcok := hok c hc
  have hsz : c.1 = (c.2.contents h).length := by
    rw [hcok.1, shape_subtree_size N h c.2 hcok.2.2]
  refine ⟨c, h1, hj, by omega, ?_, ?_, hsz, hcok.2.1, hcok.2.2, list_split_at cs _ c h1⟩
  · rw [← children_ok_sum N h _ (children_ok_take N h cs _ hok)]; exact h3
  · intro hlt
    rw [← children_ok_sum N h cs hok] at hlt
    have := h4 hlt
    omega

theorem emplace_at_left {α : Type} (l r : List α) (k : Nat) (x : α) (hk : k ≤ l.length) :
    emplace_at (l ++ r) k x = emplace_at l k x ++ r := by
  have := emplace_at_middle [] l r k x hk
  simpa using this

theorem emplace_at_right {α : Type} (l r : List α) (k : Nat) (x : α) (hk : l.length ≤ k) :
    emplace_at (l ++ r) k x = l ++ emplace_at r (k - l.length) x := by
  simp only [emplace_at]
  rw [List.take_append_eq_append_take, List.drop_append_eq_append_drop,
    List.take_of_length_le hk, List.drop_of_length_le hk]
  simp

theorem half_facts (N : Nat) (hN : 4 ≤ N) (hE : N % 2 = 0) :
    N - N / 2 = N / 2 ∧ 2 ≤ N / 2 ∧ N / 2 + 1 ≤ N ∧ N / 2 + N / 2 = N := by
  omega

theorem insert_node_leaf_fit (N h id : Nat) (p : Option Nat) (pi : Nat) (es : List T)
    (k : Nat) (x : T) (nid : Nat) (hlt : es.length < N) :
    insert_node N h (leaf id p pi es) k x nid
      = ((leaf id p pi (emplace_at es k x), none), nid) := by
  cases h <;> simp [insert_node, hlt]

theorem insert_node_leaf_split (N h id : Nat) (p : Option Nat) (pi : Nat) (es : List T)
    (k : Nat) (x : T) (nid : Nat) (hge : ¬ es.length < N) :
    insert_node N h (leaf id p pi es) k x nid
      = if k ≤ N / 2 then
          ((leaf id p pi (emplace_at (es.take (es.length - N / 2)) k x),
            some (leaf nid p (pi + 1) (es.drop (es.length - N / 2)))), nid + 1)
        else
          ((leaf id p pi (es.take (es.length - N / 2)),
            some (leaf nid p (pi + 1)
              (emplace_at (es.drop (es.length - N / 2)) (k - N / 2) x))), nid + 1) := by
  cases h <;> simp [insert_node, hge]

theorem insert_node_internal (N h id : Nat) (p : Option Nat) (pi : Nat)
    (cs : List (Nat × Node T)) (i : Nat) (x : T) (nid : Nat) (c : Nat × Node T)
    (hc : cs[(locate cs i).1]? = some c) :
    insert_node N (h + 1) (internal id p pi cs) i x nid =
      match insert_node N h c.2 (locate cs i).2 x nid with
      | ((a, none), nid1) =>
        ((internal id p pi (cs.set (locate cs i).1 (c.1 + 1, a)), none), nid1)
      | ((a, some b), nid1) =>
        if cs.length < N then
          ((mk_internal id p pi
            (emplace_at (cs.set (locate cs i).1 (a.subtree_size, a)) ((locate cs i).1 + 1)
              (b.subtree_size, b)), none), nid1)
        else if (locate cs i).1 + 1 ≤ N / 2 then
          ((mk_internal id p pi
              (emplace_at ((cs.set (locate cs i).1 (a.subtree_size, a)).take
                ((cs.set (locate cs i).1 (a.subtree_size, a)).length - N / 2))
                ((locate cs i).1 + 1) (b.subtree_size, b)),
            some (mk_internal nid1 p (pi + 1)
              ((cs.set (locate cs i).1 (a.subtree_size, a)).drop
                ((cs.set (locate cs i).1 (a.subtree_size, a)).length - N / 2)))), nid1 + 1)
        else
          ((mk_internal id p pi
              ((cs.set (locate cs i).1 (a.subtree_size, a)).take
                ((cs.set (locate cs i).1 (a.subtree_size, a)).length - N / 2)),
            some (mk_internal nid1 p (pi + 1)
              (emplace_at ((cs.set (locate cs i).1 (a.subtree_size, a)).drop
                ((cs.set (locate cs i).1 (a.subtree_size, a)).length - N / 2))
                ((locate cs i).1 + 1 - N / 2) (b.subtree_size, b)))), nid1 + 1) := by
  simp only [insert_node, hc]

/-- The child array after a child was split: the entry of the left part replaces
that of the child, the entry of the right part follows it. -/
theorem promote_spec (N h : Nat) (cs : List (Nat × Node T)) (j : Nat) (c : Nat × Node T)
    (a b : Node T) (k : Nat) (x : T)
    (hok : children_ok N h cs) (hj : j < cs.length)
    (hsplit : cs = cs.take j ++ c :: cs.drop (j + 1))
    (ha : a.shape N h) (hb : b.shape N h) (hac : N / 2 ≤ a.count) (hbc : N / 2 ≤ b.count)
    (hab : a.contents h ++ b.contents h = emplace_at (c.2.contents h) k x)
    (hk : k ≤ (c.2.contents h).length) :
    emplace_at (cs.set j (a.subtree_size, a)) (j + 1) (b.subtree_size, b)
      = cs.take j ++ (a.subtree_size, a) :: (b.subtree_size, b) :: cs.drop (j + 1) ∧
    children_ok N h (emplace_at (cs.set j (a.subtree_size, a)) (j + 1) (b.subtree_size, b)) ∧
    children_contents h (emplace_at (cs.set j (a.subtree_size, a)) (j + 1) (b.subtree_size, b))
      = emplace_at (children_contents h cs)
          ((children_contents h (cs.take j)).length + k) x ∧
    (emplace_at (cs.set j (a.subtree_size, a)) (j + 1) (b.subtree_size, b)).length
      = cs.length + 1 := by
  have e1 : emplace_at (cs.set j (a.subtree_size, a)) (j + 1) (b.subtree_size, b)
      = cs.take j ++ (a.subtree_size, a) :: (b.subtree_size, b) :: cs.drop (j + 1) := by
    rw [list_set_split cs j _ hj]
    have hl : (cs.take j).length = j := by rw [List.length_take]; omega
    have := emplace_at_right (cs.take j) ((a.subtree_size, a) :: cs.drop (j + 1)) (j + 1)
      (b.subtree_size, b) (by omega)
    rw [this, hl]
    simp [emplace_at]
  refine ⟨e1, ?_, ?_, ?_⟩
  · rw [e1, children_ok_append, children_ok_cons, children_ok_cons]
    exact ⟨children_ok_take N h cs j hok, ⟨rfl, hac, ha⟩, ⟨rfl, hbc, hb⟩,
      children_ok_drop N h cs (j + 1) hok⟩
  · have hcc : children_contents h cs = children_contents h (cs.take j) ++ c.2.contents h
        ++ children_contents h (cs.drop (j + 1)) := by
      conv_lhs => rw [hsplit]
      rw [children_contents_append, children_contents_cons, List.append_assoc]
    rw [e1, hcc, emplace_at_middle _ _ _ k x hk, ← hab, children_contents_append,
      children_contents_cons, children_contents_cons]
    simp only [List.append_assoc]
  · rw [emplace_at_length, List.length_set]

theorem insert_node_spec (N : Nat) (hN : 4 ≤ N) (hE : N % 2 = 0) :
    ∀ (h : Nat) (n : Node T) (i : Nat) (x : T) (nid : Nat),
      n.shape N h → (0 < h → 0 < n.count) → i ≤ (n.contents h).length →
      (∀ a nid1, insert_node N h n i x nid = ((a, none), nid1) →
        a.shape N h ∧ a.contents h = emplace_at (n.contents h) i x ∧ n.count ≤ a.count ∧
        a.parent_ = n.parent_ ∧ a.parent_index_ = n.parent_index_) ∧
      (∀ a b nid1, insert_node N h n i x nid = ((a, some b), nid1) →
        a.shape N h ∧ b.shape N h ∧ N / 2 ≤ a.count ∧ N / 2 ≤ b.count ∧
        a.contents h ++ b.contents h = emplace_at (n.contents h) i x ∧
        a.parent_ = n.parent_ ∧ a.parent_index_ = n.parent_index_) := by
  obtain ⟨hf1, hf2, hf3, hf4⟩ := half_facts N hN hE
  intro h
  induction h with
  | zero =>
    intro n i x nid hs _ hi
    cases n with
    | internal id p pi cs => exact absurd hs (by simp [shape])
    | leaf id p pi es =>
      have hle : es.length ≤ N := hs
      simp only [contents] at hi ⊢
      by_cases hlt : es.length < N
      · rw [insert_node_leaf_fit N 0 id p pi es i x nid hlt]
        constructor
        · intro a nid1 heq
          simp only [Prod.mk.injEq, and_true] at heq
          obtain ⟨rfl, _⟩ := heq
          refine ⟨?_, rfl, ?_, rfl, rfl⟩
          · show (emplace_at es i x).length ≤ N
            rw [emplace_at_length]; omega
          · show es.length ≤ (emplace_at es i x).length
            rw [emplace_at_length]; omega
        · intro a b nid1 heq
          simp at heq
      · rw [insert_node_leaf_split N 0 id p pi es i x nid hlt]
        have hlen : es.length = N := by omega
        have e : es.length - N / 2 = N / 2 := by omega
        have htl : (es.take (N / 2)).length = N / 2 := by rw [List.length_take]; omega
        have hdl : (es.drop (N / 2)).length = N / 2 := by rw [List.length_drop]; omega
        rw [e]
        constructor
        · intro a nid1 heq
          split_ifs at heq <;> simp at heq
        · intro a b nid1 heq
          split_ifs at heq with hk
          · simp only [Prod.mk.injEq, Option.some.injEq] at heq
            obtain ⟨⟨rfl, rfl⟩, _⟩ := heq
            refine ⟨?_, ?_, ?_, ?_, ?_, rfl, rfl⟩
            · show (emplace_at _ i x).length ≤ N
              rw [emplace_at_length]; omega
            · show (es.drop (N / 2)).length ≤ N
              omega
            · show N / 2 ≤ (emplace_at _ i x).length
              rw [emplace_at_length]; omega
            · show N / 2 ≤ (es.drop (N / 2)).length
              omega
            · show emplace_at (es.take (N / 2)) i x ++ es.drop (N / 2) = emplace_at es i x
              rw [← emplace_at_left _ _ _ _ (by omega), List.take_append_drop]
          · simp only [Prod.mk.injEq, Option.some.injEq] at heq
            obtain ⟨⟨rfl, rfl⟩, _⟩ := heq
            refine ⟨?_, ?_, ?_, ?_, ?_, rfl, rfl⟩
            · show (es.take (N / 2)).length ≤ N
              omega
            · show (emplace_at _ _ x).length ≤ N
              rw [emplace_at_length]; omega
            · show N / 2 ≤ (es.take (N / 2)).length
              omega
            · show N / 2 ≤ (emplace_at _ _ x).length
              rw [emplace_at_length]; omega
            · show es.take (N / 2) ++ emplace_at (es.drop (N / 2)) (i - N / 2) x
                = emplace_at es i x
              have := emplace_at_right (es.take (N / 2)) (es.drop (N / 2)) i x (by omega)
              rw [List.take_append_drop, htl] at this
              exact this.symm
  | succ h ih =>
    intro n i x nid hs hc hi
    cases n with
    | leaf id p pi es => exact absurd hs (by simp [shape])
    | internal id p pi cs =>
      obtain ⟨hlen, hlk, hok⟩ := hs
      have hne : cs ≠ [] := by
        have := hc (Nat.succ_pos h)
        intro e; subst e; simp [count] at this
      have hi2 : i ≤ (children_contents h cs).length := hi
      obtain ⟨c, hget, hj, hk, hsum, _, hcsz, hcc, hcs, hsplit⟩ :=
        locate_children N h cs i hne hok hi2
      have ihc := ih c.2 (locate cs i).2 x nid hcs (fun _ => by omega) hk
      rw [insert_node_internal N h id p pi cs i x nid c hget]
      have hcont : (internal id p pi cs).contents (h + 1) = children_contents h cs := rfl
      rw [hcont]
      rcases hres : insert_node N h c.2 (locate cs i).2 x nid with ⟨⟨a, _ | b⟩, nid1⟩
      · obtain ⟨has, hac, hacnt, hap, hapi⟩ := ihc.1 a nid1 hres
        simp only []
        constructor
        · intro a2 nid2 heq
          simp only [Prod.mk.injEq, and_true] at heq
          obtain ⟨rfl, _⟩ := heq
          have hset := list_set_split cs (locate cs i).1 (c.1 + 1, a) hj
          have hok2 : children_ok N h (cs.set (locate cs i).1 (c.1 + 1, a)) := by
            rw [hset, children_ok_append, children_ok_cons]
            refine ⟨children_ok_take N h cs _ hok, ⟨?_, Nat.le_trans hcc hacnt, has⟩,
              children_ok_drop N h cs _ hok⟩
            show c.1 + 1 = a.subtree_size
            rw [shape_subtree_size N h a has, hac, emplace_at_length, hcsz]
          refine ⟨⟨by rw [List.length_set]; exact hlen,
            linked_set id cs 0 _ c _ hlk hget hap hapi, hok2⟩, ?_, ?_, rfl, rfl⟩
          · show children_contents h (cs.set (locate cs i).1 (c.1 + 1, a)) = _
            rw [hset, children_contents_append, children_contents_cons]
            have hcc2 : children_contents h cs = children_contents h (cs.take (locate cs i).1)
                ++ c.2.contents h ++ children_contents h (cs.drop ((locate cs i).1 + 1)) := by
              conv_lhs => rw [hsplit]
              rw [children_contents_append, children_contents_cons, List.append_assoc]
            have hm := emplace_at_middle (children_contents h (cs.take (locate cs i).1))
              (c.2.contents h) (children_contents h (cs.drop ((locate cs i).1 + 1)))
              (locate cs i).2 x hk
            rw [hsum] at hm
            rw [hcc2, hm, hac, List.append_assoc]
          · show cs.length ≤ (cs.set (locate cs i).1 (c.1 + 1, a)).length
            rw [List.length_set]
        · intro a2 b2 nid2 heq
          simp at heq
      · obtain ⟨has, hbs, hacnt, hbcnt, hab, _⟩ := ihc.2 a b nid1 hres
        obtain ⟨e1, hok2, hcont2, hlen2⟩ := promote_spec N h cs (locate cs i).1 c a b
          (locate cs i).2 x hok hj hsplit has hbs hacnt hbcnt hab hk
        rw [hsum] at hcont2
        simp only []
        by_cases hlt : cs.length < N
        · rw [if_pos hlt]
          constructor
          · intro a2 nid2 heq
            simp only [Prod.mk.injEq, and_true] at heq
            obtain ⟨rfl, _⟩ := heq
            refine ⟨mk_internal_shape N h id p pi _ (by omega) hok2, ?_, ?_, rfl, rfl⟩
            · rw [mk_internal_contents, hcont2]
            · rw [mk_internal_count, hlen2]; simp [count]
          · intro a2 b2 nid2 heq
            simp at heq
        · rw [if_neg hlt]
          have hlenN : cs.length = N := by omega
          have hsl : (cs.set (locate cs i).1 (a.subtree_size, a)).length = N := by
            rw [List.length_set]; exact hlenN
          rw [hsl, hf1]
          have htl : ((cs.set (locate cs i).1 (a.subtree_size, a)).take (N / 2)).length = N / 2 := by
            rw [List.length_take]; omega
          have hdl : ((cs.set (locate cs i).1 (a.subtree_size, a)).drop (N / 2)).length = N / 2 := by
            rw [List.length_drop]; omega
          constructor
          · intro a2 nid2 heq
            split_ifs at heq <;> simp at heq
          · intro a2 b2 nid2 heq
            split_ifs at heq with hjk
            · simp only [Prod.mk.injEq, Option.some.injEq] at heq
              obtain ⟨⟨rfl, rfl⟩, _⟩ := heq
              have hAB : emplace_at ((cs.set (locate cs i).1 (a.subtree_size, a)).take (N / 2))
                    ((locate cs i).1 + 1) (b.subtree_size, b)
                  ++ (cs.set (locate cs i).1 (a.subtree_size, a)).drop (N / 2)
                  = emplace_at (cs.set (locate cs i).1 (a.subtree_size, a))
                      ((locate cs i).1 + 1) (b.subtree_size, b) := by
                rw [← emplace_at_left _ _ _ _ (by omega), List.take_append_drop]
              rw [← hAB, children_ok_append] at hok2
              rw [← hAB, children_contents_append] at hcont2
              refine ⟨mk_internal_shape N h id p pi _ ?_ hok2.1,
                mk_internal_shape N h nid1 p (pi + 1) _ ?_ hok2.2, ?_, ?_, ?_, rfl, rfl⟩
              · rw [emplace_at_length]; omega
              · omega
              · rw [mk_internal_count, emplace_at_length]; omega
              · rw [mk_internal_count]; omega
              · rw [mk_internal_contents, mk_internal_contents, hcont2]
            · simp only [Prod.mk.injEq, Option.some.injEq] at heq
              obtain ⟨⟨rfl, rfl⟩, _⟩ := heq
              have hAB : (cs.set (locate cs i).1 (a.subtree_size, a)).take (N / 2)
                  ++ emplace_at ((cs.set (locate cs i).1 (a.subtree_size, a)).drop (N / 2))
                    ((locate cs i).1 + 1 - N / 2) (b.subtree_size, b)
                  = emplace_at (cs.set (locate cs i).1 (a.subtree_size, a))
                      ((locate cs i).1 + 1) (b.subtree_size, b) := by
                have := emplace_at_right
                  ((cs.set (locate cs i).1 (a.subtree_size, a)).take (N / 2))
                  ((cs.set (locate cs i).1 (a.subtree_size, a)).drop (N / 2))
                  ((locate cs i).1 + 1) (b.subtree_size, b) (by omega)
                rw [List.take_append_drop, htl] at this
                exact this.symm
              rw [← hAB, children_ok_append] at hok2
              rw [← hAB, children_contents_append] at hcont2
              refine ⟨mk_internal_shape N h id p pi _ ?_ hok2.1,
                mk_internal_shape N h nid1 p (pi + 1) _ ?_ hok2.2, ?_, ?_, ?_, rfl, rfl⟩
              · omega
              · rw [emplace_at_length]; omega
              · rw [mk_internal_count]; omega
              · rw [mk_internal_count, emplace_at_length]; omega
              · rw [mk_internal_contents, mk_internal_contents, hcont2]

theorem borrow_left_spec (N : Nat) :
    ∀ (h : Nat) (l c : Node T), l.shape N h → c.shape N h → 1 ≤ l.count → c.count + 1 ≤ N →
      (borrow_left l c).1.shape N h ∧ (borrow_left l c).2.shape N h ∧
      (borrow_left l c).1.count = l.count - 1 ∧ (borrow_left l c).2.count = c.count + 1 ∧
      (borrow_left l c).1.contents h ++ (borrow_left l c).2.contents h
        = l.contents h ++ c.contents h := by
  intro h l c hl hc h1 h2
  cases h with
  | zero =>
    cases l with
    | internal _ _ _ _ => exact absurd hl (by simp [shape])
    | leaf lid lp lpi les =>
      cases c with
      | internal _ _ _ _ => exact absurd hc (by simp [shape])
      | leaf cid cp cpi ces =>
        simp only [count, shape, borrow_left, contents] at *
        refine ⟨?_, ?_, ?_, ?_, ?_⟩
        · rw [List.length_take]; omega
        · rw [List.length_append, List.length_drop]; omega
        · rw [List.length_take]; omega
        · rw [List.length_append, List.length_drop]; omega
        · rw [← List.append_assoc, List.take_append_drop]
  | succ h =>
    cases l with
    | leaf _ _ _ _ => exact absurd hl (by simp [shape])
    | internal lid lp lpi lcs =>
      cases c with
      | leaf _ _ _ _ => exact absurd hc (by simp [shape])
      | internal cid cp cpi ccs =>
        obtain ⟨hl1, _, hl3⟩ := hl
        obtain ⟨hc1, _, hc3⟩ := hc
        simp only [count] at h1 h2
        simp only [borrow_left]
        have hok1 := children_ok_take N h lcs (lcs.length - 1) hl3
        have hok2 : children_ok N h (lcs.drop (lcs.length - 1) ++ ccs) :=
          (children_ok_append N h _ _).2 ⟨children_ok_drop N h lcs _ hl3, hc3⟩
        refine ⟨mk_internal_shape N h _ _ _ _ ?_ hok1, mk_internal_shape N h _ _ _ _ ?_ hok2,
          ?_, ?_, ?_⟩
        · rw [List.length_take]; omega
        · rw [List.length_append, List.length_drop]; omega
        · rw [mk_internal_count, List.length_take]; simp only [count]; omega
        · rw [mk_internal_count, List.length_append, List.length_drop]; simp only [count]; omega
        · rw [mk_internal_contents, mk_internal_contents, ← children_contents_append,
            ← List.append_assoc, List.take_append_drop, children_contents_append]
          rfl

theorem borrow_right_spec (N : Nat) :
    ∀ (h : Nat) (c r : Node T), c.shape N h → r.shape N h → 1 ≤ r.count → c.count + 1 ≤ N →
      (borrow_right c r).1.shape N h ∧ (borrow_right c r).2.shape N h ∧
      (borrow_right c r).1.count = c.count + 1 ∧ (borrow_right c r).2.count = r.count - 1 ∧
      (borrow_right c r).1.contents h ++ (borrow_right c r).2.contents h
        = c.contents h ++ r.contents h := by
  intro h c r hc hr h1 h2
  cases h with
  | zero =>
    cases c with
    | internal _ _ _ _ => exact absurd hc (by simp [shape])
    | leaf cid cp cpi ces =>
      cases r with
      | internal _ _ _ _ => exact absurd hr (by simp [shape])
      | leaf rid rp rpi res =>
        simp only [count, shape, borrow_right, contents] at *
        refine ⟨?_, ?_, ?_, ?_, ?_⟩
        · rw [List.length_append, List.length_take]; omega
        · rw [List.length_drop]; omega
        · rw [List.length_append, List.length_take]; omega
        · rw [List.length_drop]
        · rw [List.append_assoc, List.take_append_drop]
  | succ h =>
    cases c with
    | leaf _ _ _ _ => exact absurd hc (by simp [shape])
    | internal cid cp cpi ccs =>
      cases r with
      | leaf _ _ _ _ => exact absurd hr (by simp [shape])
      | internal rid rp rpi rcs =>
        obtain ⟨hc1, _, hc3⟩ := hc
        obtain ⟨hr1, _, hr3⟩ := hr
        simp only [count] at h1 h2
        simp only [borrow_right]
        have hok1 : children_ok N h (ccs ++ rcs.take 1) :=
          (children_ok_append N h _ _).2 ⟨hc3, children_ok_take N h rcs _ hr3⟩
        have hok2 := children_ok_drop N h rcs 1 hr3
        refine ⟨mk_internal_shape N h _ _ _ _ ?_ hok1, mk_internal_shape N h _ _ _ _ ?_ hok2,
          ?_, ?_, ?_⟩
        · rw [List.length_append, List.length_take]; omega
        · rw [List.length_drop]; omega
        · rw [mk_internal_count, List.length_append, List.length_take]; simp only [count]; omega
        · rw [mk_internal_count, List.length_drop]; simp only [count]
        · rw [mk_internal_contents, mk_internal_contents, ← children_contents_append,
            List.append_assoc, List.take_append_drop, children_contents_append]
          rfl

theorem merge_spec (N : Nat) :
    ∀ (h : Nat) (l r : Node T), l.shape N h → r.shape N h → l.count + r.count ≤ N →
      (merge l r).shape N h ∧ (merge l r).count = l.count + r.count ∧
      (merge l r).contents h = l.contents h ++ r.contents h := by
  intro h l r hl hr h1
  cases h with
  | zero =>
    cases l with
    | internal _ _ _ _ => exact absurd hl (by simp [shape])
    | leaf lid lp lpi les =>
      cases r with
      | internal _ _ _ _ => exact absurd hr (by simp [shape])
      | leaf rid rp rpi res =>
        simp only [count, shape, merge, contents] at *
        refine ⟨?_, ?_, trivial⟩
        · rw [List.length_append]; omega
        · rw [List.length_append]
  | succ h =>
    cases l with
    | leaf _ _ _ _ => exact absurd hl (by simp [shape])
    | internal lid lp lpi lcs =>
      cases r with
      | leaf _ _ _ _ => exact absurd hr (by simp [shape])
      | internal rid rp rpi rcs =>
        obtain ⟨hl1, _, hl3⟩ := hl
        obtain ⟨hr1, _, hr3⟩ := hr
        simp only [count] at h1
        simp only [merge]
        have hok : children_ok N h (lcs ++ rcs) := (children_ok_append N h _ _).2 ⟨hl3, hr3⟩
        refine ⟨mk_internal_shape N h _ _ _ _ ?_ hok, ?_, ?_⟩
        · rw [List.length_append]; omega
        · rw [mk_internal_count, List.length_append]; simp only [count]
        · rw [mk_internal_contents, children_contents_append]
          rfl

theorem rebalance_with_left (N : Nat) (pre post : List (Nat × Node T)) (l c : Nat × Node T) :
    rebalance N (pre ++ l :: c :: post) (pre.length + 1) =
      if N / 2 < l.2.count then
        pre ++ ((borrow_left l.2 c.2).1.subtree_size, (borrow_left l.2 c.2).1) ::
          ((borrow_left l.2 c.2).2.subtree_size, (borrow_left l.2 c.2).2) :: post
      else
        match post with
        | [] => pre ++ ((merge l.2 c.2).subtree_size, merge l.2 c.2) :: post
        | r :: post1 =>
          if N / 2 < r.2.count then
            pre ++ l :: ((borrow_right c.2 r.2).1.subtree_size, (borrow_right c.2 r.2).1) ::
              ((borrow_right c.2 r.2).2.subtree_size, (borrow_right c.2 r.2).2) :: post1
          else pre ++ ((merge l.2 c.2).subtree_size, merge l.2 c.2) :: post := by
  have e1 : (pre ++ l :: c :: post)[pre.length + 1]? = some c := by
    rw [List.getElem?_append_right (by omega)]; simp
  have e2 : (pre ++ l :: c :: post)[pre.length + 1 - 1]? = some l := by
    rw [Nat.add_sub_cancel, List.getElem?_append_right (by omega)]; simp
  have e3 : (pre ++ l :: c :: post)[pre.length + 1 + 1]? = post[0]? := by
    rw [List.getElem?_append_right (by omega)]
    have : pre.length + 1 + 1 - pre.length = 2 := by omega
    rw [this]; simp
  have s1 : ∀ X Y, ((pre ++ l :: c :: post).set (pre.length + 1 - 1) X).set (pre.length + 1) Y
      = pre ++ X :: Y :: post := by
    intro X Y
    rw [Nat.add_sub_cancel, List.set_append_right _ _ (by omega), Nat.sub_self,
      List.set_cons_zero, List.set_append_right _ _ (by omega)]
    have : pre.length + 1 - pre.length = 1 := by omega
    rw [this]; rfl
  have s2 : ∀ X, erase_at ((pre ++ l :: c :: post).set (pre.length + 1 - 1) X) (pre.length + 1)
      = pre ++ X :: post := by
    intro X
    rw [Nat.add_sub_cancel, List.set_append_right _ _ (by omega), Nat.sub_self,
      List.set_cons_zero, erase_at_eq_eraseIdx, List.eraseIdx_append_of_length_le (by omega)]
    have : pre.length + 1 - pre.length = 1 := by omega
    rw [this]; rfl
  unfold rebalance
  simp only [e1, e2, e3, Nat.succ_pos, if_true]
  cases post with
  | nil =>
    simp only [List.getElem?_nil]
    split_ifs
    · rw [s1]
    · rw [s2]
  | cons r post1 =>
    simp only [List.getElem?_cons_zero]
    split_ifs
    · rw [s1]
    · rw [List.set_append_right _ _ (by omega), List.set_append_right _ _ (by omega)]
      have h1 : pre.length + 1 - pre.length = 1 := by omega
      have h2 : pre.length + 1 + 1 - pre.length = 2 := by omega
      rw [h1, h2]; rfl
    · rw [s2]

theorem rebalance_first (N : Nat) (post : List (Nat × Node T)) (c r : Nat × Node T) :
    rebalance N (c :: r :: post) 0 =
      if N / 2 < r.2.count then
        ((borrow_right c.2 r.2).1.subtree_size, (borrow_right c.2 r.2).1) ::
          ((borrow_right c.2 r.2).2.subtree_size, (borrow_right c.2 r.2).2) :: post
      else ((merge c.2 r.2).subtree_size, merge c.2 r.2) :: post := by
  unfold rebalance
  simp only [List.getElem?_cons_zero, Nat.lt_irrefl, if_false, Nat.zero_add,
    List.getElem?_cons_succ]
  split_ifs <;> rfl

theorem rebalance_spec_first (N : Nat) (hN : 4 ≤ N) (hE : N % 2 = 0) (h : Nat)
    (post : List (Nat × Node T)) (c r : Nat × Node T)
    (hc : c.2.shape N h) (hcc : c.2.count + 1 = N / 2)
    (hr : children_ok N h (r :: post)) :
    children_ok N h (rebalance N (c :: r :: post) 0) ∧
    children_contents h (rebalance N (c :: r :: post) 0)
      = children_contents h (c :: r :: post) ∧
    (rebalance N (c :: r :: post) 0).length ≤ (c :: r :: post).length ∧
    (c :: r :: post).length ≤ (rebalance N (c :: r :: post) 0).length + 1 := by
  rw [children_ok_cons] at hr
  obtain ⟨⟨_, hrc, hrs⟩, hpost⟩ := hr
  have hrN : r.2.count ≤ N := by
    cases h with
    | zero =>
      cases hn : r.2 with
      | leaf _ _ _ es => rw [hn] at hrs; exact hrs
      | internal _ _ _ _ => rw [hn] at hrs; exact absurd hrs (by simp [shape])
    | succ h =>
      cases hn : r.2 with
      | leaf _ _ _ es => rw [hn] at hrs; exact absurd hrs (by simp [shape])
      | internal _ _ _ _ => rw [hn] at hrs; exact hrs.1
  rw [rebalance_first]
  split_ifs with hb
  · obtain ⟨s1, s2, c1, c2, hcont⟩ := borrow_right_spec N h c.2 r.2 hc hrs (by omega) (by omega)
    refine ⟨?_, ?_, by simp, by simp⟩
    · rw [children_ok_cons, children_ok_cons]
      exact ⟨⟨rfl, by show N / 2 ≤ (borrow_right c.2 r.2).1.count; omega, s1⟩,
        ⟨rfl, by show N / 2 ≤ (borrow_right c.2 r.2).2.count; omega, s2⟩, hpost⟩
    · simp only [children_contents_cons]
      rw [← List.append_assoc, hcont, List.append_assoc]
  · obtain ⟨s1, c1, hcont⟩ := merge_spec N h c.2 r.2 hc hrs (by omega)
    refine ⟨?_, ?_, by simp, by simp⟩
    · rw [children_ok_cons]
      exact ⟨⟨rfl, by show N / 2 ≤ (merge c.2 r.2).count; omega, s1⟩, hpost⟩
    · simp only [children_contents_cons]
      rw [hcont, List.append_assoc]

theorem shape_count_le (N h : Nat) (n : Node T) (hs : n.shape N h) : n.count ≤ N := by
  cases h with
  | zero =>
    cases n with
    | leaf _ _ _ es => exact hs
    | internal _ _ _ _ => exact absurd hs (by simp [shape])
  | succ h =>
    cases n with
    | leaf _ _ _ es => exact absurd hs (by simp [shape])
    | internal _ _ _ _ => exact hs.1

theorem rebalance_spec_left (N : Nat) (hN : 4 ≤ N) (hE : N % 2 = 0) (h : Nat)
    (pre post : List (Nat × Node T)) (l c : Nat × Node T)
    (hc : c.2.shape N h) (hcc : c.2.count + 1 = N / 2)
    (hpre : children_ok N h pre) (hl : children_ok N h [l]) (hpost : children_ok N h post) :
    children_ok N h (rebalance N (pre ++ l :: c :: post) (pre.length + 1)) ∧
    children_contents h (rebalance N (pre ++ l :: c :: post) (pre.length + 1))
      = children_contents h (pre ++ l :: c :: post) ∧
    (rebalance N (pre ++ l :: c :: post) (pre.length + 1)).length
      ≤ (pre ++ l :: c :: post).length ∧
    (pre ++ l :: c :: post).length
      ≤ (rebalance N (pre ++ l :: c :: post) (pre.length + 1)).length + 1 := by
  have hl1 := hl l (List.mem_singleton_self l)
  obtain ⟨hlsz, hlc, hls⟩ := hl1
  have hlN := shape_count_le N h l.2 hls
  have hmerge : ¬ N / 2 < l.2.count →
      children_ok N h (pre ++ ((merge l.2 c.2).subtree_size, merge l.2 c.2) :: post) ∧
      children_contents h (pre ++ ((merge l.2 c.2).subtree_size, merge l.2 c.2) :: post)
        = children_contents h (pre ++ l :: c :: post) ∧
      (pre ++ ((merge l.2 c.2).subtree_size, merge l.2 c.2) :: post).length
        ≤ (pre ++ l :: c :: post).length ∧
      (pre ++ l :: c :: post).length
        ≤ (pre ++ ((merge l.2 c.2).subtree_size, merge l.2 c.2) :: post).length + 1 := by
    intro hb
    obtain ⟨s1, c1, hcont⟩ := merge_spec N h l.2 c.2 hls hc (by omega)
    refine ⟨?_, ?_, by simp, by simp only [List.length_append, List.length_cons]; omega⟩
    · rw [children_ok_append, children_ok_cons]
      exact ⟨hpre, ⟨rfl, by show N / 2 ≤ (merge l.2 c.2).count; omega, s1⟩, hpost⟩
    · simp only [children_contents_append, children_contents_cons]
      rw [hcont, List.append_assoc]
  rw [rebalance_with_left]
  split_ifs with hb
  · obtain ⟨s1, s2, c1, c2, hcont⟩ := borrow_left_spec N h l.2 c.2 hls hc (by omega) (by omega)
    refine ⟨?_, ?_, by simp, by simp⟩
    · rw [children_ok_append, children_ok_cons, children_ok_cons]
      exact ⟨hpre, ⟨rfl, by show N / 2 ≤ (borrow_left l.2 c.2).1.count; omega, s1⟩,
        ⟨rfl, by show N / 2 ≤ (borrow_left l.2 c.2).2.count; omega, s2⟩, hpost⟩
    · simp only [children_contents_append, children_contents_cons]
      rw [← List.append_assoc (contents h _), hcont, List.append_assoc]
  · cases post with
    | nil => exact hmerge hb
    | cons r post1 =>
      simp only []
      split_ifs with hb2
      · rw [children_ok_cons] at hpost
        obtain ⟨⟨_, hrc, hrs⟩, hpost1⟩ := hpost
        have hrN := shape_count_le N h r.2 hrs
        obtain ⟨s1, s2, c1, c2, hcont⟩ :=
          borrow_right_spec N h c.2 r.2 hc hrs (by omega) (by omega)
        refine ⟨?_, ?_, by simp, by simp⟩
        · rw [children_ok_append, children_ok_cons, children_ok_cons, children_ok_cons]
          exact ⟨hpre, ⟨hlsz, hlc, hls⟩,
            ⟨rfl, by show N / 2 ≤ (borrow_right c.2 r.2).1.count; omega, s1⟩,
            ⟨rfl, by show N / 2 ≤ (borrow_right c.2 r.2).2.count; omega, s2⟩, hpost1⟩
        · simp only [children_contents_append, children_contents_cons]
          rw [← List.append_assoc (contents h (borrow_right c.2 r.2).1), hcont,
            List.append_assoc]
      · exact hmerge hb

/-- Rebalancing of the child at index `j`, which is one entry short of `N / 2`:
the child array is again well formed, holds the same elements in the same order and
has lost at most one entry. -/
theorem rebalance_spec (N : Nat) (hN : 4 ≤ N) (hE : N % 2 = 0) (h : Nat)
    (cs : List (Nat × Node T)) (j : Nat) (c : Nat × Node T)
    (hget : cs[j]? = some c) (hlen : 2 ≤ cs.length)
    (hc : c.2.shape N h) (hcc : c.2.count + 1 = N / 2)
    (hpre : children_ok N h (cs.take j)) (hpost : children_ok N h (cs.drop (j + 1))) :
    children_ok N h (rebalance N cs j) ∧
    children_contents h (rebalance N cs j) = children_contents h cs ∧
    (rebalance N cs j).length ≤ cs.length ∧ cs.length ≤ (rebalance N cs j).length + 1 := by
  have hsplit := list_split_at cs j c hget
  cases j with
  | zero =>
    rw [List.take_zero, List.nil_append] at hsplit
    cases hd : cs.drop (0 + 1) with
    | nil =>
      rw [hd] at hsplit
      rw [hsplit] at hlen
      simp at hlen
    | cons r post =>
      rw [hd] at hsplit hpost
      rw [hsplit]
      exact rebalance_spec_first N hN hE h post c r hc hcc hpost
  | succ j =>
    have hj : j + 1 < cs.length := by
      rcases Nat.lt_or_ge (j + 1) cs.length with h | h
      · exact h
      · rw [List.getElem?_eq_none h] at hget; cases hget
    have hjl : j < cs.length := by omega
    have htake : cs.take (j + 1) = cs.take j ++ [cs[j]] := by
      rw [List.take_succ, List.getElem?_eq_getElem hjl]; rfl
    rw [htake] at hsplit hpre
    rw [children_ok_append] at hpre
    have hpl : (cs.take j).length = j := by rw [List.length_take]; omega
    have key := rebalance_spec_left N hN hE h (cs.take j) (cs.drop (j + 1 + 1)) cs[j] c hc hcc
      hpre.1 hpre.2 hpost
    rw [hpl] at key
    have hsplit2 : cs = cs.take j ++ cs[j] :: c :: cs.drop (j + 1 + 1) := by
      rw [List.append_assoc] at hsplit
      exact hsplit
    rw [← hsplit2] at key
    exact key

theorem erase_node_internal (N h id : Nat) (p : Option Nat) (pi : Nat)
    (cs : List (Nat × Node T)) (i : Nat) (c : Nat × Node T)
    (hc : cs[(locate cs i).1]? = some c) :
    erase_node N (h + 1) (internal id p pi cs) i =
      if N / 2 ≤ (erase_node N h c.2 (locate cs i).2).count then
        internal id p pi (cs.set (locate cs i).1 (c.1 - 1, erase_node N h c.2 (locate cs i).2))
      else
        mk_internal id p pi
          (rebalance N (cs.set (locate cs i).1 (c.1 - 1, erase_node N h c.2 (locate cs i).2))
            (locate cs i).1) := by
  simp only [erase_node, hc]

theorem erase_node_spec (N : Nat) (hN : 4 ≤ N) (hE : N % 2 = 0) :
    ∀ (h : Nat) (n : Node T) (i : Nat),
      n.shape N h → (0 < h → 2 ≤ n.count) → i < (n.contents h).length →
      (erase_node N h n i).shape N h ∧
      (erase_node N h n i).contents h = erase_at (n.contents h) i ∧
      n.count ≤ (erase_node N h n i).count + 1 ∧ (erase_node N h n i).count ≤ n.count ∧
      (erase_node N h n i).parent_ = n.parent_ ∧
      (erase_node N h n i).parent_index_ = n.parent_index_ := by
  obtain ⟨hf1, hf2, hf3, hf4⟩ := half_facts N hN hE
  intro h
  induction h with
  | zero =>
    intro n i hs _ hi
    cases n with
    | internal id p pi cs => exact absurd hs (by simp [shape])
    | leaf id p pi es =>
      have hle : es.length ≤ N := hs
      simp only [contents] at hi
      simp only [erase_node, contents, count, shape, parent_, parent_index_]
      rw [erase_at_length es i hi]
      refine ⟨by omega, trivial, by omega, by omega, trivial, trivial⟩
  | succ h ih =>
    intro n i hs hc hi
    cases n with
    | leaf id p pi es => exact absurd hs (by simp [shape])
    | internal id p pi cs =>
      obtain ⟨hlen, hlk, hok⟩ := hs
      have h2 : 2 ≤ cs.length := hc (Nat.succ_pos h)
      have hne : cs ≠ [] := by
        intro e; subst e; simp at h2
      have hi2 : i < (children_contents h cs).length := hi
      obtain ⟨c, hget, hj, _, hsum, hklt, hcsz, hcc, hcs, hsplit⟩ :=
        locate_children N h cs i hne hok (Nat.le_of_lt hi2)
      have hk := hklt hi2
      obtain ⟨has, hacont, hacnt1, hacnt2, hap, hapi⟩ :=
        ih c.2 (locate cs i).2 hcs (fun _ => by omega) hk
      rw [erase_node_internal N h id p pi cs i c hget]
      have hcont : (internal id p pi cs).contents (h + 1) = children_contents h cs := rfl
      rw [hcont]
      have hset := list_set_split cs (locate cs i).1
        (c.1 - 1, erase_node N h c.2 (locate cs i).2) hj
      have hsz : c.1 - 1 = (erase_node N h c.2 (locate cs i).2).subtree_size := by
        rw [shape_subtree_size N h _ has, hacont, erase_at_length _ _ hk, hcsz]
      have hcc2 : children_contents h cs = children_contents h (cs.take (locate cs i).1)
          ++ c.2.contents h ++ children_contents h (cs.drop ((locate cs i).1 + 1)) := by
        conv_lhs => rw [hsplit]
        rw [children_contents_append, children_contents_cons, List.append_assoc]
      have hm := erase_at_middle (children_contents h (cs.take (locate cs i).1))
        (c.2.contents h) (children_contents h (cs.drop ((locate cs i).1 + 1)))
        (locate cs i).2 hk
      rw [hsum, ← hcc2] at hm
      have hcont1 : children_contents h
          (cs.set (locate cs i).1 (c.1 - 1, erase_node N h c.2 (locate cs i).2))
          = erase_at (children_contents h cs) i := by
        rw [hset, children_contents_append, children_contents_cons, hm, hacont,
          List.append_assoc]
      split_ifs with hbig
      · have hok1 : children_ok N h
            (cs.set (locate cs i).1 (c.1 - 1, erase_node N h c.2 (locate cs i).2)) := by
          rw [hset, children_ok_append, children_ok_cons]
          exact ⟨children_ok_take N h cs _ hok, ⟨hsz, hbig, has⟩, children_ok_drop N h cs _ hok⟩
        refine ⟨⟨by rw [List.length_set]; exact hlen,
          linked_set id cs 0 _ c _ hlk hget hap hapi, hok1⟩, hcont1, ?_, ?_, rfl, rfl⟩
        · show cs.length ≤ (cs.set (locate cs i).1 _).length + 1
          rw [List.length_set]; omega
        · show (cs.set (locate cs i).1 _).length ≤ cs.length
          rw [List.length_set]
      · have hget1 : (cs.set (locate cs i).1 (c.1 - 1, erase_node N h c.2 (locate cs i).2))[
            (locate cs i).1]? = some (c.1 - 1, erase_node N h c.2 (locate cs i).2) :=
          List.getElem?_set_self hj
        have hpre : children_ok N h
            ((cs.set (locate cs i).1 (c.1 - 1, erase_node N h c.2 (locate cs i).2)).take
              (locate cs i).1) := by
          have hpl : (cs.take (locate cs i).1).length = (locate cs i).1 := by
            rw [List.length_take]; omega
          rw [hset, List.take_left' hpl]
          exact children_ok_take N h cs _ hok
        have hpost : children_ok N h
            ((cs.set (locate cs i).1 (c.1 - 1, erase_node N h c.2 (locate cs i).2)).drop
              ((locate cs i).1 + 1)) := by
          rw [List.drop_set_of_lt _ _ (Nat.lt_succ_self _)]
          exact children_ok_drop N h cs _ hok
        obtain ⟨r1, r2, r3, r4⟩ := rebalance_spec N hN hE h _ (locate cs i).1 _ hget1
          (by rw [List.length_set]; exact h2) has
          (show (erase_node N h c.2 (locate cs i).2).count + 1 = N / 2 by omega) hpre hpost
        rw [List.length_set] at r3 r4
        refine ⟨mk_internal_shape N h id p pi _ (by omega) r1, ?_, ?_, ?_, rfl, rfl⟩
        · rw [mk_internal_contents, r2, hcont1]
        · rw [mk_internal_count]; simp only [count]; omega
        · rw [mk_internal_count]; simp only [count]; omega

end Node

namespace blist

variable {T : Type} {NodeSize : Nat}

open Node

theorem validate_size (b : blist T NodeSize) (hb : b.validate) :
    b.size_ = b.contents.length := by
  obtain ⟨_, hs, _, _, hsz⟩ := hb
  rw [hsz, shape_subtree_size NodeSize _ _ hs]; rfl

theorem empty_blist_validate : (empty_blist : blist T NodeSize).validate := by
  refine ⟨Nat.le_refl 1, ?_, ?_, rfl, rfl⟩
  · show ([] : List T).length ≤ NodeSize
    exact Nat.zero_le _
  · intro h; exact absurd h (Nat.lt_irrefl 1)

/-- The effect of `emplace` on a valid list: the result is valid, holds the new
element at position `i`, and its size has grown by one. -/
theorem emplace_spec (hN : 4 ≤ NodeSize) (hE : NodeSize % 2 = 0) (b : blist T NodeSize)
    (i : Nat) (x : T) (hb : b.validate) (hi : i ≤ b.size_) :
    (b.emplace i x).validate ∧ (b.emplace i x).contents = emplace_at b.contents i x ∧
    (b.emplace i x).size_ = b.size_ + 1 := by
  have hsize := validate_size b hb
  obtain ⟨hd, hs, hc, hp, hsz⟩ := hb
  have hi2 : i ≤ (b.root.contents (b.depth_ - 1)).length := by
    rw [hsize] at hi; exact hi
  have key := insert_node_spec NodeSize hN hE (b.depth_ - 1) b.root i x b.next_id hs
    (fun h => by have := hc (by omega); omega) hi2
  unfold emplace
  rcases hres : insert_node NodeSize (b.depth_ - 1) b.root i x b.next_id with ⟨⟨a, _ | c⟩, nid⟩
  · obtain ⟨has, hacont, hacnt, hap, _⟩ := key.1 a nid hres
    simp only []
    refine ⟨⟨hd, has, fun h => Nat.le_trans (hc h) hacnt, hap.trans hp, ?_⟩, hacont, trivial⟩
    show b.size_ + 1 = a.subtree_size
    rw [shape_subtree_size NodeSize _ a has, hacont, emplace_at_length, hsize]; rfl
  · obtain ⟨has, hcs, hacnt, hccnt, hcont, _, _⟩ := key.2 a c nid hres
    simp only []
    have hok : children_ok NodeSize (b.depth_ - 1) [(a.subtree_size, a), (c.subtree_size, c)] := by
      rw [children_ok_cons, children_ok_cons]
      exact ⟨⟨rfl, hacnt, has⟩, ⟨rfl, hccnt, hcs⟩, fun d hd => by cases hd⟩
    have hfuel : b.depth_ + 1 - 1 = (b.depth_ - 1) + 1 := by omega
    have hcont2 : (mk_internal nid none 0 [(a.subtree_size, a), (c.subtree_size, c)]).contents
        (b.depth_ + 1 - 1) = emplace_at (b.root.contents (b.depth_ - 1)) i x := by
      rw [hfuel, mk_internal_contents, children_contents_cons, children_contents_cons,
        children_contents_nil, List.append_nil, hcont]
    refine ⟨⟨by show 1 ≤ b.depth_ + 1; omega, ?_, ?_, rfl, ?_⟩, hcont2, trivial⟩
    · show shape NodeSize (b.depth_ + 1 - 1) _
      rw [hfuel]
      exact mk_internal_shape NodeSize _ _ _ _ _ (by simp; omega) hok
    · intro _
      show 2 ≤ (mk_internal nid none 0 [(a.subtree_size, a), (c.subtree_size, c)]).count
      rw [mk_internal_count]; simp
    · show b.size_ + 1
        = (mk_internal nid none 0 [(a.subtree_size, a), (c.subtree_size, c)]).subtree_size
      rw [mk_internal_subtree_size]
      simp only [List.map_cons, List.map_nil, List.sum_cons, List.sum_nil, Nat.add_zero]
      rw [shape_subtree_size NodeSize _ a has, shape_subtree_size NodeSize _ c hcs,
        ← List.length_append, hcont, emplace_at_length, hsize]
      rfl

/-- The effect of `erase` on a valid list: the result is valid, the element at
position `i` is gone, and its size has shrunk by one. -/
theorem erase_spec (hN : 4 ≤ NodeSize) (hE : NodeSize % 2 = 0) (b : blist T NodeSize)
    (i : Nat) (hb : b.validate) (hi : i < b.size_) :
    (b.erase i).validate ∧ (b.erase i).contents = erase_at b.contents i ∧
    (b.erase i).size_ = b.size_ - 1 := by
  have hsize := validate_size b hb
  obtain ⟨hd, hs, hc, hp, hsz⟩ := hb
  have hi2 : i < (b.root.contents (b.depth_ - 1)).length := by
    rw [hsize] at hi; exact hi
  obtain ⟨hrs, hrcont, hrc1, hrc2, hrp, _⟩ := erase_node_spec NodeSize hN hE (b.depth_ - 1) b.root i
    hs (fun h => hc (by omega)) hi2
  have hrsz : b.size_ - 1 = (erase_node NodeSize (b.depth_ - 1) b.root i).subtree_size := by
    rw [shape_subtree_size NodeSize _ _ hrs, hrcont, erase_at_length _ _ hi2, hsize]; rfl
  unfold erase
  generalize erase_node NodeSize (b.depth_ - 1) b.root i = r at hrs hrcont hrc1 hrc2 hrp hrsz
  rcases r with ⟨id, p, pi, es⟩ | ⟨id, p, pi, _ | ⟨c, _ | ⟨d, cs⟩⟩⟩
  · simp only []
    refine ⟨⟨hd, hrs, ?_, hrp.trans hp, hrsz⟩, hrcont, trivial⟩
    intro h1
    have h1' : 1 < b.depth_ := h1
    cases hh : b.depth_ - 1 with
    | zero => omega
    | succ h => rw [hh] at hrs; exact absurd hrs (by simp [shape])
  · simp only []
    refine ⟨⟨hd, hrs, ?_, hrp.trans hp, hrsz⟩, hrcont, trivial⟩
    intro h1
    have h1' : 1 < b.depth_ := h1
    have := hc h1'
    have h0 : (Node.internal id p pi ([] : List (Nat × Node T))).count = 0 := rfl
    omega
  · simp only []
    have hex : ∃ h, b.depth_ - 1 = h + 1 := by
      cases hh : b.depth_ - 1 with
      | zero => rw [hh] at hrs; exact absurd hrs (by simp [shape])
      | succ h => exact ⟨h, rfl⟩
    obtain ⟨h, hh⟩ := hex
    have hrcont2 := hrcont
    rw [hh] at hrs hrcont2
    obtain ⟨_, _, hok⟩ := hrs
    obtain ⟨hc1, hc2, hc3⟩ := hok c (List.mem_singleton_self c)
    have hf := half_facts NodeSize hN hE
    have hfuel : b.depth_ - 1 - 1 = h := by omega
    refine ⟨⟨by show 1 ≤ b.depth_ - 1; omega, ?_, ?_, set_parent_parent _ _ _, ?_⟩, ?_, trivial⟩
    · show shape NodeSize (b.depth_ - 1 - 1) _
      rw [hfuel, set_parent_shape]; exact hc3
    · intro _
      show 2 ≤ (c.2.set_parent none 0).count
      rw [set_parent_count]; omega
    · show b.size_ - 1 = (c.2.set_parent none 0).subtree_size
      rw [set_parent_subtree_size, hrsz, ← hc1]
      simp [subtree_size]
    · show (c.2.set_parent none 0).contents (b.depth_ - 1 - 1)
        = erase_at (b.root.contents (b.depth_ - 1)) i
      rw [hfuel, set_parent_contents, ← hrcont, hh]
      show c.2.contents h = ([c].map (fun c => Node.contents h c.2)).flatten
      simp
  · simp only []
    refine ⟨⟨hd, hrs, ?_, hrp.trans hp, hrsz⟩, hrcont, trivial⟩
    intro _
    show 2 ≤ (c :: d :: cs).length
    simp

theorem emplace_at_end {α : Type} (l : List α) (x : α) : emplace_at l l.length x = l ++ [x] := by
  simp [emplace_at]

theorem emplace_at_zero {α : Type} (l : List α) (x : α) : emplace_at l 0 x = x :: l := by
  simp [emplace_at]

/-- One operation of an admissible trace: the list stays valid and follows the
reference sequence. -/
theorem apply_op_spec (hN : 4 ≤ NodeSize) (hE : NodeSize % 2 = 0) (b : blist T NodeSize)
    (op : Op T) (hb : b.validate) (hadm : admissible b.contents [op]) :
    (b.apply_op op).validate ∧ (b.apply_op op).contents = apply_ref b.contents op := by
  have hsize := validate_size b hb
  cases op with
  | push_back x =>
    obtain ⟨h1, h2, _⟩ := emplace_spec hN hE b b.size_ x hb (Nat.le_refl _)
    refine ⟨h1, ?_⟩
    show (b.emplace b.size_ x).contents = b.contents ++ [x]
    rw [h2, hsize, emplace_at_end]
  | push_front x =>
    obtain ⟨h1, h2, _⟩ := emplace_spec hN hE b 0 x hb (Nat.zero_le _)
    refine ⟨h1, ?_⟩
    show (b.emplace 0 x).contents = x :: b.contents
    rw [h2, emplace_at_zero]
  | erase i =>
    have hi : i < b.contents.length := hadm.1
    obtain ⟨h1, h2, _⟩ := erase_spec hN hE b i hb (by omega)
    refine ⟨h1, ?_⟩
    show (b.erase i).contents = b.contents.eraseIdx i
    rw [h2, erase_at_eq_eraseIdx]

theorem admissible_cons (l : List T) (op : Op T) (ops : List (Op T)) :
    admissible l (op :: ops) ↔ admissible l [op] ∧ admissible (apply_ref l op) ops := by
  cases op <;> simp [admissible, apply_ref]

theorem admissible_take (ops : List (Op T)) :
    ∀ (l : List T) (k : Nat), admissible l ops → admissible l (ops.take k) := by
  induction ops with
  | nil => intro l k h; simpa using h
  | cons op ops ih =>
    intro l k h
    cases k with
    | zero => trivial
    | succ k =>
      rw [admissible_cons] at h
      rw [List.take_succ_cons, admissible_cons]
      exact ⟨h.1, ih _ k h.2⟩

theorem run_spec (hN : 4 ≤ NodeSize) (hE : NodeSize % 2 = 0) (ops : List (Op T)) :
    ∀ (b : blist T NodeSize), b.validate → admissible b.contents ops →
      (run b ops).validate ∧ (run b ops).contents = run_ref b.contents ops := by
  induction ops with
  | nil => intro b hb _; exact ⟨hb, rfl⟩
  | cons op ops ih =>
    intro b hb hadm
    rw [admissible_cons] at hadm
    obtain ⟨h1, h2⟩ := apply_op_spec hN hE b op hb hadm.1
    have := ih (b.apply_op op) h1 (by rw [h2]; exact hadm.2)
    rw [h2] at this
    exact this

theorem admissible_push_back (r : List T) :
    ∀ (l : List T), admissible l (r.map Op.push_back) := by
  induction r with
  | nil => intro l; trivial
  | cons x r ih => intro l; exact ih _

theorem run_push_back (r : List T) :
    ∀ (b : blist T NodeSize), run b (r.map Op.push_back)
      = r.foldl (fun b x => b.push_back x) b := by
  induction r with
  | nil => intro b; rfl
  | cons x r ih => intro b; exact ih _

theorem run_ref_push_back (r : List T) :
    ∀ (l : List T), run_ref l (r.map Op.push_back) = l ++ r := by
  induction r with
  | nil => intro l; simp [run_ref]
  | cons x r ih =>
    intro l
    have := ih (l ++ [x])
    simp only [run_ref, List.map_cons, List.foldl_cons, apply_ref] at this ⊢
    rw [this]; simp

theorem of_range_spec (hN : 4 ≤ NodeSize) (hE : NodeSize % 2 = 0) (r : List T) :
    (of_range r : blist T NodeSize).validate ∧ (of_range r : blist T NodeSize).contents = r := by
  have h := run_spec hN hE (r.map Op.push_back) (empty_blist : blist T NodeSize)
    empty_blist_validate (admissible_push_back r _)
  rw [run_push_back, run_ref_push_back] at h
  exact h

/-- C7: for every admissible trace of `push_back`, `push_front` and `erase` at a
position, applied to an empty `blist` and to an empty reference sequence, after
every step (every prefix of the trace) the contents of the `blist` in iteration
order, its size and its emptiness are those of the reference sequence. -/
theorem blist_refines_sequence (hN : 4 ≤ NodeSize) (hE : NodeSize % 2 = 0)
    (ops : List (Op T)) (hadm : admissible ([] : List T) ops) (k : Nat) :
    (run (empty_blist : blist T NodeSize) (ops.take k)).contents = run_ref [] (ops.take k) ∧
    (run (empty_blist : blist T NodeSize) (ops.take k)).size
      = (run_ref [] (ops.take k)).length ∧
    (run (empty_blist : blist T NodeSize) (ops.take k)).empty
      = (run_ref [] (ops.take k)).isEmpty := by
  have h := run_spec hN hE (ops.take k) (empty_blist : blist T NodeSize) empty_blist_validate
    (admissible_take ops _ k hadm)
  have hc : (empty_blist : blist T NodeSize).contents = [] := rfl
  rw [hc] at h
  have hsz := validate_size _ h.1
  rw [h.2] at hsz
  refine ⟨h.2, hsz, ?_⟩
  unfold empty
  rw [hsz]
  cases run_ref [] (ops.take k) <;> rfl

theorem blist_refines_sequence_witness :
    (4 ≤ 4 ∧ 4 % 2 = 0 ∧
      admissible ([] : List Int)
        [Op.push_back 1, Op.push_back 2, Op.push_front 3, Op.push_back 4, Op.push_front 5,
         Op.push_back 6, Op.erase 2, Op.push_front 7, Op.erase 0, Op.erase 3]) ∧
    (run (empty_blist : blist Int 4)
        ([Op.push_back 1, Op.push_back 2, Op.push_front 3, Op.push_back 4, Op.push_front 5,
         Op.push_back 6, Op.erase 2, Op.push_front 7, Op.erase 0, Op.erase 3].take 10)).contents
      = run_ref []
        ([Op.push_back 1, Op.push_back 2, Op.push_front 3, Op.push_back 4, Op.push_front 5,
         Op.push_back 6, Op.erase 2, Op.push_front 7, Op.erase 0, Op.erase 3].take 10) :=
  ⟨⟨by decide, by decide, by decide⟩,
   (blist_refines_sequence (by decide) (by decide)
      [Op.push_back 1, Op.push_back 2, Op.push_front 3, Op.push_back 4, Op.push_front 5,
       Op.push_back 6, Op.erase 2, Op.push_front 7, Op.erase 0, Op.erase 3] (by decide) 10).1⟩

/-- C8: on a `blist` for which `validate()` holds, `validate()` holds again after
each mutation (`push_back`, `push_front`, `emplace`, `insert`, `erase`): all leaves
are at the same depth, every node but the root has at least `NodeSize / 2` and every
node at most `NodeSize` entries, every child's parent link and parent index are
correct, and every cached subtree size is the sum of the sizes of the children. -/
theorem blist_mutation_validates (hN : 4 ≤ NodeSize) (hE : NodeSize % 2 = 0)
    (b : blist T NodeSize) (hb : b.validate) :
    (∀ x, (b.push_back x).validate) ∧ (∀ x, (b.push_front x).validate) ∧
    (∀ i x, i ≤ b.size → (b.emplace i x).validate ∧ (b.insert i x).validate) ∧
    (∀ i, i < b.size → (b.erase i).validate) := by
  refine ⟨fun x => (emplace_spec hN hE b b.size_ x hb (Nat.le_refl _)).1,
    fun x => (emplace_spec hN hE b 0 x hb (Nat.zero_le _)).1,
    fun i x hi => ⟨(emplace_spec hN hE b i x hb hi).1, (emplace_spec hN hE b i x hb hi).1⟩,
    fun i hi => (erase_spec hN hE b i hb hi).1⟩

theorem blist_mutation_validates_witness :
    (4 ≤ 4 ∧ 4 % 2 = 0 ∧ (of_range [0, 1, 2, 3, 4, 5, 6, 7, 8, 9] : blist Int 4).validate) ∧
    ((of_range [0, 1, 2, 3, 4, 5, 6, 7, 8, 9] : blist Int 4).push_back 10).validate ∧
    ((of_range [0, 1, 2, 3, 4, 5, 6, 7, 8, 9] : blist Int 4).push_front 10).validate ∧
    ((of_range [0, 1, 2, 3, 4, 5, 6, 7, 8, 9] : blist Int 4).insert 5 10).validate ∧
    ((of_range [0, 1, 2, 3, 4, 5, 6, 7, 8, 9] : blist Int 4).erase 5).validate :=
  have h := blist_mutation_validates (by decide) (by decide)
    (of_range [0, 1, 2, 3, 4, 5, 6, 7, 8, 9] : blist Int 4) (by decide)
  ⟨⟨by decide, by decide, by decide⟩, h.1 10, h.2.1 10, (h.2.2.1 5 10 (by decide)).2,
    h.2.2.2 5 (by decide)⟩

/-- C9: move construction from a valid `blist` gives a `blist` that owns the same
root, has the same contents and validates, and leaves the source empty (size 0,
depth 1) and valid; a default-constructed `blist` has size 0, is empty, has depth 1
and validates. -/
theorem blist_move_and_default (b : blist T NodeSize) (hb : b.validate) :
    ((move_ctor b).1.root = b.root ∧ (move_ctor b).1.contents = b.contents ∧
      (move_ctor b).1.validate) ∧
    ((move_ctor b).2.size = 0 ∧ (move_ctor b).2.depth = 1 ∧ (move_ctor b).2.empty = true ∧
      (move_ctor b).2.contents = [] ∧ (move_ctor b).2.validate) ∧
    ((empty_blist : blist T NodeSize).size = 0 ∧ (empty_blist : blist T NodeSize).empty = true ∧
      (empty_blist : blist T NodeSize).depth = 1 ∧ (empty_blist : blist T NodeSize).validate) := by
  refine ⟨⟨rfl, rfl, hb⟩, ⟨rfl, rfl, rfl, rfl, ?_⟩, ⟨rfl, rfl, rfl, empty_blist_validate⟩⟩
  refine ⟨Nat.le_refl 1, ?_, ?_, rfl, rfl⟩
  · show ([] : List T).length ≤ NodeSize
    exact Nat.zero_le _
  · intro h; exact absurd h (Nat.lt_irrefl 1)

theorem blist_move_and_default_witness :
    (of_range [0, 1, 2, 3, 4, 5, 6, 7, 8, 9] : blist Int 8).validate ∧
    (move_ctor (of_range [0, 1, 2, 3, 4, 5, 6, 7, 8, 9] : blist Int 8)).1.contents
      = (of_range [0, 1, 2, 3, 4, 5, 6, 7, 8, 9] : blist Int 8).contents ∧
    (move_ctor (of_range [0, 1, 2, 3, 4, 5, 6, 7, 8, 9] : blist Int 8)).1.validate ∧
    (move_ctor (of_range [0, 1, 2, 3, 4, 5, 6, 7, 8, 9] : blist Int 8)).2.size = 0 ∧
    (move_ctor (of_range [0, 1, 2, 3, 4, 5, 6, 7, 8, 9] : blist Int 8)).2.depth = 1 :=
  have h := blist_move_and_default (of_range [0, 1, 2, 3, 4, 5, 6, 7, 8, 9] : blist Int 8)
    (by decide)
  ⟨by decide, h.1.2.1, h.1.2.2, h.2.1.1, h.2.1.2.1⟩

end blist
